import Mathlib

/-!
Shallow embedding of the mopper mapping engine (Rust) in Lean 4, together
with proofs about the properties its specification states.

Modelling conventions:
* Rust `String` values are modelled by Lean `String` (sequences of chars);
  byte-index slicing in the source is modelled at character level, which
  coincides with the source for ASCII data (all data the spec talks about).
* A Rust panic (out-of-bounds indexing, `unwrap` on `None`, `todo!()`) is
  modelled by `none` / a dedicated `crash` outcome.
* Rust `HashMap` insertion/lookup is modelled by association lists with
  overwrite-on-insert semantics; iteration order of `HashMap`, which Rust
  leaves unspecified, is modelled as first-insertion order.
-/

/-- Model of `GeneralError` (src/error.rs): a list of `(code, message)` pairs. -/
structure GeneralError where
  errors : List (Nat × String)
deriving DecidableEq, Repr

/-- Model of `GeneralError::from_msg` (src/error.rs). -/
def GeneralError.from_msg (message : String) : GeneralError :=
  ⟨[(1, message)]⟩

/-- Outcome of a Rust function that can either return a value, return an
`Err`, or panic. -/
inductive RResult (α : Type) where
  | ok (value : α)
  | err (e : GeneralError)
  | crash
deriving DecidableEq, Repr

/-- Whether an `RResult` is an `Err` (used to state parse-error claims). -/
def RResult.isErr {α : Type} : RResult α → Bool
  | .err _ => true
  | _ => false

/-- Model of `remove_join_alias_prefix` (src/util.rs). The source slices
`variable_name[alias.len() + 1 ..]`, which panics when the string is shorter
than `alias.len() + 1` (and, for multi-byte data, when the slice boundary
falls inside a character); the panic is modelled as `none`. Slicing is
modelled at character level, which coincides with the source for ASCII
aliases and variable names. -/
def removeJoinAliasPref (variable_name : String) (join_alias : Option String) : Option String :=
  match join_alias with
  | some al =>
    if al.data.isPrefixOf variable_name.data then
      if al.length + 1 ≤ variable_name.length then
        some ⟨variable_name.data.drop (al.length + 1)⟩
      else
        none
    else
      some variable_name
  | none => some variable_name

/-- Loop of `parse_template` (src/function/template_parser.rs): one step per
character, carrying the accumulated parts, the current accumulator string,
and the `between_cb` / `escape` flags, exactly as the source's
`try_for_each` closure does. -/
def parseTemplateLoop (template : String) (join_alias : Option String) :
    List Char → List (Bool × String) → String → Bool → Bool →
    RResult (List (Bool × String) × String × Bool × Bool)
  | [], parts, cur, between_cb, escape => .ok (parts, cur, between_cb, escape)
  | c :: rest, parts, cur, between_cb, escape =>
    if c = '{' then
      if escape then
        parseTemplateLoop template join_alias rest parts (cur.push '{') between_cb false
      else if between_cb then
        .err (GeneralError.from_msg
          s!"Error parsing template '{template}': Unescaped '\x7b' found between \x7b\x7d.")
      else
        let parts' := if cur ≠ "" then parts ++ [(false, cur)] else parts
        parseTemplateLoop template join_alias rest parts' "" true escape
    else if c = '}' then
      if escape then
        parseTemplateLoop template join_alias rest parts (cur.push '}') between_cb false
      else if between_cb then
        if cur ≠ "" then
          match removeJoinAliasPref cur join_alias with
          | none => .crash
          | some template_var_name =>
            parseTemplateLoop template join_alias rest
              (parts ++ [(true, template_var_name)]) "" false escape
        else
          parseTemplateLoop template join_alias rest parts cur false escape
      else
        .err (GeneralError.from_msg
          s!"Error parsing template '{template}': Unescaped '\x7d' found between \x7b\x7d.")
    else if c = '\\' then
      if escape then
        parseTemplateLoop template join_alias rest parts (cur.push '\\') between_cb false
      else
        parseTemplateLoop template join_alias rest parts cur between_cb true
    else
      if escape then
        .err (GeneralError.from_msg
          s!"Error parsing template '{template}': character '{c}' is being escaped, but it doesn't need escaping.")
      else
        parseTemplateLoop template join_alias rest parts (cur.push c) between_cb escape

/-- Model of `parse_template` (src/function/template_parser.rs): run the
character loop, then apply the source's epilogue checks (`between_cb` open at
end of input, pending escape at end of input) and push the final literal
part. -/
def parse_template (template : String) (join_alias : Option String) :
    RResult (List (Bool × String)) :=
  match parseTemplateLoop template join_alias template.data [] "" false false with
  | .crash => .crash
  | .err e => .err e
  | .ok (parts, cur, between_cb, escape) =>
    if between_cb then
      .err (GeneralError.from_msg s!"Error parsing template '{template}': missing '\x7d'")
    else if escape then
      .err (GeneralError.from_msg
        s!"Error parsing template '{template}': expecting character to escape after final '\\'")
    else if cur ≠ "" then
      .ok (parts ++ [(false, cur)])
    else
      .ok parts

/-- Spec-side definition for C7, written from the spec's words: the template
`T` with every `\x7b…\x7d` segment removed. The flag says whether the scanner
is currently inside a segment. -/
def removeBraceSegmentsAux : Bool → List Char → List Char
  | _, [] => []
  | false, c :: rest =>
    if c = '{' then removeBraceSegmentsAux true rest
    else c :: removeBraceSegmentsAux false rest
  | true, c :: rest =>
    if c = '}' then removeBraceSegmentsAux false rest
    else removeBraceSegmentsAux true rest

/-- Spec-side definition for C7: `T` with all `\x7b…\x7d` segments removed. -/
def removeBraceSegments (t : String) : String :=
  ⟨removeBraceSegmentsAux false t.data⟩

/-- Concatenation of the texts of the literal (non-variable) parts of a part
list, as a character list. -/
def concatLiterals (parts : List (Bool × String)) : List Char :=
  parts.foldr (fun p acc => if p.1 then acc else p.2.data ++ acc) []

namespace TemplateStr

/-- Loop of the private `parse_template` in src/function/template_string.rs.
It is the same character machine as the one in template_parser.rs except that
variable texts are pushed as they are (no join-alias handling). -/
def parseLoop (template : String) :
    List Char → List (Bool × String) → String → Bool → Bool →
    RResult (List (Bool × String) × String × Bool × Bool)
  | [], parts, cur, between_cb, escape => .ok (parts, cur, between_cb, escape)
  | c :: rest, parts, cur, between_cb, escape =>
    if c = '{' then
      if escape then
        parseLoop template rest parts (cur.push '{') between_cb false
      else if between_cb then
        .err (GeneralError.from_msg
          s!"Error parsing template '{template}': Unescaped '\x7b' found between \x7b\x7d.")
      else
        let parts' := if cur ≠ "" then parts ++ [(false, cur)] else parts
        parseLoop template rest parts' "" true escape
    else if c = '}' then
      if escape then
        parseLoop template rest parts (cur.push '}') between_cb false
      else if between_cb then
        let parts' := if cur ≠ "" then parts ++ [(true, cur)] else parts
        parseLoop template rest parts' "" false escape
      else
        .err (GeneralError.from_msg
          s!"Error parsing template '{template}': Unescaped '\x7d' found between \x7b\x7d.")
    else if c = '\\' then
      if escape then
        parseLoop template rest parts (cur.push '\\') between_cb false
      else
        parseLoop template rest parts cur between_cb true
    else
      if escape then
        .err (GeneralError.from_msg
          s!"Error parsing template '{template}': character '{c}' is being escaped, but it doesn't need escaping.")
      else
        parseLoop template rest parts (cur.push c) between_cb escape

/-- Model of the private `parse_template` of src/function/template_string.rs. -/
def parse_template (template : String) : RResult (List (Bool × String)) :=
  match parseLoop template template.data [] "" false false with
  | .crash => .crash
  | .err e => .err e
  | .ok (parts, cur, between_cb, escape) =>
    if between_cb then
      .err (GeneralError.from_msg s!"Error parsing template '{template}': missing '\x7d'")
    else if escape then
      .err (GeneralError.from_msg
        s!"Error parsing template '{template}': expecting character to escape after final '\\'")
    else if cur ≠ "" then
      .ok (parts ++ [(false, cur)])
    else
      .ok parts

end TemplateStr

/-- Whether a code point lies in the `ucschar` ranges of RFC 3987. Part of
the model of the external `pct_str` crate used by
`TemplateStrFunction::exec` (src/function/template_string.rs). -/
def isUcsChar (n : Nat) : Bool :=
  (0xA0 ≤ n && n ≤ 0xD7FF) || (0xF900 ≤ n && n ≤ 0xFDCF) || (0xFDF0 ≤ n && n ≤ 0xFFEF) ||
  (0x10000 ≤ n && n ≤ 0x1FFFD) || (0x20000 ≤ n && n ≤ 0x2FFFD) ||
  (0x30000 ≤ n && n ≤ 0x3FFFD) || (0x40000 ≤ n && n ≤ 0x4FFFD) ||
  (0x50000 ≤ n && n ≤ 0x5FFFD) || (0x60000 ≤ n && n ≤ 0x6FFFD) ||
  (0x70000 ≤ n && n ≤ 0x7FFFD) || (0x80000 ≤ n && n ≤ 0x8FFFD) ||
  (0x90000 ≤ n && n ≤ 0x9FFFD) || (0xA0000 ≤ n && n ≤ 0xAFFFD) ||
  (0xB0000 ≤ n && n ≤ 0xBFFFD) || (0xC0000 ≤ n && n ≤ 0xCFFFD) ||
  (0xD0000 ≤ n && n ≤ 0xDFFFD) || (0xE1000 ≤ n && n ≤ 0xEFFFD)

/-- Whether `PctString::encode(…, IriReserved::Segment)` of the external
`pct_str` crate keeps a character unencoded: the character is an RFC 3987
`ipchar` (unreserved or sub-delims or `:` or `@`, or a `ucschar`). -/
def iriSegmentKeeps (c : Char) : Bool :=
  c.isAlphanum ||
  (['-', '.', '_', '~', '!', '$', '&', '\'', '(', ')', '*', '+', ',', ';', '=', ':',
    '@'].contains c) ||
  isUcsChar c.toNat

/-- Upper-case hexadecimal digit for a value below 16. -/
def hexDigitUpper (n : Nat) : Char :=
  if n < 10 then Char.ofNat (48 + n) else Char.ofNat (55 + n)

/-- UTF-8 bytes of a character, as natural numbers. -/
def utf8Bytes (c : Char) : List Nat :=
  let n := c.toNat
  if n < 0x80 then [n]
  else if n < 0x800 then [0xC0 + n / 64, 0x80 + n % 64]
  else if n < 0x10000 then [0xE0 + n / 4096, 0x80 + (n / 64) % 64, 0x80 + n % 64]
  else [0xF0 + n / 262144, 0x80 + (n / 4096) % 64, 0x80 + (n / 64) % 64, 0x80 + n % 64]

/-- Percent-encoding of one character in the style of the `pct_str` crate:
kept characters stand for themselves, others are replaced by the upper-case
percent-encoding of their UTF-8 bytes. -/
def pctEncodeChar (c : Char) : List Char :=
  if iriSegmentKeeps c then [c]
  else (utf8Bytes c).foldr
    (fun b acc => '%' :: hexDigitUpper (b / 16) :: hexDigitUpper (b % 16) :: acc) []

/-- Model of `PctString::encode(value.chars(), IriReserved::Segment)` from
the external `pct_str` crate, as called by `TemplateStrFunction::exec`. -/
def pctEncode (s : String) : String :=
  ⟨s.data.foldr (fun c acc => pctEncodeChar c ++ acc) []⟩

/-- Model of `TemplateStrFunction` (src/function/template_string.rs). -/
structure TemplateStrFunction where
  template_string_parts : List (Bool × String)
  variable_names : List String
deriving DecidableEq, Repr

/-- Model of `TemplateStrFunction::new`. -/
def TemplateStrFunction.new (template : String) : RResult TemplateStrFunction :=
  match TemplateStr.parse_template template with
  | .ok parts => .ok ⟨parts, []⟩
  | .err e => .err e
  | .crash => .crash

/-- Model of the `variable_names` setter of `TemplateStrFunction` (its
`BasicFunction::variable_names` implementation). -/
def TemplateStrFunction.setVariableNames (f : TemplateStrFunction)
    (variable_names : List String) : TemplateStrFunction :=
  { f with variable_names }

/-- Building the `variable_name_to_value_map` of `TemplateStrFunction::exec`:
one entry per input element, keyed by `variable_names[index]`; the indexing
panics (`none`) when the input is longer than the bound header. Entries are
kept in insertion order. -/
def buildVarMap : List String → List String → Option (List (String × String))
  | _, [] => some []
  | [], _ :: _ => none
  | n :: ns, v :: vs => (buildVarMap ns vs).map (fun m => (n, v) :: m)

/-- Lookup in an insertion-ordered association list with `HashMap` overwrite
semantics: the most recently inserted binding for a key wins. -/
def hashMapLookup {β : Type} (m : List (String × β)) (k : String) : Option β :=
  (m.reverse.find? (fun p => p.1 == k)).map (·.2)

/-- Model of `TemplateStrFunction::exec` (src/function/template_string.rs):
build the variable map, then render each part — literal parts verbatim,
variable parts via the map and percent-encoding; lookup of an unbound
variable panics (`none`). Returns a single-element result. -/
def TemplateStrFunction.exec (f : TemplateStrFunction) (input : List String) :
    Option (List String) :=
  (buildVarMap f.variable_names input).bind fun m =>
    (f.template_string_parts.foldlM
      (fun acc (part : Bool × String) =>
        if part.1 then
          (hashMapLookup m part.2).map (fun value => acc ++ pctEncode value)
        else
          some (acc ++ part.2))
      "").map (fun result_str => [result_str])

/-- Spec-side renderer for C4: literal parts verbatim; a variable part is the
percent-encoded value found at the variable's header-mapped index (first
header occurrence). -/
def specTemplateRender (names values : List String) :
    List (Bool × String) → Option String
  | [] => some ""
  | (isv, t) :: rest =>
    (specTemplateRender names values rest).bind fun tail =>
      if isv then
        (names.findIdx? (fun n => n == t)).bind fun i =>
          (values.get? i).map (fun v => pctEncode v ++ tail)
      else
        some (t ++ tail)

/-- Model of `ReferenceFunction` (src/function/reference.rs). -/
structure ReferenceFunction where
  variable_name : String
  index : Nat
deriving DecidableEq, Repr

/-- Model of `ReferenceFunction::new`: the variable name goes through
`remove_join_alias_prefix` (which can panic, hence `Option`), the index
starts at 0. -/
def ReferenceFunction.new (variable_name : String) (join_alias : Option String) :
    Option ReferenceFunction :=
  (removeJoinAliasPref variable_name join_alias).map (fun v => ⟨v, 0⟩)

/-- Scan loop of `ReferenceFunction::variable_names`: left-to-right over the
header names, recording the first index whose name equals the target and
stopping there (the source's `break`). -/
def scanVariableNames (target : String) : List String → Nat → Option Nat
  | [], _ => none
  | n :: rest, i => if n = target then some i else scanVariableNames target rest (i + 1)

/-- Model of the `variable_names` binder of `ReferenceFunction`: set the
index to the first matching header position, leave it unchanged when no
header name matches. -/
def ReferenceFunction.setVariableNames (f : ReferenceFunction)
    (variable_names : List String) : ReferenceFunction :=
  match scanVariableNames f.variable_name variable_names 0 with
  | some i => { f with index := i }
  | none => f

/-- Model of `ReferenceFunction::exec`: `vec![input[self.index]]`, panicking
(`none`) when the index is out of bounds. -/
def ReferenceFunction.exec (f : ReferenceFunction) (input : List String) :
    Option (List String) :=
  (input.get? f.index).map (fun v => [v])

/-- Loop of `create_template_template_string_parts` (src/serializer.rs): scan
for `?` (variable start) and space (variable end), accumulating parts. A `?`
inside a variable name is dropped; the space ending a variable is kept as
text. -/
def serializeTemplateLoop : List Char → List (Bool × String) → String → Bool →
    List (Bool × String) × String × Bool
  | [], parts, cur, is_variable_name => (parts, cur, is_variable_name)
  | c :: rest, parts, cur, is_variable_name =>
    if c = '?' then
      if ¬ is_variable_name then
        let parts' := if cur ≠ "" then parts ++ [(false, cur)] else parts
        serializeTemplateLoop rest parts' "" true
      else
        serializeTemplateLoop rest parts cur is_variable_name
    else if c = ' ' then
      if is_variable_name then
        let parts' := if cur ≠ "" then parts ++ [(true, cur)] else parts
        serializeTemplateLoop rest parts' (String.push "" ' ') false
      else
        serializeTemplateLoop rest parts (cur.push ' ') false
    else
      serializeTemplateLoop rest parts (cur.push c) is_variable_name

/-- Model of `create_template_template_string_parts` (src/serializer.rs). The
final accumulator is pushed as a literal part even when a variable was still
open. -/
def create_template_template_string_parts (template : String) : List (Bool × String) :=
  let st := serializeTemplateLoop template.data [] "" false
  if st.2.1 ≠ "" then st.1 ++ [(false, st.2.1)] else st.1

/-- Building the `variable_name_to_value_map` of `SerializeOperator::start`:
one entry `name ↦ (value, type)` per payload element, indexing into the
header and type lists (panic, `none`, when they are shorter than the
payload). -/
def buildVarTypeMap : List String → List String → List String →
    Option (List (String × String × String))
  | _, _, [] => some []
  | [], _, _ :: _ => none
  | _ :: _, [], _ :: _ => none
  | n :: ns, ty :: tys, v :: vs =>
    (buildVarTypeMap ns tys vs).map (fun m => (n, v, ty) :: m)

/-- Model of the per-data-tuple body of `SerializeOperator::start`
(src/serializer.rs lines 61–115): build the variable map, then render each
template part — literals verbatim, variables formatted according to the
result type (`str` renders the type tag itself, `iri` wraps in angle
brackets, `lit` wraps in double quotes, `blank` prepends `_:`; any other tag
is a `todo!()` panic, modelled as `none`). -/
def renderSerializeTuple (template_string_parts : List (Bool × String))
    (variable_names data_types values : List String) : Option String :=
  (buildVarTypeMap variable_names data_types values).bind fun m =>
    template_string_parts.foldlM
      (fun result_str (part : Bool × String) =>
        if part.1 then
          (hashMapLookup m part.2).bind fun vt =>
            (if vt.2 = "str" then some vt.2
             else if vt.2 = "iri" then some ("<" ++ vt.1 ++ ">")
             else if vt.2 = "lit" then some ("\"" ++ vt.1 ++ "\"")
             else if vt.2 = "blank" then some ("_:" ++ vt.1)
             else none).map (fun value_str => result_str ++ value_str)
        else
          some (result_str ++ part.2))
      ""

/-- Model of the stream behaviour of `SerializeOperator::start`: the first
inbound tuple carries the variable names, the second the result types (both
consumed without index 0, the producer id; slicing an empty tuple panics);
every further tuple is rendered and `[node_id, line]` is sent. When fewer
than two tuples arrive nothing is emitted. -/
def serializeRun (template_string_parts : List (Bool × String)) (node_id : String)
    (inbound : List (List String)) : Option (List (List String)) :=
  match inbound with
  | [] => some []
  | [_] => some []
  | variable_names_tuple :: data_types_tuple :: data =>
    match variable_names_tuple, data_types_tuple with
    | _ :: variable_names, _ :: data_types =>
      data.mapM (fun values =>
        (renderSerializeTuple template_string_parts variable_names data_types
          (values.drop 1)).map (fun line => [node_id, line]))
    | _, _ => none

/-- Spec-side formatting for C5: how a value is rendered given its result
type (for type `str` the shipped code emits the type tag itself). -/
def fmtByType (data_type value : String) : String :=
  if data_type = "iri" then "<" ++ value ++ ">"
  else if data_type = "lit" then "\"" ++ value ++ "\""
  else if data_type = "blank" then "_:" ++ value
  else data_type

/-- Spec-side renderer for C5: literal parts verbatim; a variable part is the
value and type found at the variable's header position, formatted by
`fmtByType`. -/
def specSerializeLine (names types values : List String) :
    List (Bool × String) → Option String
  | [] => some ""
  | (isv, t) :: rest =>
    (specSerializeLine names types values rest).bind fun tail =>
      if isv then
        (names.findIdx? (fun n => n == t)).bind fun i =>
          (values.get? i).bind fun v =>
            (types.get? i).map (fun ty => fmtByType ty v ++ tail)
      else
        some (t ++ tail)

/-- Model of the `BasicFunction` trait (src/function/basic_function.rs) as
used dynamically by the Extend operator: bind headers, report the result
type, evaluate. Evaluation may panic (`none`). -/
structure BasicFunction (F : Type) where
  setVariableNames : F → List String → F
  get_result_type : F → String
  exec : F → List String → Option (List String)

/-- The `BasicFunction` implementation of `ReferenceFunction`
(src/function/reference.rs); its result type is the default `"str"`. -/
def refBasicFunction : BasicFunction ReferenceFunction :=
  ⟨ReferenceFunction.setVariableNames, fun _ => "str", ReferenceFunction.exec⟩

/-- The `&name[1..]` sigil strip of `ExtendOperator::start`: drops the first
character of an output name, panicking (`none`) on an empty name. -/
def nameMinusFirstChar (name : String) : Option String :=
  if 1 ≤ name.length then some ⟨name.data.drop 1⟩ else none

/-- The header bound into every compiled expression by `ExtendOperator::start`
(src/operator/extension.rs): the entire first inbound tuple — its leading
producer-node-id element included — and, when a join alias is set, the same
names again each prefixed with `<alias>_`. -/
def extendBoundHeader (join_alias : Option String) (variable_names : List String) :
    List String :=
  match join_alias with
  | some ja => variable_names ++ variable_names.map (fun n => (ja.push '_') ++ n)
  | none => variable_names

/-- Model of the worker loop of `ExtendOperator::start`
(src/operator/extension.rs lines 89–142): send the stripped output names and
the result types; bind the first inbound tuple (alias-doubled when a join
alias is set) into every function; for each further tuple evaluate every
function on the (possibly self-appended) tuple and send the node id followed
by all results. -/
def extendRun {F : Type} (bf : BasicFunction F) (functions : List (String × F))
    (node_id : String) (join_alias : Option String) (inbound : List (List String)) :
    Option (List (List String)) := do
  let stripped ← functions.mapM (fun p => nameMinusFirstChar p.1)
  let node_id_plus_function_names := node_id :: stripped
  let node_id_plus_result_types :=
    node_id :: functions.map (fun p => bf.get_result_type p.2)
  match inbound with
  | [] => some [node_id_plus_function_names, node_id_plus_result_types]
  | variable_names :: rest =>
    let bound := extendBoundHeader join_alias variable_names
    let functions2 := functions.map (fun p => (p.1, bf.setVariableNames p.2 bound))
    let dataOuts ← rest.mapM (fun data => do
      let data_to_process :=
        match join_alias with
        | some _ => data ++ data
        | none => data
      let results ← functions2.mapM (fun p => bf.exec p.2 data_to_process)
      pure (node_id :: results.flatten))
    pure (node_id_plus_function_names :: node_id_plus_result_types :: dataOuts)

/-- Model of the `operator::Operator` variants as far as the rewriter
inspects them. Source and Target configurations are represented by their
`DefaultHasher` image (the rewriter only ever observes that hash);
projections carry their `projection_attributes`; joins carry their
`join_alias`. -/
inductive Operator where
  | SourceOp (cfgHash : Nat)
  | TargetOp (cfgHash : Nat)
  | FragmentOp
  | ProjectOp (projection_attributes : List String)
  | JoinOp (join_alias : String)
  | ExtendOp
  | SerializerOp
deriving DecidableEq, Repr

/-- Whether an operator is a Fragmenter. -/
def Operator.isFragment : Operator → Bool
  | .FragmentOp => true
  | _ => false

/-- Whether an operator is a Projection. -/
def Operator.isProject : Operator → Bool
  | .ProjectOp _ => true
  | _ => false

/-- Whether an operator is a Join. -/
def Operator.isJoin : Operator → Bool
  | .JoinOp _ => true
  | _ => false

/-- The I/O-hash bucket key of an operator in pass 1 of the rewriter
(src/plan_rewriter.rs `add_to_hash_map`): Sources hash their config, Targets
hash theirs unless a single target is forced, in which case every Target
buckets under the constant 0. -/
def Operator.ioKey (to_one_target : Bool) : Operator → Option Nat
  | .SourceOp h => some h
  | .TargetOp h => some (if to_one_target then 0 else h)
  | _ => none

/-- Model of `Node` (src/plan.rs), with the `join_alias` field the rewriter
sets on nodes downstream of an elided self-join. `from` is a Lean keyword, so
the field is named `from_`. -/
structure Node where
  id : String
  operator : Operator
  from_ : List Nat
  to_ : List Nat
  attributes : Option (List String)
  join_alias : Option String
deriving DecidableEq, Repr

/-- Model of `Node::add_from`. -/
def Node.add_from (n : Node) (id : Nat) : Node :=
  { n with from_ := n.from_ ++ [id] }

/-- Model of `Node::replace_from`: every occurrence of the old id becomes the
new id. -/
def Node.replace_from (n : Node) (old_id new_id : Nat) : Node :=
  { n with from_ := n.from_.map (fun i => if i = old_id then new_id else i) }

/-- Model of `Node::add_all_from`. -/
def Node.add_all_from (n : Node) (ids : List Nat) : Node :=
  { n with from_ := n.from_ ++ ids }

/-- Model of `Node::add_to`. -/
def Node.add_to (n : Node) (id : Nat) : Node :=
  { n with to_ := n.to_ ++ [id] }

/-- Model of `Node::add_all_to`. -/
def Node.add_all_to (n : Node) (ids : List Nat) : Node :=
  { n with to_ := n.to_ ++ ids }

/-- Model of `Node::replace_to`. -/
def Node.replace_to (n : Node) (old_id new_id : Nat) : Node :=
  { n with to_ := n.to_.map (fun i => if i = old_id then new_id else i) }

/-- Model of `Node::change_to_ids`: drop every occurrence of the removed id
from `to`, then append the added ids. -/
def Node.change_to_ids (n : Node) (ids_to_add : List Nat) (id_to_remove : Nat) : Node :=
  { n with to_ := n.to_.filter (fun i => i ≠ id_to_remove) ++ ids_to_add }

/-- Model of `Node::add_attributes`: union when both sides are present,
otherwise take whichever is present. -/
def Node.add_attributes (n : Node) (attributes : Option (List String)) : Node :=
  match n.attributes with
  | some original =>
    match attributes with
    | some new_attributes => { n with attributes := some (original.union new_attributes) }
    | none => n
  | none => { n with attributes := attributes }

/-- Model of `PlanGraph` (src/plan.rs): nodes addressed by their position,
edges as id pairs. -/
structure PlanGraph where
  nodes : List Node
  edges : List (Nat × Nat)

/-- The rewriter's `HashMap<usize, Node>`, modelled as an association list
with unique keys. -/
abbrev NodeMap := List (Nat × Node)

/-- Lookup in the node map. -/
def mapGet (m : NodeMap) (k : Nat) : Option Node :=
  (m.find? (fun p => p.1 == k)).map (fun p => p.2)

/-- Insert into the node map: replace in place when present, else append. -/
def mapInsert (m : NodeMap) (k : Nat) (v : Node) : NodeMap :=
  if m.any (fun p => p.1 == k) then
    m.map (fun p => if p.1 == k then (k, v) else p)
  else
    m ++ [(k, v)]

/-- Remove a key from the node map. -/
def mapRemove (m : NodeMap) (k : Nat) : NodeMap :=
  m.filter (fun p => !(p.1 == k))

/-- The bucket list of pass 1, in first-insertion order (the determinization
of `HashMap::values`). -/
def addToBuckets (buckets : List (Nat × List Nat)) (key id : Nat) :
    List (Nat × List Nat) :=
  if buckets.any (fun b => b.1 == key) then
    buckets.map (fun b => if b.1 == key then (b.1, b.2 ++ [id]) else b)
  else
    buckets ++ [(key, [id])]

/-- Fragment node indices collected by pass 1. -/
def fragment_indices (plan : PlanGraph) : List Nat :=
  (plan.nodes.enum.filter (fun p => p.2.operator.isFragment)).map (fun p => p.1)

/-- Projection node indices collected by pass 1. -/
def projection_indices (plan : PlanGraph) : List Nat :=
  (plan.nodes.enum.filter (fun p => p.2.operator.isProject)).map (fun p => p.1)

/-- Join node indices collected by pass 1. -/
def join_indices (plan : PlanGraph) : List Nat :=
  (plan.nodes.enum.filter (fun p => p.2.operator.isJoin)).map (fun p => p.1)

/-- The `io_hash_to_node_index` buckets of pass 1. -/
def ioBuckets (plan : PlanGraph) (to_one_target : Bool) : List (Nat × List Nat) :=
  plan.nodes.enum.foldl (fun bs p =>
    match p.2.operator.ioKey to_one_target with
    | some key => addToBuckets bs key p.1
    | none => bs) []

/-- Installing the plan's edge list into the node map (src/plan_rewriter.rs
lines 62–70): each edge appends to the source's `to` and the target's
`from`; a dangling endpoint is an `unwrap` panic (`none`). -/
def installEdges (m : NodeMap) (edges : List (Nat × Nat)) : Option NodeMap :=
  edges.foldlM (fun m e => do
    let from_node ← mapGet m e.1
    let m2 := mapInsert m e.1 (from_node.add_to e.2)
    let to_node ← mapGet m2 e.2
    some (mapInsert m2 e.2 (to_node.add_from e.1))) m

/-- The merge pass (src/plan_rewriter.rs lines 72–108): for each bucket with
at least two members, accumulate the ids to remove and the updated nodes to
write back, reading every node from the pre-pass map. -/
def mergePass (m : NodeMap) (buckets : List (Nat × List Nat)) :
    Option (List Nat × List (Nat × Node)) :=
  buckets.foldlM (fun acc bucket =>
    if bucket.2.length > 1 then
      match bucket.2 with
      | [] => some acc
      | first_io_id :: others => do
        let first0 ← mapGet m first_io_id
        let inner ← others.foldlM
          (fun (st : Node × List Nat × List (Nat × Node)) other_io_id => do
            let other_io ← mapGet m other_io_id
            let first_io := (st.1.add_all_to other_io.to_).add_all_from other_io.from_
            let removes := st.2.1 ++ [other_io_id]
            let changed1 ← other_io.to_.foldlM (fun ch to_node_id => do
              let to_node_to_update ← mapGet m to_node_id
              some (ch ++ [(to_node_id,
                to_node_to_update.replace_from other_io_id first_io_id)])) st.2.2
            let changed2 ← other_io.from_.foldlM (fun ch from_node_id => do
              let from_node_to_update ← mapGet m from_node_id
              some (ch ++ [(from_node_id,
                from_node_to_update.replace_to other_io_id first_io_id)])) changed1
            some (first_io, removes, changed2))
          (first0, acc.1, acc.2)
        some (inner.2.1, inner.2.2 ++ [(first_io_id, inner.1)])
    else
      some acc) ([], [])

/-- Applying the merge pass (src/plan_rewriter.rs lines 109–119): removals
first, then the changed nodes in push order. -/
def applyMerge (m : NodeMap) (removes : List Nat) (changed : List (Nat × Node)) :
    NodeMap :=
  changed.foldl (fun m p => mapInsert m p.1 p.2) (removes.foldl mapRemove m)

/-- One iteration of the Fragmenter-removal pass (src/plan_rewriter.rs lines
124–140), mutating the live map. -/
def fragmentStep (m : NodeMap) (fragment_index : Nat) : Option NodeMap := do
  let fragment_node ← mapGet m fragment_index
  let m := mapRemove m fragment_index
  fragment_node.from_.foldlM (fun m start_node_index => do
    let start_node ← mapGet m start_node_index
    let m := mapInsert m start_node_index
      (start_node.change_to_ids fragment_node.to_ fragment_index)
    fragment_node.to_.foldlM (fun m end_node_index => do
      let end_node ← mapGet m end_node_index
      some (mapInsert m end_node_index
        (end_node.replace_from fragment_index start_node_index))) m) m

/-- One iteration of the Projection-removal pass (src/plan_rewriter.rs lines
142–167): like the Fragmenter pass, but the projection's attributes are
union-merged into each upstream node. -/
def projectionStep (m : NodeMap) (projection_index : Nat) : Option NodeMap := do
  let projection_node ← mapGet m projection_index
  let m := mapRemove m projection_index
  let attributes := match projection_node.operator with
    | .ProjectOp attrs => some attrs
    | _ => none
  projection_node.from_.foldlM (fun m start_node_index => do
    let start_node ← mapGet m start_node_index
    let m := mapInsert m start_node_index
      ((start_node.change_to_ids projection_node.to_ projection_index).add_attributes
        attributes)
    projection_node.to_.foldlM (fun m end_node_index => do
      let end_node ← mapGet m end_node_index
      some (mapInsert m end_node_index
        (end_node.replace_from projection_index start_node_index))) m) m

/-- The self-join scan (src/plan_rewriter.rs lines 169–195): for each join
whose first two upstream ids coincide, record the id for removal and the
edited neighbours (all read from the pre-pass map). Indexing `from[0]` or
`from[1]` of a shorter list is a panic (`none`). -/
def selfJoinPass (m : NodeMap) (joins : List Nat) :
    Option (List Nat × List (Nat × Node)) :=
  joins.foldlM (fun acc join_index => do
    let join_node ← mapGet m join_index
    let f0 ← join_node.from_.get? 0
    let f1 ← join_node.from_.get? 1
    if f0 = f1 then
      let removes := acc.1 ++ [join_index]
      match join_node.operator with
      | .JoinOp join_alias => do
        let changed1 ← join_node.to_.foldlM (fun ch to_node_id => do
          let to_node ← mapGet m to_node_id
          some (ch ++ [(to_node_id,
            { to_node.replace_from join_index f0 with join_alias := some join_alias })]))
          acc.2
        let from_node ← mapGet m f0
        some (removes, changed1 ++ [(f0, from_node.change_to_ids join_node.to_ join_index)])
      | _ => some (removes, acc.2)
    else
      some acc) ([], [])

/-- Applying the self-join pass (src/plan_rewriter.rs lines 196–204): the
changed nodes are written back first, then the self-join nodes are removed. -/
def applySelfJoin (m : NodeMap) (removes : List Nat) (changed : List (Nat × Node)) :
    NodeMap :=
  removes.foldl mapRemove (changed.foldl (fun m p => mapInsert m p.1 p.2) m)

/-- Model of `rewrite` (src/plan_rewriter.rs): classify and index, install
edges, merge equal-I/O endpoints, eliminate Fragmenters, eliminate
Projections, eliminate self-joins. -/
def rewrite (plan : PlanGraph) (to_one_target : Bool) : Option NodeMap := do
  let node_map : NodeMap := plan.nodes.enum
  let m1 ← installEdges node_map plan.edges
  let mc ← mergePass m1 (ioBuckets plan to_one_target)
  let m2 := applyMerge m1 mc.1 mc.2
  let m3 ← (fragment_indices plan).foldlM fragmentStep m2
  let m4 ← (projection_indices plan).foldlM projectionStep m3
  let jc ← selfJoinPass m4 (join_indices plan)
  some (applySelfJoin m4 jc.1 jc.2)

/-- Edge symmetry of a node map (the invariant of C1): every `to` reference
has a backing node listing the referrer in `from`, and vice versa. -/
def EdgeSym (m : NodeMap) : Prop :=
  ∀ x nx, mapGet m x = some nx →
    (∀ y ∈ nx.to_, ∃ ny, mapGet m y = some ny ∧ x ∈ ny.from_) ∧
    (∀ z ∈ nx.from_, ∃ nz, mapGet m z = some nz ∧ x ∈ nz.to_)

/-- Operator provenance: every node in the map has the operator of the plan
node at its key. -/
def OpPres (plan : PlanGraph) (m : NodeMap) : Prop :=
  ∀ k n, mapGet m k = some n →
    ∃ n0, plan.nodes.get? k = some n0 ∧ n0.operator = n.operator

/-- The write-back entries of a batch pass: each key is present in the map
the pass read from, with an unchanged operator. -/
def ChangedGood (plan : PlanGraph) (m : NodeMap) (ch : List (Nat × Node)) : Prop :=
  ∀ p ∈ ch, (∃ old, mapGet m p.1 = some old) ∧
    ∃ n0, plan.nodes.get? p.1 = some n0 ∧ n0.operator = p.2.operator

/-- The inbound edge origins of a node id in the plan's edge list. -/
def edgeIns (plan : PlanGraph) (k : Nat) : List Nat :=
  (plan.edges.filter (fun e => e.2 = k)).map (fun e => e.1)

/-- The outbound edge targets of a node id in the plan's edge list. -/
def edgeOuts (plan : PlanGraph) (k : Nat) : List Nat :=
  (plan.edges.filter (fun e => e.1 = k)).map (fun e => e.2)

/-- A node id is plain when its plan operator is neither Fragmenter nor
Projection nor Join — the rewriter's removal passes never remove it. -/
def plainAt (plan : PlanGraph) (x : Nat) : Bool :=
  match plan.nodes.get? x with
  | some n => !n.operator.isFragment && !n.operator.isProject && !n.operator.isJoin
  | none => false

/-- The node at id `k` with the edge-list-derived `from`/`to` installed, as
produced by pass 1 on a plan whose nodes carry no pre-set edges. -/
def derivedNode (plan : PlanGraph) (k : Nat) (n0 : Node) : Node :=
  { n0 with from_ := edgeIns plan k, to_ := edgeOuts plan k }

/-- Whether a join node id is a self-join in the plan: its first two inbound
edge origins coincide. -/
def selfJoinAt (plan : PlanGraph) (j : Nat) : Bool :=
  match (edgeIns plan j).get? 0, (edgeIns plan j).get? 1 with
  | some a, some b => a == b
  | _, _ => false

/-- Wellformedness of a plan for the edge-symmetry claim (C1): nodes carry no
pre-set edges; no two I/O endpoints share a hash bucket (so the merge pass is
inert); every Fragmenter and Projection has exactly one upstream origin and
only plain neighbours; joins have plain upstreams, and every self-join has
all inbound edges from its single plain upstream, duplicate-free plain
downstream targets not fed by the upstream, and shares no upstream or
downstream with another self-join. -/
abbrev ElimWF (plan : PlanGraph) (f : Nat) : Prop :=
  (edgeIns plan f ≠ [] ∧ ∀ x ∈ edgeIns plan f, ∀ y ∈ edgeIns plan f, x = y) ∧
  (∀ x ∈ edgeIns plan f, plainAt plan x = true) ∧
  (∀ x ∈ edgeOuts plan f, plainAt plan x = true)

abbrev W5Join (plan : PlanGraph) : Prop :=
  ∀ j ∈ join_indices plan,
    (∀ x ∈ edgeIns plan j, plainAt plan x = true) ∧
    (selfJoinAt plan j = true →
      (∀ x ∈ edgeIns plan j, ∀ y ∈ edgeIns plan j, x = y) ∧
      (∀ x ∈ edgeIns plan j, x ∉ edgeOuts plan j) ∧
      (∀ x ∈ edgeOuts plan j, plainAt plan x = true) ∧
      (∀ j' ∈ join_indices plan, j' ≠ j → selfJoinAt plan j' = true →
        (∀ x ∈ edgeIns plan j, ∀ y ∈ edgeIns plan j', x ≠ y) ∧
        (∀ x ∈ edgeIns plan j, x ∉ edgeOuts plan j') ∧
        (∀ x ∈ edgeIns plan j', x ∉ edgeOuts plan j) ∧
        (∀ x ∈ edgeOuts plan j, x ∉ edgeOuts plan j')))

abbrev WellFormedPlan (plan : PlanGraph) (to_one_target : Bool) : Prop :=
  (∀ n ∈ plan.nodes, n.from_ = [] ∧ n.to_ = []) ∧
  (∀ bucket ∈ ioBuckets plan to_one_target, bucket.2.length ≤ 1) ∧
  (∀ f ∈ fragment_indices plan, ElimWF plan f) ∧
  (∀ p ∈ projection_indices plan, ElimWF plan p) ∧
  W5Join plan

/-- The running invariant of one Fragmenter/Projection elimination: edge
symmetry holds, the removed id is referenced nowhere, every downstream node
lists the single upstream origin, untouched keys still agree with the
pre-step map, the removed id is gone, and the upstream node is present. -/
def ElimInv (m : NodeMap) (fid u : Nat) (fnode : Node) (mm : NodeMap) : Prop :=
  EdgeSym mm ∧
  (∀ k n, mapGet mm k = some n → fid ∉ n.from_ ∧ fid ∉ n.to_) ∧
  (∀ D ∈ fnode.to_, ∃ dn, mapGet mm D = some dn ∧ u ∈ dn.from_) ∧
  (∀ k, k ≠ fid → k ≠ u → k ∉ fnode.to_ → mapGet mm k = mapGet m k) ∧
  mapGet mm fid = none ∧
  (∃ uu, mapGet mm u = some uu)

/-- A key of the map still holds exactly its edge-derived node. -/
def DerivedAt (plan : PlanGraph) (mm : NodeMap) (k : Nat) : Prop :=
  mapGet mm k = (plan.nodes.get? k).map (derivedNode plan k)

/-- The self-join test of pass 5 on the live map: the join node's first two
upstream entries exist and coincide. -/
def SelfJoinCond (m : NodeMap) (j : Nat) : Prop :=
  ∃ jn f0, mapGet m j = some jn ∧ jn.from_.get? 0 = some f0 ∧
    jn.from_.get? 1 = some f0

/-- The shape of a write-back entry of pass 5: either a downstream node with
its `from` redirected and the join alias set, or the upstream origin with the
join's `to` edges spliced in. -/
def SJEntry (m : NodeMap) (joins : List Nat) (p : Nat × Node) : Prop :=
  ∃ j, j ∈ joins ∧ ∃ jn f0, mapGet m j = some jn ∧
    jn.from_.get? 0 = some f0 ∧ jn.from_.get? 1 = some f0 ∧
    ∃ ja, jn.operator = .JoinOp ja ∧
    ((∃ t, t ∈ jn.to_ ∧ ∃ tn, mapGet m t = some tn ∧
        p = (t, { tn.replace_from j f0 with join_alias := some ja })) ∨
      (∃ fn, mapGet m f0 = some fn ∧ p = (f0, fn.change_to_ids jn.to_ j)))

/-- Pass 5 recorded every edit a given self-join requires. -/
def SJComplete (m : NodeMap) (j : Nat) (ch : List (Nat × Node)) : Prop :=
  ∀ jn f0, mapGet m j = some jn → jn.from_.get? 0 = some f0 →
    ∀ ja, jn.operator = .JoinOp ja →
    (∀ t ∈ jn.to_, ∀ tn, mapGet m t = some tn →
      (t, { tn.replace_from j f0 with join_alias := some ja }) ∈ ch) ∧
    (∀ fn, mapGet m f0 = some fn → (f0, fn.change_to_ids jn.to_ j) ∈ ch)

/-- Model of the `JoinOperator` configuration (src/operator/join.rs lines
28–54): the node ids, the join attribute pairs and the prefix applied to
right-node attribute names (`join_alias` + "_"). -/
structure JoinOperator where
  node_id : String
  left_node_id : String
  right_node_id : String
  left_right_join_attr_pairs : List (String × String)
  rightNodeAttrPref : String
deriving Repr, DecidableEq

/-- Model of `JoinData` (src/operator/join.rs lines 185–202): the positions
of join attributes in a side's tuples, the stored data rows, and one
value-to-row-indices map per join attribute (as an association list in
insertion order). -/
structure JoinData where
  join_attr_positions : List Nat
  data : List (List String)
  join_attr_indices : List (List (String × List Nat))
deriving Repr, DecidableEq

/-- Model of `JoinData::new`. -/
def JoinData.new (nr_join_attributes : Nat) : JoinData :=
  ⟨[], [], List.replicate nr_join_attributes []⟩

/-- Model of `JoinData::set_join_attribute_positions` (a `Vec::extend`). -/
def JoinData.set_join_attribute_positions (jd : JoinData) (ps : List Nat) :
    JoinData :=
  { jd with join_attr_positions := jd.join_attr_positions ++ ps }

/-- Lookup in a value-to-row-indices map. -/
def idxLookup (m : List (String × List Nat)) (k : String) : Option (List Nat) :=
  (m.find? (fun p => p.1 == k)).map (fun p => p.2)

/-- The map update of `JoinData::add`: push the row number onto the entry of
the value, inserting a fresh entry when absent. -/
def idxPush (m : List (String × List Nat)) (k : String) (row : Nat) :
    List (String × List Nat) :=
  if m.any (fun p => p.1 == k) then
    m.map (fun p => if p.1 == k then (p.1, p.2 ++ [row]) else p)
  else
    m ++ [(k, [row])]

/-- The join attribute values of a data row (src/operator/join.rs lines
228–232): the values at positions listed in `join_attr_positions`, in row
order. -/
def joinAttrValues (positions : List Nat) (data : List String) : List String :=
  (data.enum.filter (fun p => p.1 ∈ positions)).map (fun p => p.2)

/-- The index update loop of `JoinData::add` (lines 239–250): the i-th value
goes into the i-th map; running out of maps is an `unwrap` panic. -/
def updateIndices : List (List (String × List Nat)) → List String → Nat →
    Option (List (List (String × List Nat)))
  | maps, [], _ => some maps
  | [], _ :: _, _ => none
  | m :: maps, v :: vs, row =>
    (updateIndices maps vs row).map (fun rest => idxPush m v row :: rest)

/-- Model of `JoinData::add`. -/
def JoinData.add (jd : JoinData) (data : List String) :
    Option (JoinData × List String) := do
  let join_attr_values := joinAttrValues jd.join_attr_positions data
  let newIndices ← updateIndices jd.join_attr_indices join_attr_values
    jd.data.length
  some ({ jd with data := jd.data ++ [data], join_attr_indices := newIndices },
    join_attr_values)

/-- The lookup loop of `JoinData::return_values_if_match` (lines 259–269):
the i-th probe value is looked up in the i-th map (an out-of-range index is a
panic); a missing value returns an inner `none` (no match) immediately. -/
def rvLoop (idxMaps : List (List (String × List Nat))) :
    List (Nat × String) → Option (Option (List (List Nat)))
  | [] => some (some [])
  | pv :: rest => do
    let im ← idxMaps.get? pv.1
    match idxLookup im pv.2 with
    | some dis =>
      (rvLoop idxMaps rest).map (fun inner => inner.map (fun l => dis :: l))
    | none => some none

/-- Model of `JoinData::return_values_if_match` (lines 255–287): intersect
the per-attribute row index lists (the first list's `next()` on an empty
collection is an `unwrap` panic), then return the matching stored rows. -/
def JoinData.return_values_if_match (jd : JoinData)
    (join_attr_values : List String) : Option (Option (List (List String))) := do
  let found ← rvLoop jd.join_attr_indices join_attr_values.enum
  match found with
  | none => some none
  | some [] => none
  | some (first :: rest) =>
    let result := rest.foldl (fun res dis => res.filter (fun i => i ∈ dis)) first
    if result.isEmpty then some none
    else (result.mapM (fun i => jd.data.get? i)).map some

/-- Model of `process_data_for_one_join_side` (lines 175–183). -/
def process_data_for_one_join_side (data : List String) (jd other : JoinData) :
    Option (JoinData × Option (List (List String))) := do
  let res ← jd.add data
  let m ← other.return_values_if_match res.2
  some (res.1, m)

/-- The mutable state of the join worker thread (lines 62–70). -/
structure JoinState where
  left_attribute_names : List String
  right_attribute_names : List String
  left_join_attribute_indices : List Nat
  right_join_attribute_indices : List Nat
  left_join_data : JoinData
  right_join_data : JoinData
deriving Repr, DecidableEq

/-- The initial join state. -/
def JoinState.init (op : JoinOperator) : JoinState :=
  ⟨[], [], [], [], JoinData.new op.left_right_join_attr_pairs.length,
    JoinData.new op.left_right_join_attr_pairs.length⟩

/-- Model of one iteration of the receive loop of `JoinOperator::start`
(lines 72–167): dispatch on the leading node-id element; the first tuple of
each side is its header (join attribute indices still empty), every later
tuple is data; emitted tuples are returned in send order. -/
def joinStep (op : JoinOperator) (st : JoinState) (data : List String) :
    Option (JoinState × List (List String)) := do
  let node_id ← data.get? 0
  let real_data := data.drop 1
  if node_id = op.left_node_id then
    if st.left_join_attribute_indices.isEmpty then
      let join_attribute_names := op.left_right_join_attr_pairs.map (fun p => p.1)
      let left_attribute_names := st.left_attribute_names ++ real_data
      let left_join_attribute_indices := st.left_join_attribute_indices ++
        (real_data.enum.filter (fun p => p.2 ∈ join_attribute_names)).map
          (fun p => p.1)
      let left_join_data := st.left_join_data.set_join_attribute_positions
        left_join_attribute_indices
      if st.right_attribute_names ≠ [] then
        some ({ st with
            left_attribute_names := [],
            left_join_attribute_indices := left_join_attribute_indices,
            left_join_data := left_join_data },
          [op.node_id :: (left_attribute_names ++ st.right_attribute_names)])
      else
        some ({ st with
            left_attribute_names := left_attribute_names,
            left_join_attribute_indices := left_join_attribute_indices,
            left_join_data := left_join_data }, [])
    else
      let res ← process_data_for_one_join_side real_data st.left_join_data
        st.right_join_data
      let outs := match res.2 with
        | some rows => rows.map (fun row => op.node_id :: (real_data ++ row))
        | none => []
      some ({ st with left_join_data := res.1 }, outs)
  else if node_id = op.right_node_id then
    if st.right_join_attribute_indices.isEmpty then
      let join_attribute_names := op.left_right_join_attr_pairs.map (fun p => p.2)
      let right_attribute_names := st.right_attribute_names ++
        real_data.map (fun name => op.rightNodeAttrPref ++ name)
      let right_join_attribute_indices := st.right_join_attribute_indices ++
        (real_data.enum.filter (fun p => p.2 ∈ join_attribute_names)).map
          (fun p => p.1)
      let right_join_data := st.right_join_data.set_join_attribute_positions
        right_join_attribute_indices
      if st.left_attribute_names ≠ [] then
        some ({ st with
            right_attribute_names := [],
            right_join_attribute_indices := right_join_attribute_indices,
            right_join_data := right_join_data },
          [op.node_id :: (st.left_attribute_names ++ right_attribute_names)])
      else
        some ({ st with
            right_attribute_names := right_attribute_names,
            right_join_attribute_indices := right_join_attribute_indices,
            right_join_data := right_join_data }, [])
    else
      let res ← process_data_for_one_join_side real_data st.right_join_data
        st.left_join_data
      let outs := match res.2 with
        | some rows => rows.map (fun row => op.node_id :: (row ++ real_data))
        | none => []
      some ({ st with right_join_data := res.1 }, outs)
  else
    some (st, [])

/-- Running the join worker over a finite input sequence, accumulating the
emitted tuples in send order. -/
def joinRun (op : JoinOperator) (inputs : List (List String)) :
    Option (JoinState × List (List String)) :=
  inputs.foldlM (fun acc data =>
    (joinStep op acc.1 data).map (fun r => (r.1, acc.2 ++ r.2)))
    (JoinState.init op, [])

/-- Interleavings of two sequences preserving each side's order. -/
inductive Interleave {α : Type} : List α → List α → List α → Prop
  | nil : Interleave [] [] []
  | left {a : α} {l r t : List α} : Interleave l r t →
      Interleave (a :: l) r (a :: t)
  | right {a : α} {l r t : List α} : Interleave l r t →
      Interleave l (a :: r) (a :: t)

/-- The join attribute positions a side's header produces (the filter of
`JoinOperator::start` lines 87–92 and 132–138). -/
def joinPositions (attrs : List String) (header : List String) : List Nat :=
  (header.enum.filter (fun p => p.2 ∈ attrs)).map (fun p => p.1)

/-- The row indices whose i-th join attribute value is v (the intended
content of the i-th value-to-rows map). -/
def specIdx (pos : List Nat) (rows : List (List String)) (i : Nat)
    (v : String) : List Nat :=
  (rows.enum.filter
    (fun p => (joinAttrValues pos p.2).get? i = some v)).map (fun p => p.1)

/-- Invariant of a `JoinData` built from `rows`: positions fixed, data rows
stored in order, and the i-th index map sends each value to exactly the rows
whose i-th join attribute value it is (absent when no such row). -/
def JDOK (n : Nat) (pos : List Nat) (jd : JoinData)
    (rows : List (List String)) : Prop :=
  jd.join_attr_positions = pos ∧ jd.data = rows ∧
  jd.join_attr_indices.length = n ∧
  ∀ i im, jd.join_attr_indices.get? i = some im → ∀ v,
    idxLookup im v =
      if (specIdx pos rows i v).isEmpty then none else some (specIdx pos rows i v)

/-- The left side's join attribute positions for a given left header. -/
def leftPositions (op : JoinOperator) (lh : List String) : List Nat :=
  joinPositions (op.left_right_join_attr_pairs.map (fun p => p.1)) lh

/-- The right side's join attribute positions for a given right header. -/
def rightPositions (op : JoinOperator) (rh : List String) : List Nat :=
  joinPositions (op.left_right_join_attr_pairs.map (fun p => p.2)) rh

/-- The single header tuple the join emits once both side headers arrived. -/
def joinHeaderRow (op : JoinOperator) (lh rh : List String) : List String :=
  op.node_id :: (lh ++ rh.map (fun name => op.rightNodeAttrPref ++ name))

/-- The inner-join matches of two sides' data histories: for each left row in
order, the joined tuples with every right row whose join attribute values
coincide. -/
def joinMatches (op : JoinOperator) (lh rh : List String)
    (lds rds : List (List String)) : List (List String) :=
  (lds.map (fun ld => (rds.filter (fun rd =>
    joinAttrValues (rightPositions op rh) rd =
      joinAttrValues (leftPositions op lh) ld)).map
        (fun rd => op.node_id :: (ld ++ rd)))).flatten

/-- Running the join worker from an arbitrary state. -/
def joinSteps (op : JoinOperator) (st : JoinState)
    (inputs : List (List String)) : Option (JoinState × List (List String)) :=
  inputs.foldlM (fun acc data =>
    (joinStep op acc.1 data).map (fun r => (r.1, acc.2 ++ r.2))) (st, [])

/-- The join worker state after both headers were processed: both position
lists installed and both `JoinData` instances hold exactly the data rows seen
so far. -/
def StateBoth (op : JoinOperator) (lh rh : List String) (st : JoinState)
    (ldsDone rdsDone : List (List String)) : Prop :=
  st.left_join_attribute_indices = leftPositions op lh ∧
  st.right_join_attribute_indices = rightPositions op rh ∧
  JDOK op.left_right_join_attr_pairs.length (leftPositions op lh)
    st.left_join_data ldsDone ∧
  JDOK op.left_right_join_attr_pairs.length (rightPositions op rh)
    st.right_join_data rdsDone

/-- The join worker state after only the left header was processed. -/
def StateL (op : JoinOperator) (lh : List String) (st : JoinState)
    (ldsDone : List (List String)) : Prop :=
  st.left_attribute_names = lh ∧
  st.right_attribute_names = [] ∧
  st.left_join_attribute_indices = leftPositions op lh ∧
  st.right_join_attribute_indices = [] ∧
  JDOK op.left_right_join_attr_pairs.length (leftPositions op lh)
    st.left_join_data ldsDone ∧
  st.right_join_data = JoinData.new op.left_right_join_attr_pairs.length

/-- The join worker state after only the right header was processed. -/
def StateR (op : JoinOperator) (rh : List String) (st : JoinState)
    (rdsDone : List (List String)) : Prop :=
  st.left_attribute_names = [] ∧
  st.right_attribute_names =
    rh.map (fun name => op.rightNodeAttrPref ++ name) ∧
  st.left_join_attribute_indices = [] ∧
  st.right_join_attribute_indices = rightPositions op rh ∧
  st.left_join_data = JoinData.new op.left_right_join_attr_pairs.length ∧
  JDOK op.left_right_join_attr_pairs.length (rightPositions op rh)
    st.right_join_data rdsDone

/-- Helper: `concatLiterals` distributes over list append. -/
theorem concatLiterals_append (a b : List (Bool × String)) :
    concatLiterals (a ++ b) = concatLiterals a ++ concatLiterals b := by
  induction a with
  | nil => rfl
  | cons p rest ih =>
    by_cases hp : p.1 <;> simp [concatLiterals, hp] at ih ⊢ <;> simp [ih]

/-- Helper: a singleton literal part contributes its text. -/
theorem concatLiterals_lit (t : String) : concatLiterals [(false, t)] = t.data := by
  simp [concatLiterals]

/-- Helper: a singleton variable part contributes nothing. -/
theorem concatLiterals_var (t : String) : concatLiterals [(true, t)] = [] := by
  simp [concatLiterals]

/-- Helper: folding the literal-concatenation step from a non-empty initial
accumulator appends that accumulator at the end. -/
theorem concatLiterals_init (parts : List (Bool × String)) (init : List Char) :
    parts.foldr (fun p acc => if p.1 then acc else p.2.data ++ acc) init =
      concatLiterals parts ++ init := by
  induction parts with
  | nil => rfl
  | cons p rest ih =>
    by_cases hp : p.1 <;> simp [concatLiterals, hp] at ih ⊢ <;> simp [ih]

/-- Helper: loop invariant for `parse_template` on backslash-free input. When
no escape character occurs, the literal text accumulated by the parser equals
the input with its brace segments removed. -/
theorem parseTemplateLoop_literals (template : String) (cs : List Char) :
    ∀ parts cur between res, (∀ c ∈ cs, c ≠ '\\') →
    parseTemplateLoop template none cs parts cur between false = .ok res →
    res.2.2.2 = false ∧
    concatLiterals res.1 ++ (if res.2.2.1 then [] else res.2.1.data) =
      concatLiterals parts ++ (if between then [] else cur.data) ++
        removeBraceSegmentsAux between cs := by
  induction cs with
  | nil =>
    intro parts cur between res _ hrun
    simp only [parseTemplateLoop] at hrun
    cases hrun
    simp [removeBraceSegmentsAux]
  | cons c rest ih =>
    intro parts cur between res hnb hrun
    have hcnb : c ≠ '\\' := hnb c (by simp)
    have hrest : ∀ d ∈ rest, d ≠ '\\' := fun d hd => hnb d (by simp [hd])
    by_cases hc : c = '{'
    · subst hc
      cases hb : between with
      | true => simp [parseTemplateLoop, hb] at hrun
      | false =>
        simp only [parseTemplateLoop, hb] at hrun
        norm_num at hrun
        have h2 := ih _ _ _ _ hrest hrun
        refine ⟨h2.1, ?_⟩
        rw [h2.2]
        by_cases hcur : cur = ""
        · simp [hcur, removeBraceSegmentsAux]
        · simp only [if_neg hcur, removeBraceSegmentsAux, if_pos rfl,
            concatLiterals_append, concatLiterals_lit]
          simp
    · by_cases hc2 : c = '}'
      · subst hc2
        cases hb : between with
        | true =>
          simp only [parseTemplateLoop, hb] at hrun
          norm_num at hrun
          by_cases hcur : cur = ""
          · rw [if_pos hcur] at hrun
            have h2 := ih _ _ _ _ hrest hrun
            refine ⟨h2.1, ?_⟩
            rw [h2.2]
            simp [removeBraceSegmentsAux, hcur]
          · rw [if_neg hcur] at hrun
            simp only [removeJoinAliasPref] at hrun
            have h2 := ih _ _ _ _ hrest hrun
            refine ⟨h2.1, ?_⟩
            rw [h2.2]
            simp only [removeBraceSegmentsAux, if_pos rfl, concatLiterals_append,
              concatLiterals_var]
            simp
        | false =>
          simp [parseTemplateLoop, hb] at hrun
      · simp only [parseTemplateLoop, if_neg hc, if_neg hc2, if_neg hcnb] at hrun
        norm_num at hrun
        have h2 := ih _ _ _ _ hrest hrun
        refine ⟨h2.1, ?_⟩
        rw [h2.2]
        cases hb : between with
        | true => simp [removeBraceSegmentsAux, hc2, String.push]
        | false => simp [removeBraceSegmentsAux, hc, String.push]

/-- C7, counterexample. The claim fails on templates containing escapes: the
template consisting of a backslash followed by an opening brace is accepted
with single literal part `"\x7b"`, yet removing brace segments from the raw
template text yields `"\\"`. -/
theorem claim_C7_counterexample :
    parse_template "\\\x7b" none = .ok [(false, "\x7b")] ∧
    concatLiterals [((false : Bool), ("\x7b" : String))] ≠
      (removeBraceSegments "\\\x7b").data := by
  constructor
  · decide
  · decide

/-- C7 (amended): for every template with no escape character that the
template parser accepts, the concatenation of the texts of its literal
(non-variable) parts equals the template with all brace segments removed. -/
theorem claim_C7_amended (template : String) (parts : List (Bool × String))
    (hnb : ∀ c ∈ template.data, c ≠ '\\')
    (hok : parse_template template none = .ok parts) :
    concatLiterals parts = (removeBraceSegments template).data := by
  unfold parse_template at hok
  cases hrun : parseTemplateLoop template none template.data [] "" false false with
  | crash => rw [hrun] at hok; exact absurd hok (by simp)
  | err e => rw [hrun] at hok; exact absurd hok (by simp)
  | ok st =>
    obtain ⟨ps, cur, between, escape⟩ := st
    obtain ⟨hesc, hmain⟩ :=
      parseTemplateLoop_literals template template.data [] "" false _ hnb hrun
    dsimp only at hesc hmain
    subst hesc
    rw [hrun] at hok
    cases between with
    | true => simp at hok
    | false =>
      simp only [concatLiterals, List.foldr_nil, List.nil_append,
        Bool.false_eq_true, if_false] at hmain
      norm_num at hok
      by_cases hcur : cur = ""
      · rw [if_pos hcur] at hok
        cases hok
        rw [removeBraceSegments]
        rw [← hmain]
        simp [hcur, concatLiterals]
      · rw [if_neg hcur] at hok
        cases hok
        rw [removeBraceSegments]
        rw [← hmain]
        rw [concatLiterals_append, concatLiterals_lit]
        rfl

/-- C7, witness for the amended claim at a concrete template. -/
theorem claim_C7_witness :
    concatLiterals [(false, "a"), (true, "x"), (false, "b")] =
      (removeBraceSegments "a\x7bx\x7db").data :=
  claim_C7_amended "a\x7bx\x7db" [(false, "a"), (true, "x"), (false, "b")]
    (by decide) (by decide)

/-- C8: the template parser rejects an unmatched opening brace at end of
input, an unescaped closing brace outside a variable segment, an escape of a
character that does not need escaping, a nested opening brace inside a
variable segment, and a trailing unfulfilled escape. -/
theorem claim_C8_parse_errors :
    (parse_template "\x7ba" none).isErr = true ∧
    (parse_template "a\x7db" none).isErr = true ∧
    (parse_template "\\x" none).isErr = true ∧
    (parse_template "\x7b\x7bx\x7d\x7d" none).isErr = true ∧
    (parse_template "ab\\" none).isErr = true := by
  refine ⟨by decide, by decide, by decide, by decide, by decide⟩

/-- C6, counterexample. With join alias `"a"`, the variable text `"ab"` does
not have the prefix `"a_"`, so the claim says it is returned unchanged; the
code nevertheless strips `alias.len() + 1` characters and produces the empty
variable name. -/
theorem claim_C6_counterexample :
    parse_template "\x7bab\x7d" (some "a") = .ok [(true, "")] ∧
    ((true : Bool), ("" : String)) ≠ ((true : Bool), ("ab" : String)) := by
  constructor
  · decide
  · decide

/-- C6 (amended): when a join alias is supplied, a variable text that starts
with the alias characters has the alias plus the single following character
removed — in particular a `"<alias>_"` prefix is stripped, but so is any
other character following the alias; a text that does not start with the
alias characters is returned unchanged; and a text equal to the alias itself
makes the function panic (out-of-bounds slice). -/
theorem claim_C6_amended (al s v : String) (c : Char) :
    removeJoinAliasPref (al ++ String.singleton c ++ s) (some al) = some s ∧
    (al.data.isPrefixOf v.data = false → removeJoinAliasPref v (some al) = some v) ∧
    removeJoinAliasPref al (some al) = none := by
  obtain ⟨a⟩ := al
  obtain ⟨t⟩ := s
  obtain ⟨w⟩ := v
  refine ⟨?_, ?_, ?_⟩
  · show removeJoinAliasPref (String.mk ((a ++ [c]) ++ t)) (some (String.mk a)) =
      some (String.mk t)
    simp only [removeJoinAliasPref]
    rw [if_pos ?pre]
    case pre =>
      rw [List.isPrefixOf_iff_prefix, List.append_assoc]
      exact List.prefix_append _ _
    rw [if_pos ?len]
    case len =>
      show List.length a + 1 ≤ List.length ((a ++ [c]) ++ t)
      simp
    show some (String.mk (List.drop (a.length + 1) ((a ++ [c]) ++ t))) = some (String.mk t)
    have hlen : (a ++ [c]).length = a.length + 1 := by simp
    rw [← hlen, List.drop_left]
  · intro h
    simp only [removeJoinAliasPref]
    rw [if_neg (by simp [h])]
  · simp only [removeJoinAliasPref]
    rw [if_pos ?preq]
    case preq =>
      rw [List.isPrefixOf_iff_prefix]
    rw [if_neg ?lenq]
    case lenq =>
      show ¬ (List.length a + 1 ≤ List.length a)
      omega

/-- C6, witness for the amended claim at concrete inputs. -/
theorem claim_C6_witness :
    removeJoinAliasPref ("j" ++ String.singleton '_' ++ "x") (some "j") = some "x" ∧
    removeJoinAliasPref "name" (some "j") = some "name" :=
  ⟨(claim_C6_amended "j" "x" "name" '_').1,
    (claim_C6_amended "j" "x" "name" '_').2.1 (by decide)⟩

/-- Helper: when the input is no longer than the header, the variable map of
`TemplateStrFunction::exec` is the zip of header names and input values. -/
theorem buildVarMap_zip (values : List String) :
    ∀ names : List String, values.length ≤ names.length →
    buildVarMap names values = some (names.zip values) := by
  induction values with
  | nil =>
    intro names _
    cases names <;> simp [buildVarMap]
  | cons v vs ih =>
    intro names hlen
    cases names with
    | nil => simp at hlen
    | cons n ns =>
      simp only [List.length_cons, Nat.succ_le_succ_iff] at hlen
      simp [buildVarMap, ih ns hlen]

/-- Helper: with distinct header names and inputs of matching length,
`HashMap` lookup over the zipped map returns the value at the first index of
the name in the header. -/
theorem hashMapLookup_zip {β : Type} (x : String) :
    ∀ (names : List String) (values : List β), names.Nodup → values.length = names.length →
    hashMapLookup (names.zip values) x =
      (names.findIdx? (fun n => n == x)).bind (fun i => values.get? i) := by
  intro names
  induction names with
  | nil =>
    intro values _ hlen
    simp [hashMapLookup]
  | cons n ns ih =>
    intro values hnd hlen
    cases values with
    | nil => simp at hlen
    | cons v vs =>
      simp only [List.length_cons, Nat.succ.injEq] at hlen
      have hnd2 := hnd
      rw [List.nodup_cons] at hnd2
      by_cases hx : n = x
      · subst hx
        have hnotin : hashMapLookup (ns.zip vs) n = none := by
          unfold hashMapLookup
          rw [List.find?_eq_none.mpr]
          · rfl
          · intro p hp
            have hmem := List.of_mem_zip (List.mem_reverse.mp hp)
            simp only [beq_iff_eq]
            intro hcontra
            exact hnd2.1 (hcontra ▸ hmem.1)
        unfold hashMapLookup at hnotin ⊢
        rw [List.zip_cons_cons, List.reverse_cons, List.find?_append]
        have hfind : List.find? (fun p => p.1 == n) (ns.zip vs).reverse = none := by
          cases hc : List.find? (fun p => p.1 == n) (ns.zip vs).reverse with
          | none => rfl
          | some p => rw [hc] at hnotin; simp at hnotin
        rw [hfind]
        simp [List.findIdx?_cons]
      · unfold hashMapLookup
        rw [List.zip_cons_cons, List.reverse_cons, List.find?_append]
        have hlast : List.find? (fun p => p.1 == x) [(n, v)] = none := by
          simp [hx]
        rw [hlast]
        have := ih vs hnd2.2 hlen
        unfold hashMapLookup at this
        rw [Option.or_none, this]
        rw [List.findIdx?_cons]
        simp only [beq_iff_eq, hx, if_neg (by exact hx)]
        rw [List.findIdx?_succ]
        cases List.findIdx? (fun n => n == x) ns with
        | none => simp
        | some i => simp

/-- Helper: the rendering fold of `TemplateStrFunction::exec` computes the
spec-side renderer, prefixed with the accumulator. -/
theorem execFold_spec (names values : List String) (m : List (String × String))
    (hm : ∀ x, hashMapLookup m x =
      (names.findIdx? (fun n => n == x)).bind (fun i => values.get? i)) :
    ∀ (parts : List (Bool × String)) (acc : String),
    (parts.foldlM
      (fun acc (part : Bool × String) =>
        if part.1 then
          (hashMapLookup m part.2).map (fun value => acc ++ pctEncode value)
        else
          some (acc ++ part.2))
      acc) =
    (specTemplateRender names values parts).map (fun r => acc ++ r) := by
  intro parts
  induction parts with
  | nil =>
    intro acc
    simp [specTemplateRender]
  | cons part rest ih =>
    intro acc
    obtain ⟨isv, t⟩ := part
    cases isv with
    | false =>
      simp only [List.foldlM, specTemplateRender, Bool.false_eq_true, if_false,
        Option.bind_eq_bind, Option.some_bind]
      rw [ih (acc ++ t)]
      cases specTemplateRender names values rest with
      | none => simp
      | some tail => simp [String.append_assoc]
    | true =>
      simp only [List.foldlM, specTemplateRender, Option.bind_eq_bind]
      cases hfi : names.findIdx? (fun n => n == t) with
      | none =>
        simp only [hm t, hfi, Option.none_bind, Option.map_none']
        cases specTemplateRender names values rest with
        | none => simp
        | some tail => simp
      | some i =>
        cases hgv : values.get? i with
        | none =>
          simp only [hm t, hfi, hgv, Option.some_bind, Option.map_none']
          cases specTemplateRender names values rest with
          | none => simp
          | some tail => simp [hgv]
        | some v =>
          simp only [hm t, hfi, hgv, Option.some_bind, Option.map_some', if_true,
            Option.bind_eq_bind]
          rw [ih (acc ++ pctEncode v)]
          cases specTemplateRender names values rest with
          | none => simp
          | some tail => simp [hgv, String.append_assoc]

/-- C4, counterexample. The claim says a variable part's value is emitted
verbatim with no percent-encoding, but `exec` percent-encodes it with the
`pct_str` IRI-segment encoder: value `"a b"` is emitted as `"a%20b"`. -/
theorem claim_C4_counterexample :
    TemplateStrFunction.new "\x7bx\x7d" = .ok ⟨[(true, "x")], []⟩ ∧
    (TemplateStrFunction.setVariableNames ⟨[(true, "x")], []⟩ ["x"]).exec ["a b"] =
      some ["a%20b"] ∧
    ("a%20b" : String) ≠ "a b" := by
  refine ⟨by decide, by decide, by decide⟩

/-- C4 (amended): for every successfully parsed TemplateString expression
bound to a duplicate-free header of the same length as the input tuple and
whose variable parts all occur in the header, evaluation emits each literal
part verbatim and each variable part as the percent-encoding (pct_str
IRI-segment encoder) of the value found at the variable's header-mapped
index, and it returns a sequence of exactly one string. -/
theorem claim_C4_amended (f : TemplateStrFunction) (input : List String)
    (hnd : f.variable_names.Nodup) (hlen : input.length = f.variable_names.length) :
    f.exec input =
      (specTemplateRender f.variable_names input f.template_string_parts).map
        (fun r => [r]) := by
  unfold TemplateStrFunction.exec
  rw [buildVarMap_zip input f.variable_names (le_of_eq hlen)]
  rw [Option.some_bind]
  rw [execFold_spec f.variable_names input (f.variable_names.zip input)
    (fun x => ?lookup)]
  case lookup =>
    by_cases hx : x ∈ f.variable_names
    · exact hashMapLookup_zip x f.variable_names input hnd hlen
    · have h1 : hashMapLookup (f.variable_names.zip input) x = none := by
        unfold hashMapLookup
        rw [List.find?_eq_none.mpr]
        · rfl
        · intro p hp
          have hmem := List.of_mem_zip (List.mem_reverse.mp hp)
          simp only [beq_iff_eq]
          intro hcontra
          exact hx (hcontra ▸ hmem.1)
      have h2 : f.variable_names.findIdx? (fun n => n == x) = none := by
        rw [List.findIdx?_eq_none_iff]
        intro n hn
        simp only [beq_eq_false_iff_ne, ne_eq]
        intro hcontra
        exact hx (hcontra ▸ hn)
      rw [h1, h2]
      rfl
  cases specTemplateRender f.variable_names input f.template_string_parts with
  | none => simp
  | some r => simp

/-- C4, witness for the amended claim at a concrete expression and tuple. -/
theorem claim_C4_witness :
    (TemplateStrFunction.setVariableNames ⟨[(false, "a "), (true, "x")], []⟩ ["x"]).exec
      ["v w"] =
    (specTemplateRender ["x"] ["v w"] [(false, "a "), (true, "x")]).map (fun r => [r]) :=
  claim_C4_amended (TemplateStrFunction.setVariableNames ⟨[(false, "a "), (true, "x")], []⟩
    ["x"]) ["v w"] (by decide) (by decide)

/-- Helper: the scan loop of `ReferenceFunction::variable_names` computes
`findIdx?` over the header names. -/
theorem scanVariableNames_findIdx (target : String) :
    ∀ (l : List String) (i : Nat),
    scanVariableNames target l i = List.findIdx? (fun n => n == target) l i := by
  intro l
  induction l with
  | nil => intro i; simp [scanVariableNames]
  | cons n rest ih =>
    intro i
    rw [scanVariableNames, List.findIdx?_cons]
    by_cases hn : n = target
    · simp [hn]
    · rw [if_neg hn, if_neg (by simp [hn])]
      exact ih (i + 1)

/-- C9: a Reference expression records the index of the first header name
equal to its variable name; when no header name matches the index remains 0
(the value set by `new`); and evaluation returns the one-element sequence
holding the input element at that index. -/
theorem claim_C9_reference (name : String) (join_alias : Option String)
    (f : ReferenceFunction) (hnew : ReferenceFunction.new name join_alias = some f)
    (headers input : List String) :
    (∀ i, headers.findIdx? (fun n => n == f.variable_name) = some i →
      (f.setVariableNames headers).index = i) ∧
    (f.variable_name ∉ headers → (f.setVariableNames headers).index = 0) ∧
    (∀ v, input.get? (f.setVariableNames headers).index = some v →
      (f.setVariableNames headers).exec input = some [v]) := by
  have hidx0 : f.index = 0 := by
    unfold ReferenceFunction.new at hnew
    cases hrm : removeJoinAliasPref name join_alias with
    | none => rw [hrm] at hnew; simp at hnew
    | some v =>
      rw [hrm] at hnew
      simp only [Option.map_some', Option.some.injEq] at hnew
      rw [← hnew]
  refine ⟨?_, ?_, ?_⟩
  · intro i hfi
    unfold ReferenceFunction.setVariableNames
    rw [scanVariableNames_findIdx, hfi]
  · intro hnm
    have hfi : headers.findIdx? (fun n => n == f.variable_name) = none := by
      rw [List.findIdx?_eq_none_iff]
      intro n hn
      simp only [beq_eq_false_iff_ne, ne_eq]
      intro hcontra
      exact hnm (hcontra ▸ hn)
    unfold ReferenceFunction.setVariableNames
    rw [scanVariableNames_findIdx, hfi, hidx0]
  · intro v hv
    unfold ReferenceFunction.exec
    rw [hv]
    rfl

/-- C9, witness: a bound reference (alias-stripped name `"x"`) finds index 1
in headers `["a", "x"]` and returns element 1 of the input; an unmatched
reference keeps index 0. -/
theorem claim_C9_witness :
    (ReferenceFunction.setVariableNames ⟨"x", 0⟩ ["a", "x"]).exec ["p", "q"] =
      some ["q"] ∧
    (ReferenceFunction.setVariableNames ⟨"z", 0⟩ ["a", "x"]).index = 0 :=
  ⟨(claim_C9_reference "r_x" (some "r") ⟨"x", 0⟩ (by decide) ["a", "x"]
      ["p", "q"]).2.2 "q" (by decide),
   (claim_C9_reference "z" none ⟨"z", 0⟩ (by decide) ["a", "x"] ["p", "q"]).2.1
      (by decide)⟩

/-- Helper: when the payload fits inside header and type lists, the variable
map of the serializer is the header zipped with value-type pairs. -/
theorem buildVarTypeMap_zip (values : List String) :
    ∀ names types : List String,
    values.length ≤ names.length → values.length ≤ types.length →
    buildVarTypeMap names types values = some (names.zip (values.zip types)) := by
  induction values with
  | nil =>
    intro names types _ _
    cases names <;> cases types <;> simp [buildVarTypeMap]
  | cons v vs ih =>
    intro names types hn ht
    cases names with
    | nil => simp at hn
    | cons n ns =>
      cases types with
      | nil => simp at ht
      | cons ty tys =>
        simp only [List.length_cons, Nat.succ_le_succ_iff] at hn ht
        simp [buildVarTypeMap, ih ns tys hn ht]

/-- Helper: indexing a zipped list is the pairing of the two indexings. -/
theorem zip_get? {α β : Type} (as : List α) :
    ∀ (bs : List β) (i : Nat),
    (as.zip bs).get? i = (as.get? i).bind fun a => (bs.get? i).map (fun b => (a, b)) := by
  induction as with
  | nil => intro bs i; simp
  | cons a as ih =>
    intro bs i
    cases bs with
    | nil => simp
    | cons b bs =>
      cases i with
      | zero => simp
      | succ j => simpa using ih bs j

/-- Helper: the rendering fold of `SerializeOperator::start` computes the
spec-side line renderer, prefixed with the accumulator. -/
theorem serializeFold_spec (names types values : List String)
    (m : List (String × String × String))
    (hm : ∀ x, hashMapLookup m x =
      (names.findIdx? (fun n => n == x)).bind fun i => (values.zip types).get? i)
    (hty : ∀ ty ∈ types, ty = "str" ∨ ty = "iri" ∨ ty = "lit" ∨ ty = "blank") :
    ∀ (parts : List (Bool × String)) (acc : String),
    (parts.foldlM
      (fun result_str (part : Bool × String) =>
        if part.1 then
          (hashMapLookup m part.2).bind fun vt =>
            (if vt.2 = "str" then some vt.2
             else if vt.2 = "iri" then some ("<" ++ vt.1 ++ ">")
             else if vt.2 = "lit" then some ("\"" ++ vt.1 ++ "\"")
             else if vt.2 = "blank" then some ("_:" ++ vt.1)
             else none).map (fun value_str => result_str ++ value_str)
        else
          some (result_str ++ part.2))
      acc) =
    (specSerializeLine names types values parts).map (fun r => acc ++ r) := by
  intro parts
  induction parts with
  | nil => intro acc; simp [specSerializeLine]
  | cons part rest ih =>
    intro acc
    obtain ⟨isv, t⟩ := part
    cases isv with
    | false =>
      simp only [List.foldlM, specSerializeLine, Bool.false_eq_true, if_false,
        Option.bind_eq_bind, Option.some_bind]
      rw [ih (acc ++ t)]
      cases specSerializeLine names types values rest with
      | none => simp
      | some tail => simp [String.append_assoc]
    | true =>
      simp only [List.foldlM, specSerializeLine, Option.bind_eq_bind]
      cases hfi : names.findIdx? (fun n => n == t) with
      | none =>
        simp only [hm t, hfi, Option.none_bind, Option.map_none']
        cases specSerializeLine names types values rest with
        | none => simp
        | some tail => simp
      | some i =>
        cases hv : values.get? i with
        | none =>
          have hz : (values.zip types).get? i = none := by
            rw [zip_get?, hv]; rfl
          simp only [hm t, hfi, hz, Option.some_bind, Option.none_bind,
            Option.map_none']
          cases specSerializeLine names types values rest with
          | none => simp
          | some tail =>
            rw [List.get?_eq_getElem?] at hv
            simp [hv]
        | some v =>
          cases hy : types.get? i with
          | none =>
            have hz : (values.zip types).get? i = none := by
              rw [zip_get?, hv, hy]; rfl
            simp only [hm t, hfi, hz, Option.some_bind, Option.none_bind,
              Option.map_none']
            cases specSerializeLine names types values rest with
            | none => simp
            | some tail =>
              rw [List.get?_eq_getElem?] at hv hy
              simp [hv, hy]
          | some ty =>
            have hz : (values.zip types).get? i = some (v, ty) := by
              rw [zip_get?, hv, hy]; rfl
            have hmem : ty ∈ types := by
              have := List.get?_mem hy
              exact this
            have hfmt :
                (if ty = "str" then some ty
                 else if ty = "iri" then some ("<" ++ v ++ ">")
                 else if ty = "lit" then some ("\"" ++ v ++ "\"")
                 else if ty = "blank" then some ("_:" ++ v)
                 else none) = some (fmtByType ty v) := by
              rcases hty ty hmem with h | h | h | h <;> subst h <;> rfl
            simp only [hm t, hfi, hz, Option.some_bind, hfmt, Option.map_some',
              if_true, Option.bind_eq_bind]
            rw [ih (acc ++ fmtByType ty v)]
            cases specSerializeLine names types values rest with
            | none => simp
            | some tail =>
              rw [List.get?_eq_getElem?] at hv hy
              simp [hv, hy, String.append_assoc]

/-- Helper: `mapM` over `Option` respects pointwise equal functions. -/
theorem mapM_congr {α β : Type} (f g : α → Option β) :
    ∀ l : List α, (∀ a ∈ l, f a = g a) → l.mapM f = l.mapM g := by
  intro l
  induction l with
  | nil => intro _; rfl
  | cons a rest ih =>
    intro h
    have h1 : f a = g a := h a (by simp)
    have h2 := ih (fun x hx => h x (by simp [hx]))
    simp only [List.mapM_cons, h1, h2]

/-- C5: for every data tuple processed by the Serialize operator after the
two header tuples, each variable part of the serializer template is rendered
according to its result type — `iri` as the value in angle brackets, `lit` as
the value in double quotes, `blank` as `_:` plus the value, and `str` as the
type-tag text `str` itself — and each literal part is appended verbatim; the
rendered line is emitted as `[node_id, line]`. -/
theorem claim_C5_serialize (parts : List (Bool × String)) (node_id id0 id1 : String)
    (names types : List String) (data : List (List String))
    (hnd : names.Nodup) (hlt : types.length = names.length)
    (hty : ∀ ty ∈ types, ty = "str" ∨ ty = "iri" ∨ ty = "lit" ∨ ty = "blank")
    (hdl : ∀ d ∈ data, (d.drop 1).length = names.length) :
    serializeRun parts node_id ((id0 :: names) :: (id1 :: types) :: data) =
      data.mapM (fun d =>
        (specSerializeLine names types (d.drop 1) parts).map
          (fun line => [node_id, line])) := by
  unfold serializeRun
  apply mapM_congr
  intro d hd
  have hlen : (d.drop 1).length = names.length := hdl d hd
  unfold renderSerializeTuple
  rw [buildVarTypeMap_zip (d.drop 1) names types (le_of_eq hlen)
    (le_of_eq (hlen.trans hlt.symm))]
  rw [Option.some_bind]
  rw [serializeFold_spec names types (d.drop 1) _ (fun x => ?lookup) hty]
  case lookup =>
    by_cases hx : x ∈ names
    · exact hashMapLookup_zip x names ((d.drop 1).zip types) hnd
        (by rw [List.length_zip, hlen, hlt]; simp)
    · have h1 : hashMapLookup (names.zip ((d.drop 1).zip types)) x = none := by
        unfold hashMapLookup
        rw [List.find?_eq_none.mpr]
        · rfl
        · intro p hp
          have hmem := List.of_mem_zip (List.mem_reverse.mp hp)
          simp only [beq_iff_eq]
          intro hcontra
          exact hx (hcontra ▸ hmem.1)
      have h2 : names.findIdx? (fun n => n == x) = none := by
        rw [List.findIdx?_eq_none_iff]
        intro n hn
        simp only [beq_eq_false_iff_ne, ne_eq]
        intro hcontra
        exact hx (hcontra ▸ hn)
      rw [h1, h2]
      rfl
  cases specSerializeLine names types (d.drop 1) parts with
  | none => simp
  | some r => simp

/-- C5, witness: the claim theorem applied to a concrete template, header,
type row and data tuple. -/
theorem claim_C5_witness :
    serializeRun (create_template_template_string_parts "?s ?p ?o .") "9"
      (["4", "s", "p", "o"] :: ["4", "iri", "lit", "blank"] ::
        [["4", "A", "B", "C"]]) =
      [["4", "A", "B", "C"]].mapM (fun d =>
        (specSerializeLine ["s", "p", "o"] ["iri", "lit", "blank"] (d.drop 1)
          (create_template_template_string_parts "?s ?p ?o .")).map
          (fun line => [("9" : String), line])) :=
  claim_C5_serialize (create_template_template_string_parts "?s ?p ?o .") "9" "4" "4"
    ["s", "p", "o"] ["iri", "lit", "blank"] [["4", "A", "B", "C"]]
    (by decide) (by decide) (by decide) (by decide)

/-- Helper: a successful `mapM` over `Option` maps element-wise. -/
theorem mapM_some_get {α β : Type} (f : α → Option β) :
    ∀ (l : List α) (res : List β), l.mapM f = some res →
    res.length = l.length ∧ ∀ i, res.get? i = (l.get? i).bind f := by
  intro l
  induction l with
  | nil =>
    intro res h
    simp only [List.mapM_nil, Option.pure_def, Option.some.injEq] at h
    subst h
    exact ⟨rfl, fun i => by cases i <;> rfl⟩
  | cons a rest ih =>
    intro res h
    simp only [List.mapM_cons, Option.pure_def, Option.bind_eq_bind] at h
    cases hfa : f a with
    | none => rw [hfa] at h; simp at h
    | some b =>
      rw [hfa] at h
      rw [Option.some_bind] at h
      cases hrest : rest.mapM f with
      | none => rw [hrest] at h; simp at h
      | some res' =>
        rw [hrest] at h
        rw [Option.some_bind] at h
        simp only [Option.some.injEq] at h
        subst h
        obtain ⟨hlen, hget⟩ := ih res' hrest
        refine ⟨by simp [hlen], fun i => ?_⟩
        cases i with
        | zero => simp [hfa]
        | succ j => simpa using hget j

/-- Helper: indexing the flattening of a list of singleton lists. -/
theorem flatten_singletons {α : Type} :
    ∀ ls : List (List α), (∀ l ∈ ls, ∃ v, l = [v]) →
    ∀ k, ls.flatten.get? k = (ls.get? k).bind (fun l => l.head?) := by
  intro ls
  induction ls with
  | nil => intro _ k; cases k <;> rfl
  | cons l rest ih =>
    intro h k
    obtain ⟨v, hv⟩ := h l (by simp)
    subst hv
    cases k with
    | zero => rfl
    | succ j =>
      simp only [List.flatten_cons, List.singleton_append]
      simpa using ih (fun x hx => h x (by simp [hx])) j

/-- Helper: a successful `ReferenceFunction::exec` always yields a
one-element list. -/
theorem referenceExec_singleton (f : ReferenceFunction) (input : List String)
    (r : List String) (h : f.exec input = some r) : ∃ v, r = [v] := by
  unfold ReferenceFunction.exec at h
  cases hg : input.get? f.index with
  | none => rw [hg] at h; simp at h
  | some v =>
    rw [hg] at h
    simp only [Option.map_some', Option.some.injEq] at h
    exact ⟨v, h.symm⟩

/-- C10, counterexample. In an aliased Extend stream with upstream attribute
names `["a"]` (header tuple `["7", "a"]`), a Reference named `"j_a"` does not
occur among the upstream attribute names, yet it evaluates to the payload
value `"v"` — not to the producer's node-id string `"7"` — because the
synthesized bound header also contains the alias-prefixed names. -/
theorem claim_C10_counterexample :
    extendRun refBasicFunction [("?x", (⟨"j_a", 0⟩ : ReferenceFunction))] "9" (some "j")
      [["7", "a"], ["7", "v"]] = some [["9", "x"], ["9", "str"], ["9", "v"]] ∧
    ("j_a" : String) ∉ (["a"] : List String) ∧
    ("v" : String) ≠ "7" := by
  refine ⟨by decide, by decide, by decide⟩

/-- C10 (amended): in the Extend worker the header bound into every compiled
expression is the entire first inbound tuple, its leading producer-node-id
element included (plus the alias-prefixed copy of those names when a join
alias is set), and each data tuple is evaluated with its node-id element
still at position 0; consequently a Reference whose variable name occurs
nowhere in that bound header evaluates, on every data tuple, to the tuple's
leading element — the producer's node-id string. -/
theorem claim_C10_amended (functions : List (String × ReferenceFunction))
    (node_id : String) (join_alias : Option String) (h : List String)
    (ds : List (List String)) (outs : List (List String))
    (hrun : extendRun refBasicFunction functions node_id join_alias (h :: ds) =
      some outs)
    (k : Nat) (hk : k < functions.length)
    (hidx : ((functions.get ⟨k, hk⟩).2).index = 0)
    (hnot : ((functions.get ⟨k, hk⟩).2).variable_name ∉
      extendBoundHeader join_alias h)
    (hne : ∀ d ∈ ds, d ≠ []) :
    ∃ houts touts dataOuts, outs = houts :: touts :: dataOuts ∧
      dataOuts.length = ds.length ∧
      ∀ i, i < ds.length →
        (dataOuts.get? i).bind (fun out => out.get? (k + 1)) =
        (ds.get? i).bind (fun d => d.head?) := by
  unfold extendRun at hrun
  simp only [Option.bind_eq_bind, Option.pure_def] at hrun
  obtain ⟨stripped, hstr, hrun2⟩ := Option.bind_eq_some.mp hrun
  obtain ⟨dataOuts, hmapd, hpack⟩ := Option.bind_eq_some.mp hrun2
  have houts : outs = (node_id :: stripped) ::
      (node_id :: functions.map (fun p => refBasicFunction.get_result_type p.2)) ::
      dataOuts := by
    simpa using hpack.symm
  obtain ⟨hlen, hget⟩ := mapM_some_get _ ds dataOuts hmapd
  refine ⟨_, _, dataOuts, houts, hlen, ?_⟩
  intro i hi
  have hget_i := hget i
  cases hdi : ds.get? i with
  | none =>
    rw [List.get?_eq_getElem?, List.getElem?_eq_getElem hi] at hdi
    simp at hdi
  | some d =>
    have hdmem : d ∈ ds := List.mem_iff_get?.mpr ⟨i, hdi⟩
    have hdne : d ≠ [] := hne d hdmem
    rw [hdi, Option.some_bind] at hget_i
    have hi2 : i < dataOuts.length := by rw [hlen]; exact hi
    obtain ⟨out, hout⟩ : ∃ out, dataOuts.get? i = some out := by
      rw [List.get?_eq_getElem?, List.getElem?_eq_getElem hi2]
      exact ⟨_, rfl⟩
    rw [hout] at hget_i
    rw [hout]
    simp only [Option.some_bind]
    obtain ⟨results, hres, hpack2⟩ := Option.bind_eq_some.mp hget_i.symm
    have hout2 : out = node_id :: results.flatten := by simpa using hpack2.symm
    rw [hout2]
    obtain ⟨x, xs, hdx⟩ : ∃ x xs, d = x :: xs := by
      cases d with
      | nil => exact absurd rfl hdne
      | cons x xs => exact ⟨x, xs, rfl⟩
    have hd0 : (match join_alias with
        | some _ => d ++ d
        | none => d).get? 0 = d.head? := by
      cases join_alias with
      | none => cases d <;> simp
      | some ja => rw [hdx]; simp
    have hsing : ∀ r ∈ results, ∃ v, r = [v] := by
      intro r hr
      obtain ⟨j, hj⟩ := List.mem_iff_get?.mp hr
      have hj2 := (mapM_some_get _ _ results hres).2 j
      rw [hj] at hj2
      cases hfj : (functions.map (fun p => (p.1,
          refBasicFunction.setVariableNames p.2
            (extendBoundHeader join_alias h)))).get? j with
      | none => rw [hfj] at hj2; simp at hj2
      | some p =>
        rw [hfj, Option.some_bind] at hj2
        exact referenceExec_singleton p.2 _ r hj2.symm
    have hflat := flatten_singletons results hsing k
    have hresk := (mapM_some_get _ _ results hres).2 k
    have hfk : (functions.map (fun p => (p.1,
        refBasicFunction.setVariableNames p.2
          (extendBoundHeader join_alias h)))).get? k =
        some ((functions.get ⟨k, hk⟩).1,
          refBasicFunction.setVariableNames (functions.get ⟨k, hk⟩).2
            (extendBoundHeader join_alias h)) := by
      rw [List.get?_eq_getElem?, List.getElem?_map, List.getElem?_eq_getElem hk]
      simp [List.get_eq_getElem]
    rw [hfk, Option.some_bind] at hresk
    have hbindid : refBasicFunction.setVariableNames
        (functions.get ⟨k, hk⟩).2 (extendBoundHeader join_alias h) =
        (functions.get ⟨k, hk⟩).2 := by
      show ReferenceFunction.setVariableNames _ _ = _
      unfold ReferenceFunction.setVariableNames
      rw [scanVariableNames_findIdx]
      have hnone : (extendBoundHeader join_alias h).findIdx?
          (fun n => n == (functions.get ⟨k, hk⟩).2.variable_name) = none := by
        rw [List.findIdx?_eq_none_iff]
        intro n hn
        simp only [beq_eq_false_iff_ne, ne_eq]
        intro hcontra
        exact hnot (hcontra ▸ hn)
      rw [hnone]
    rw [hbindid] at hresk
    have hexeck : refBasicFunction.exec (functions.get ⟨k, hk⟩).2
        (match join_alias with
         | some _ => d ++ d
         | none => d) = some [x] := by
      show ReferenceFunction.exec _ _ = _
      unfold ReferenceFunction.exec
      rw [hidx, hd0, hdx]
      rfl
    rw [hexeck] at hresk
    show (node_id :: results.flatten).get? (k + 1) = d.head?
    rw [List.get?_cons_succ, hflat, hresk, hdx]
    rfl

/-- C10, witness for the amended claim: a Reference named `"nope"`, absent
from the bound header `["7", "a"]`, yields the producer id `"7"` on the data
tuple `["7", "v"]`. -/
theorem claim_C10_witness :
    ∃ houts touts dataOuts,
      [["9", "x"], ["9", "str"], ["9", "7"]] = houts :: touts :: dataOuts ∧
      dataOuts.length = [[("7" : String), "v"]].length ∧
      ∀ i, i < [[("7" : String), "v"]].length →
        (dataOuts.get? i).bind (fun out => out.get? (0 + 1)) =
        ([[("7" : String), "v"]].get? i).bind (fun d => d.head?) :=
  claim_C10_amended [("?x", ⟨"nope", 0⟩)] "9" none ["7", "a"] [["7", "v"]]
    [["9", "x"], ["9", "str"], ["9", "7"]] (by decide) 0 (by decide) (by decide)
    (by decide) (by decide)

/-- Helper: looking up the key just inserted. -/
theorem mapGet_insert_self (m : NodeMap) (k : Nat) (v : Node) :
    mapGet (mapInsert m k v) k = some v := by
  unfold mapInsert mapGet
  by_cases hany : m.any (fun p => p.1 == k)
  · rw [if_pos hany]
    rw [List.find?_map]
    have hpred : ((fun p : Nat × Node => p.1 == k) ∘
        (fun p : Nat × Node => if (p.1 == k) = true then (k, v) else p)) =
        (fun p : Nat × Node => p.1 == k) := by
      funext p
      by_cases hp : p.1 = k
      · simp [hp]
      · simp [hp]
    rw [hpred]
    have hsome : (m.find? (fun p => p.1 == k)).isSome := by
      rw [List.find?_isSome]
      exact List.any_eq_true.mp hany
    obtain ⟨p0, hp0⟩ := Option.isSome_iff_exists.mp hsome
    have hp0k := List.find?_some hp0
    rw [hp0, Option.map_some', Option.map_some']
    simp [hp0k]
  · rw [if_neg hany]
    rw [List.find?_append]
    have hnone : m.find? (fun p => p.1 == k) = none := by
      rw [List.find?_eq_none]
      intro p hp hpk
      exact hany (List.any_eq_true.mpr ⟨p, hp, hpk⟩)
    rw [hnone]
    simp

/-- Helper: inserting one key leaves other keys unchanged. -/
theorem mapGet_insert_ne (m : NodeMap) (k k' : Nat) (v : Node) (hne : k' ≠ k) :
    mapGet (mapInsert m k v) k' = mapGet m k' := by
  unfold mapInsert mapGet
  by_cases hany : m.any (fun p => p.1 == k)
  · rw [if_pos hany]
    rw [List.find?_map]
    have hkk : k ≠ k' := Ne.symm hne
    have hpred : ((fun p : Nat × Node => p.1 == k') ∘
        (fun p : Nat × Node => if (p.1 == k) = true then (k, v) else p)) =
        (fun p : Nat × Node => p.1 == k') := by
      funext p
      simp only [Function.comp]
      by_cases hp : p.1 = k
      · simp [hp, hkk]
      · simp [hp]
    rw [hpred]
    cases hfind : m.find? (fun p => p.1 == k') with
    | none => rfl
    | some p0 =>
      have hp0k := List.find?_some hfind
      have hp0ne : ¬ (p0.1 = k) := by
        intro hcontra
        have hpk : p0.1 = k' := by simpa using hp0k
        exact hne (by rw [← hpk, hcontra])
      simp [hp0ne]
  · rw [if_neg hany]
    rw [List.find?_append]
    have hkk : k ≠ k' := Ne.symm hne
    have hlast : List.find? (fun p => p.1 == k') [(k, v)] = none := by
      simp [hkk]
    rw [hlast]
    cases m.find? (fun p => p.1 == k') <;> rfl

/-- Helper: a removed key is gone. -/
theorem mapGet_remove_self (m : NodeMap) (k : Nat) :
    mapGet (mapRemove m k) k = none := by
  unfold mapGet mapRemove
  rw [List.find?_eq_none.mpr]
  · rfl
  · intro p hp
    have := List.of_mem_filter hp
    simpa using this

/-- Helper: removing one key leaves other keys unchanged. -/
theorem mapGet_remove_ne (m : NodeMap) (k k' : Nat) (hne : k' ≠ k) :
    mapGet (mapRemove m k) k' = mapGet m k' := by
  unfold mapGet mapRemove
  induction m with
  | nil => rfl
  | cons q rest ih =>
    by_cases hq : q.1 = k
    · rw [List.filter_cons_of_neg (by simpa using hq)]
      rw [List.find?_cons_of_neg _ (by simp [hq]; exact fun h => hne h.symm)]
      exact ih
    · rw [List.filter_cons_of_pos (by simpa using hq)]
      by_cases hq' : q.1 = k'
      · rw [List.find?_cons_of_pos _ (by simpa using hq'),
          List.find?_cons_of_pos _ (by simpa using hq')]
      · rw [List.find?_cons_of_neg _ (by simpa using hq'),
          List.find?_cons_of_neg _ (by simpa using hq')]
        exact ih

/-- Helper: a generic invariant carrier for `foldlM` over `Option`. -/
theorem foldlM_option_inv {α β : Type} (P : β → Prop) (f : β → α → Option β) :
    ∀ (l : List α) (b : β), P b →
    (∀ b a r, a ∈ l → P b → f b a = some r → P r) →
    ∀ r, l.foldlM f b = some r → P r := by
  intro l
  induction l with
  | nil =>
    intro b hb _ r hr
    simp only [List.foldlM_nil, Option.pure_def, Option.some.injEq] at hr
    exact hr ▸ hb
  | cons a rest ih =>
    intro b hb hstep r hr
    simp only [List.foldlM_cons, Option.bind_eq_bind] at hr
    obtain ⟨b1, hb1, hrest⟩ := Option.bind_eq_some.mp hr
    exact ih b1 (hstep b a b1 (by simp) hb hb1)
      (fun b' a' r' ha' => hstep b' a' r' (by simp [ha'])) r hrest

/-- Helper: a plain `foldl` invariant carrier. -/
theorem foldl_inv {α β : Type} (P : β → Prop) (f : β → α → β) :
    ∀ (l : List α) (b : β), P b → (∀ b a, a ∈ l → P b → P (f b a)) →
    P (l.foldl f b) := by
  intro l
  induction l with
  | nil => intro b hb _; exact hb
  | cons a rest ih =>
    intro b hb hstep
    exact ih (f b a) (hstep b a (by simp) hb)
      (fun b' a' ha' => hstep b' a' (by simp [ha']))

/-- Helper: all node edit operations leave the operator unchanged. -/
theorem Node.operator_edits (n : Node) (i j : Nat) (ids : List Nat)
    (a : Option (List String)) (ja : String) :
    (n.add_from i).operator = n.operator ∧
    (n.add_to i).operator = n.operator ∧
    (n.add_all_from ids).operator = n.operator ∧
    (n.add_all_to ids).operator = n.operator ∧
    (n.replace_from i j).operator = n.operator ∧
    (n.replace_to i j).operator = n.operator ∧
    (n.change_to_ids ids i).operator = n.operator ∧
    (n.add_attributes a).operator = n.operator ∧
    ({ n.replace_from i j with join_alias := some ja }).operator = n.operator := by
  refine ⟨rfl, rfl, rfl, rfl, rfl, rfl, rfl, ?_, rfl⟩
  unfold Node.add_attributes
  cases n.attributes <;> cases a <;> rfl

/-- Helper: looking up in the enumerated node list is positional lookup. -/
theorem mapGet_enumFrom (l : List Node) :
    ∀ s j, mapGet (List.enumFrom s l) j = if s ≤ j then l.get? (j - s) else none := by
  induction l with
  | nil =>
    intro s j
    cases Nat.decLe s j with
    | isTrue h => simp [mapGet]
    | isFalse h => simp [mapGet]
  | cons a l ih =>
    intro s j
    by_cases hj : j = s
    · subst hj
      unfold mapGet
      rw [List.enumFrom, List.find?_cons_of_pos _ (by simp)]
      simp
    · unfold mapGet
      rw [List.enumFrom, List.find?_cons_of_neg _ (by simpa using fun h => hj h.symm)]
      have := ih (s + 1) j
      unfold mapGet at this
      rw [this]
      by_cases hle : s ≤ j
      · have hlt : s < j := Nat.lt_of_le_of_ne hle (fun h => hj h.symm)
        rw [if_pos (by omega), if_pos hle]
        have hsub : j - s = (j - (s + 1)) + 1 := by omega
        rw [hsub]
        rfl
      · rw [if_neg (by omega), if_neg hle]

/-- Helper: the initial node map of the rewriter is positional lookup into
the plan. -/
theorem mapGet_enum (l : List Node) (j : Nat) :
    mapGet l.enum j = l.get? j := by
  have := mapGet_enumFrom l 0 j
  rw [List.enum] at *
  simpa using this

/-- Helper: inserting a node whose operator is the plan's operator at that
key preserves provenance. -/
theorem OpPres_insert (plan : PlanGraph) (m : NodeMap) (k : Nat) (v : Node)
    (h : OpPres plan m)
    (horig : ∃ n0, plan.nodes.get? k = some n0 ∧ n0.operator = v.operator) :
    OpPres plan (mapInsert m k v) := by
  intro k' n' hget
  by_cases hk : k' = k
  · subst hk
    rw [mapGet_insert_self] at hget
    cases hget
    exact horig
  · rw [mapGet_insert_ne m k k' v hk] at hget
    exact h k' n' hget

/-- Helper: removal preserves provenance. -/
theorem OpPres_remove (plan : PlanGraph) (m : NodeMap) (k : Nat)
    (h : OpPres plan m) : OpPres plan (mapRemove m k) := by
  intro k' n' hget
  by_cases hk : k' = k
  · subst hk
    rw [mapGet_remove_self] at hget
    exact absurd hget (by simp)
  · rw [mapGet_remove_ne m k k' hk] at hget
    exact h k' n' hget

/-- Helper: the attribute merge leaves the operator unchanged. -/
theorem Node.operator_add_attributes (n : Node) (a : Option (List String)) :
    (n.add_attributes a).operator = n.operator := by
  unfold Node.add_attributes
  cases n.attributes <;> cases a <;> rfl

/-- Helper: installing edges preserves operator provenance. -/
theorem installEdges_OpPres (plan : PlanGraph) (m : NodeMap)
    (edges : List (Nat × Nat)) (m' : NodeMap) (h : OpPres plan m)
    (hrun : installEdges m edges = some m') : OpPres plan m' := by
  refine foldlM_option_inv (OpPres plan) _ edges m h ?_ m' hrun
  intro b e r _ hb hstep
  obtain ⟨fn, hfn, hstep2⟩ := Option.bind_eq_some.mp hstep
  obtain ⟨tn, htn, hstep3⟩ := Option.bind_eq_some.mp hstep2
  have hr : r = mapInsert (mapInsert b e.1 (fn.add_to e.2)) e.2 (tn.add_from e.1) := by
    simpa using hstep3.symm
  subst hr
  have hb2 : OpPres plan (mapInsert b e.1 (fn.add_to e.2)) := by
    refine OpPres_insert plan b e.1 _ hb ?_
    obtain ⟨n0, hn0, hop⟩ := hb e.1 fn hfn
    exact ⟨n0, hn0, hop⟩
  refine OpPres_insert plan _ e.2 _ hb2 ?_
  obtain ⟨n0, hn0, hop⟩ := hb2 e.2 tn htn
  exact ⟨n0, hn0, hop⟩

/-- Helper: one Fragmenter-removal step preserves operator provenance. -/
theorem fragmentStep_OpPres (plan : PlanGraph) (m : NodeMap) (f : Nat)
    (m' : NodeMap) (h : OpPres plan m) (hrun : fragmentStep m f = some m') :
    OpPres plan m' := by
  unfold fragmentStep at hrun
  obtain ⟨frag, hfrag, hrun2⟩ := Option.bind_eq_some.mp hrun
  refine foldlM_option_inv (OpPres plan) _ frag.from_ (mapRemove m f)
    (OpPres_remove plan m f h) ?_ m' hrun2
  intro b s r _ hb hstep
  obtain ⟨sn, hsn, hstep2⟩ := Option.bind_eq_some.mp hstep
  refine foldlM_option_inv (OpPres plan) _ frag.to_ _ ?_ ?_ r hstep2
  · refine OpPres_insert plan b s _ hb ?_
    obtain ⟨n0, hn0, hop⟩ := hb s sn hsn
    exact ⟨n0, hn0, hop⟩
  · intro b2 en r2 _ hb2 hstep3
    obtain ⟨endn, hendn, hstep4⟩ := Option.bind_eq_some.mp hstep3
    have hr2 : r2 = mapInsert b2 en (endn.replace_from f s) := by
      simpa using hstep4.symm
    subst hr2
    refine OpPres_insert plan b2 en _ hb2 ?_
    obtain ⟨n0, hn0, hop⟩ := hb2 en endn hendn
    exact ⟨n0, hn0, hop⟩

/-- Helper: one Projection-removal step preserves operator provenance. -/
theorem projectionStep_OpPres (plan : PlanGraph) (m : NodeMap) (pidx : Nat)
    (m' : NodeMap) (h : OpPres plan m) (hrun : projectionStep m pidx = some m') :
    OpPres plan m' := by
  unfold projectionStep at hrun
  obtain ⟨pn, hpn, hrun2⟩ := Option.bind_eq_some.mp hrun
  refine foldlM_option_inv (OpPres plan) _ pn.from_ (mapRemove m pidx)
    (OpPres_remove plan m pidx h) ?_ m' hrun2
  intro b s r _ hb hstep
  obtain ⟨sn, hsn, hstep2⟩ := Option.bind_eq_some.mp hstep
  refine foldlM_option_inv (OpPres plan) _ pn.to_ _ ?_ ?_ r hstep2
  · refine OpPres_insert plan b s _ hb ?_
    obtain ⟨n0, hn0, hop⟩ := hb s sn hsn
    refine ⟨n0, hn0, ?_⟩
    rw [hop, Node.operator_add_attributes]
    rfl
  · intro b2 en r2 _ hb2 hstep3
    obtain ⟨endn, hendn, hstep4⟩ := Option.bind_eq_some.mp hstep3
    have hr2 : r2 = mapInsert b2 en (endn.replace_from pidx s) := by
      simpa using hstep4.symm
    subst hr2
    refine OpPres_insert plan b2 en _ hb2 ?_
    obtain ⟨n0, hn0, hop⟩ := hb2 en endn hendn
    exact ⟨n0, hn0, hop⟩

/-- Helper: the merge pass only writes back nodes read from the pre-pass map
with unchanged operators. -/
theorem mergePass_good (plan : PlanGraph) (m : NodeMap)
    (buckets : List (Nat × List Nat)) (rem : List Nat) (ch : List (Nat × Node))
    (h : OpPres plan m) (hrun : mergePass m buckets = some (rem, ch)) :
    ChangedGood plan m ch := by
  have hinv := foldlM_option_inv
    (fun acc : List Nat × List (Nat × Node) => ChangedGood plan m acc.2)
    _ buckets ([], []) (by intro p hp; simp at hp) ?_ (rem, ch) hrun
  · exact hinv
  · intro acc bucket r _ hacc hstep
    by_cases hlen : bucket.2.length > 1
    · rw [if_pos hlen] at hstep
      cases hb2 : bucket.2 with
      | nil => rw [hb2] at hstep; cases hstep; exact hacc
      | cons first_io_id others =>
        rw [hb2] at hstep
        obtain ⟨first0, hfirst0, hstep2⟩ := Option.bind_eq_some.mp hstep
        obtain ⟨inner, hinner, hstep3⟩ := Option.bind_eq_some.mp hstep2
        have hr : r = (inner.2.1, inner.2.2 ++ [(first_io_id, inner.1)]) := by
          simpa using hstep3.symm
        subst hr
        have hinner2 := foldlM_option_inv
          (fun st : Node × List Nat × List (Nat × Node) =>
            st.1.operator = first0.operator ∧ ChangedGood plan m st.2.2)
          _ others (first0, acc.1, acc.2) ⟨rfl, hacc⟩ ?_ inner hinner
        · intro p hp
          rcases List.mem_append.mp hp with hmem | hmem
          · exact hinner2.2 p hmem
          · rw [List.mem_singleton] at hmem
            subst hmem
            refine ⟨⟨first0, hfirst0⟩, ?_⟩
            obtain ⟨n0, hn0, hop⟩ := h first_io_id first0 hfirst0
            exact ⟨n0, hn0, by rw [hop, ← hinner2.1]⟩
        · intro st other r2 _ hst hstep4
          obtain ⟨other_io, hother, hstep5⟩ := Option.bind_eq_some.mp hstep4
          obtain ⟨changed1, hch1, hstep6⟩ := Option.bind_eq_some.mp hstep5
          obtain ⟨changed2, hch2, hstep7⟩ := Option.bind_eq_some.mp hstep6
          have hr2 : r2 = ((st.1.add_all_to other_io.to_).add_all_from other_io.from_,
            st.2.1 ++ [other], changed2) := by
            simpa using hstep7.symm
          subst hr2
          refine ⟨hst.1, ?_⟩
          have hgood1 : ChangedGood plan m changed1 := by
            refine foldlM_option_inv (ChangedGood plan m) _ other_io.to_ st.2.2
              hst.2 ?_ changed1 hch1
            intro ch' t r3 _ hch' hstep8
            obtain ⟨tn, htn, hstep9⟩ := Option.bind_eq_some.mp hstep8
            have hr3 : r3 = ch' ++ [(t, tn.replace_from other first_io_id)] := by
              simpa using hstep9.symm
            subst hr3
            intro p hp
            rcases List.mem_append.mp hp with hmem | hmem
            · exact hch' p hmem
            · rw [List.mem_singleton] at hmem
              subst hmem
              refine ⟨⟨tn, htn⟩, ?_⟩
              obtain ⟨n0, hn0, hop⟩ := h t tn htn
              exact ⟨n0, hn0, hop⟩
          refine foldlM_option_inv (ChangedGood plan m) _ other_io.from_ changed1
            hgood1 ?_ changed2 hch2
          intro ch' t r3 _ hch' hstep8
          obtain ⟨fn, hfn, hstep9⟩ := Option.bind_eq_some.mp hstep8
          have hr3 : r3 = ch' ++ [(t, fn.replace_to other first_io_id)] := by
            simpa using hstep9.symm
          subst hr3
          intro p hp
          rcases List.mem_append.mp hp with hmem | hmem
          · exact hch' p hmem
          · rw [List.mem_singleton] at hmem
            subst hmem
            refine ⟨⟨fn, hfn⟩, ?_⟩
            obtain ⟨n0, hn0, hop⟩ := h t fn hfn
            exact ⟨n0, hn0, hop⟩
    · rw [if_neg hlen] at hstep
      cases hstep
      exact hacc

/-- Helper: the self-join pass only writes back nodes read from the pre-pass
map with unchanged operators. -/
theorem selfJoinPass_good (plan : PlanGraph) (m : NodeMap) (joins : List Nat)
    (rem : List Nat) (ch : List (Nat × Node)) (h : OpPres plan m)
    (hrun : selfJoinPass m joins = some (rem, ch)) : ChangedGood plan m ch := by
  refine foldlM_option_inv
    (fun acc : List Nat × List (Nat × Node) => ChangedGood plan m acc.2)
    _ joins ([], []) (by intro p hp; simp at hp) ?_ (rem, ch) hrun
  intro acc j r _ hacc hstep
  obtain ⟨jn, hjn, hstep2⟩ := Option.bind_eq_some.mp hstep
  obtain ⟨f0, hf0, hstep3⟩ := Option.bind_eq_some.mp hstep2
  obtain ⟨f1, hf1, hstep4⟩ := Option.bind_eq_some.mp hstep3
  by_cases heq : f0 = f1
  · rw [if_pos heq] at hstep4
    cases hop : jn.operator with
    | JoinOp ja =>
      rw [hop] at hstep4
      obtain ⟨changed1, hch1, hstep5⟩ := Option.bind_eq_some.mp hstep4
      obtain ⟨fn, hfn, hstep6⟩ := Option.bind_eq_some.mp hstep5
      have hr : r = (acc.1 ++ [j], changed1 ++ [(f0, fn.change_to_ids jn.to_ j)]) := by
        simpa using hstep6.symm
      subst hr
      have hgood1 : ChangedGood plan m changed1 := by
        refine foldlM_option_inv (ChangedGood plan m) _ jn.to_ acc.2 hacc ?_
          changed1 hch1
        intro ch' t r3 _ hch' hstep8
        obtain ⟨tn, htn, hstep9⟩ := Option.bind_eq_some.mp hstep8
        have hr3 : r3 = ch' ++
            [(t, { tn.replace_from j f0 with join_alias := some ja })] := by
          simpa using hstep9.symm
        subst hr3
        intro p hp
        rcases List.mem_append.mp hp with hmem | hmem
        · exact hch' p hmem
        · rw [List.mem_singleton] at hmem
          subst hmem
          refine ⟨⟨tn, htn⟩, ?_⟩
          obtain ⟨n0, hn0, hop2⟩ := h t tn htn
          exact ⟨n0, hn0, hop2⟩
      intro p hp
      rcases List.mem_append.mp hp with hmem | hmem
      · exact hgood1 p hmem
      · rw [List.mem_singleton] at hmem
        subst hmem
        refine ⟨⟨fn, hfn⟩, ?_⟩
        obtain ⟨n0, hn0, hop2⟩ := h f0 fn hfn
        exact ⟨n0, hn0, hop2⟩
    | SourceOp c =>
      rw [hop] at hstep4
      cases hstep4
      exact hacc
    | TargetOp c =>
      rw [hop] at hstep4
      cases hstep4
      exact hacc
    | FragmentOp =>
      rw [hop] at hstep4
      cases hstep4
      exact hacc
    | ProjectOp a =>
      rw [hop] at hstep4
      cases hstep4
      exact hacc
    | ExtendOp =>
      rw [hop] at hstep4
      cases hstep4
      exact hacc
    | SerializerOp =>
      rw [hop] at hstep4
      cases hstep4
      exact hacc
  · rw [if_neg heq] at hstep4
    cases hstep4
    exact hacc

/-- Helper: applying a batch of removals and good write-backs preserves
operator provenance. -/
theorem applyBatch_OpPres (plan : PlanGraph) (m : NodeMap) (rem : List Nat)
    (ch : List (Nat × Node)) (mread : NodeMap) (h : OpPres plan m)
    (hch : ChangedGood plan mread ch) :
    OpPres plan (ch.foldl (fun m p => mapInsert m p.1 p.2) (rem.foldl mapRemove m)) := by
  have h1 : OpPres plan (rem.foldl mapRemove m) := by
    refine foldl_inv (OpPres plan) _ rem m h ?_
    intro b a _ hb
    exact OpPres_remove plan b a hb
  refine foldl_inv (OpPres plan) _ ch (rem.foldl mapRemove m) h1 ?_
  intro b p hp hb
  exact OpPres_insert plan b p.1 p.2 hb (hch p hp).2

/-- Helper: applying write-backs first and removals second also preserves
operator provenance. -/
theorem applyBatchRev_OpPres (plan : PlanGraph) (m : NodeMap) (rem : List Nat)
    (ch : List (Nat × Node)) (mread : NodeMap) (h : OpPres plan m)
    (hch : ChangedGood plan mread ch) :
    OpPres plan (rem.foldl mapRemove (ch.foldl (fun m p => mapInsert m p.1 p.2) m)) := by
  have h1 : OpPres plan (ch.foldl (fun m p => mapInsert m p.1 p.2) m) := by
    refine foldl_inv (OpPres plan) _ ch m h ?_
    intro b p hp hb
    exact OpPres_insert plan b p.1 p.2 hb (hch p hp).2
  refine foldl_inv (OpPres plan) _ rem _ h1 ?_
  intro b a _ hb
  exact OpPres_remove plan b a hb

/-- Helper: inserting at a key known to be present elsewhere keeps an absent
key absent. -/
theorem mapGet_none_insert (m : NodeMap) (k : Nat) (v : Node) (j : Nat)
    (hj : mapGet m j = none) (hpresent : mapGet m k ≠ none) :
    mapGet (mapInsert m k v) j = none := by
  have hk : j ≠ k := by
    intro hcontra
    rw [hcontra] at hj
    exact hpresent hj
  rw [mapGet_insert_ne m k j v hk]
  exact hj

/-- Helper: removal keeps an absent key absent. -/
theorem mapGet_none_remove (m : NodeMap) (k j : Nat) (hj : mapGet m j = none) :
    mapGet (mapRemove m k) j = none := by
  by_cases hk : j = k
  · subst hk; exact mapGet_remove_self m j
  · rw [mapGet_remove_ne m k j hk]; exact hj

/-- Helper: one Fragmenter-removal step removes its own index and keeps
absent indices absent. -/
theorem fragmentStep_none (m : NodeMap) (f j : Nat) (m' : NodeMap)
    (hj : mapGet m j = none ∨ j = f) (hrun : fragmentStep m f = some m') :
    mapGet m' j = none := by
  unfold fragmentStep at hrun
  obtain ⟨frag, hfrag, hrun2⟩ := Option.bind_eq_some.mp hrun
  have hstart : mapGet (mapRemove m f) j = none := by
    rcases hj with hj | hj
    · exact mapGet_none_remove m f j hj
    · subst hj; exact mapGet_remove_self m j
  refine foldlM_option_inv (fun m => mapGet m j = none) _ frag.from_ _ hstart ?_
    m' hrun2
  intro b s r _ hb hstep
  obtain ⟨sn, hsn, hstep2⟩ := Option.bind_eq_some.mp hstep
  have hb2 : mapGet (mapInsert b s (sn.change_to_ids frag.to_ f)) j = none :=
    mapGet_none_insert b s _ j hb (by rw [hsn]; simp)
  refine foldlM_option_inv (fun m => mapGet m j = none) _ frag.to_ _ hb2 ?_ r hstep2
  intro b2 en r2 _ hb3 hstep3
  obtain ⟨endn, hendn, hstep4⟩ := Option.bind_eq_some.mp hstep3
  have hr2 : r2 = mapInsert b2 en (endn.replace_from f s) := by
    simpa using hstep4.symm
  subst hr2
  exact mapGet_none_insert b2 en _ j hb3 (by rw [hendn]; simp)

/-- Helper: one Projection-removal step removes its own index and keeps
absent indices absent. -/
theorem projectionStep_none (m : NodeMap) (pidx j : Nat) (m' : NodeMap)
    (hj : mapGet m j = none ∨ j = pidx) (hrun : projectionStep m pidx = some m') :
    mapGet m' j = none := by
  unfold projectionStep at hrun
  obtain ⟨pn, hpn, hrun2⟩ := Option.bind_eq_some.mp hrun
  have hstart : mapGet (mapRemove m pidx) j = none := by
    rcases hj with hj | hj
    · exact mapGet_none_remove m pidx j hj
    · subst hj; exact mapGet_remove_self m j
  refine foldlM_option_inv (fun m => mapGet m j = none) _ pn.from_ _ hstart ?_
    m' hrun2
  intro b s r _ hb hstep
  obtain ⟨sn, hsn, hstep2⟩ := Option.bind_eq_some.mp hstep
  have hb2 : mapGet (mapInsert b s
      ((sn.change_to_ids pn.to_ pidx).add_attributes
        (match pn.operator with
         | .ProjectOp attrs => some attrs
         | _ => none))) j = none :=
    mapGet_none_insert b s _ j hb (by rw [hsn]; simp)
  refine foldlM_option_inv (fun m => mapGet m j = none) _ pn.to_ _ hb2 ?_ r hstep2
  intro b2 en r2 _ hb3 hstep3
  obtain ⟨endn, hendn, hstep4⟩ := Option.bind_eq_some.mp hstep3
  have hr2 : r2 = mapInsert b2 en (endn.replace_from pidx s) := by
    simpa using hstep4.symm
  subst hr2
  exact mapGet_none_insert b2 en _ j hb3 (by rw [hendn]; simp)

/-- Helper: absence is stable under the Fragmenter pass and every index of
the pass ends up absent. -/
theorem fragmentFold_absent :
    ∀ (ids : List Nat) (m m' : NodeMap), ids.foldlM fragmentStep m = some m' →
    (∀ j, mapGet m j = none → mapGet m' j = none) ∧
    (∀ j ∈ ids, mapGet m' j = none) := by
  intro ids
  induction ids with
  | nil =>
    intro m m' hrun
    simp only [List.foldlM_nil, Option.pure_def, Option.some.injEq] at hrun
    subst hrun
    exact ⟨fun j hj => hj, fun j hj => by simp at hj⟩
  | cons i rest ih =>
    intro m m' hrun
    simp only [List.foldlM_cons, Option.bind_eq_bind] at hrun
    obtain ⟨m1, hm1, hrest⟩ := Option.bind_eq_some.mp hrun
    obtain ⟨ihstable, ihabsent⟩ := ih m1 m' hrest
    refine ⟨?_, ?_⟩
    · intro j hj
      exact ihstable j (fragmentStep_none m i j m1 (Or.inl hj) hm1)
    · intro j hj
      rcases List.mem_cons.mp hj with hj | hj
      · exact ihstable j (fragmentStep_none m i j m1 (Or.inr hj) hm1)
      · exact ihabsent j hj

/-- Helper: absence is stable under the Projection pass and every index of
the pass ends up absent. -/
theorem projectionFold_absent :
    ∀ (ids : List Nat) (m m' : NodeMap), ids.foldlM projectionStep m = some m' →
    (∀ j, mapGet m j = none → mapGet m' j = none) ∧
    (∀ j ∈ ids, mapGet m' j = none) := by
  intro ids
  induction ids with
  | nil =>
    intro m m' hrun
    simp only [List.foldlM_nil, Option.pure_def, Option.some.injEq] at hrun
    subst hrun
    exact ⟨fun j hj => hj, fun j hj => by simp at hj⟩
  | cons i rest ih =>
    intro m m' hrun
    simp only [List.foldlM_cons, Option.bind_eq_bind] at hrun
    obtain ⟨m1, hm1, hrest⟩ := Option.bind_eq_some.mp hrun
    obtain ⟨ihstable, ihabsent⟩ := ih m1 m' hrest
    refine ⟨?_, ?_⟩
    · intro j hj
      exact ihstable j (projectionStep_none m i j m1 (Or.inl hj) hm1)
    · intro j hj
      rcases List.mem_cons.mp hj with hj | hj
      · exact ihstable j (projectionStep_none m i j m1 (Or.inr hj) hm1)
      · exact ihabsent j hj

/-- Helper: applying the self-join batch keeps an index absent when every
write-back key was present in the read map. -/
theorem applySelfJoin_none (m : NodeMap) (rem : List Nat) (ch : List (Nat × Node))
    (j : Nat) (hj : mapGet m j = none)
    (hch : ∀ p ∈ ch, mapGet m p.1 ≠ none) :
    mapGet (applySelfJoin m rem ch) j = none := by
  unfold applySelfJoin
  have h1 : mapGet (ch.foldl (fun m p => mapInsert m p.1 p.2) m) j = none := by
    refine foldl_inv (fun m' => mapGet m' j = none ∧ ∀ k, mapGet m k ≠ none →
      mapGet m' k ≠ none) _ ch m ⟨hj, fun _ h => h⟩ ?_ |>.1
    intro b p hp hb
    refine ⟨?_, ?_⟩
    · exact mapGet_none_insert b p.1 p.2 j hb.1 (hb.2 p.1 (hch p hp))
    · intro k hk
      by_cases hkp : k = p.1
      · subst hkp
        rw [mapGet_insert_self]
        simp
      · rw [mapGet_insert_ne b p.1 k p.2 hkp]
        exact hb.2 k hk
  refine foldl_inv (fun m' => mapGet m' j = none) _ rem _ h1 ?_
  intro b a _ hb
  exact mapGet_none_remove b a j hb

/-- Helper: the self-join pass reads every written-back node from the map. -/
theorem selfJoinPass_present (m : NodeMap) (joins : List Nat) (rem : List Nat)
    (ch : List (Nat × Node)) (hrun : selfJoinPass m joins = some (rem, ch)) :
    ∀ p ∈ ch, mapGet m p.1 ≠ none := by
  refine foldlM_option_inv
    (fun acc : List Nat × List (Nat × Node) => ∀ p ∈ acc.2, mapGet m p.1 ≠ none)
    _ joins ([], []) (by intro p hp; simp at hp) ?_ (rem, ch) hrun
  intro acc j r _ hacc hstep
  obtain ⟨jn, hjn, hstep2⟩ := Option.bind_eq_some.mp hstep
  obtain ⟨f0, hf0, hstep3⟩ := Option.bind_eq_some.mp hstep2
  obtain ⟨f1, hf1, hstep4⟩ := Option.bind_eq_some.mp hstep3
  by_cases heq : f0 = f1
  · rw [if_pos heq] at hstep4
    cases hop : jn.operator with
    | JoinOp ja =>
      rw [hop] at hstep4
      obtain ⟨changed1, hch1, hstep5⟩ := Option.bind_eq_some.mp hstep4
      obtain ⟨fn, hfn, hstep6⟩ := Option.bind_eq_some.mp hstep5
      have hr : r = (acc.1 ++ [j], changed1 ++ [(f0, fn.change_to_ids jn.to_ j)]) := by
        simpa using hstep6.symm
      subst hr
      have hgood1 : ∀ p ∈ changed1, mapGet m p.1 ≠ none := by
        refine foldlM_option_inv (fun ch' => ∀ p ∈ ch', mapGet m p.1 ≠ none)
          _ jn.to_ acc.2 hacc ?_ changed1 hch1
        intro ch' t r3 _ hch' hstep8
        obtain ⟨tn, htn, hstep9⟩ := Option.bind_eq_some.mp hstep8
        have hr3 : r3 = ch' ++
            [(t, { tn.replace_from j f0 with join_alias := some ja })] := by
          simpa using hstep9.symm
        subst hr3
        intro p hp
        rcases List.mem_append.mp hp with hmem | hmem
        · exact hch' p hmem
        · rw [List.mem_singleton] at hmem
          subst hmem
          rw [htn]
          simp
      intro p hp
      rcases List.mem_append.mp hp with hmem | hmem
      · exact hgood1 p hmem
      · rw [List.mem_singleton] at hmem
        subst hmem
        rw [hfn]
        simp
    | SourceOp c =>
      rw [hop] at hstep4
      cases hstep4
      exact hacc
    | TargetOp c =>
      rw [hop] at hstep4
      cases hstep4
      exact hacc
    | FragmentOp =>
      rw [hop] at hstep4
      cases hstep4
      exact hacc
    | ProjectOp a =>
      rw [hop] at hstep4
      cases hstep4
      exact hacc
    | ExtendOp =>
      rw [hop] at hstep4
      cases hstep4
      exact hacc
    | SerializerOp =>
      rw [hop] at hstep4
      cases hstep4
      exact hacc
  · rw [if_neg heq] at hstep4
    cases hstep4
    exact hacc

/-- Helper: a plan node with a Projection (resp. Fragmenter) operator is
listed in the corresponding index list of pass 1. -/
theorem mem_indices_of_op (plan : PlanGraph) (k : Nat) (n0 : Node)
    (hget : plan.nodes.get? k = some n0) :
    (n0.operator.isProject = true → k ∈ projection_indices plan) ∧
    (n0.operator.isFragment = true → k ∈ fragment_indices plan) := by
  have henum : mapGet plan.nodes.enum k = some n0 := by
    rw [mapGet_enum]; exact hget
  unfold mapGet at henum
  cases hfind : plan.nodes.enum.find? (fun p => p.1 == k) with
  | none => rw [hfind] at henum; simp at henum
  | some p =>
    rw [hfind] at henum
    simp only [Option.map_some', Option.some.injEq] at henum
    have hmem := List.mem_of_find?_eq_some hfind
    have hpk : p.1 = k := by simpa using List.find?_some hfind
    constructor
    · intro hP
      unfold projection_indices
      refine List.mem_map.mpr ⟨p, ?_, hpk⟩
      refine List.mem_filter.mpr ⟨hmem, ?_⟩
      rw [henum]
      exact hP
    · intro hF
      unfold fragment_indices
      refine List.mem_map.mpr ⟨p, ?_, hpk⟩
      refine List.mem_filter.mpr ⟨hmem, ?_⟩
      rw [henum]
      exact hF

/-- C2: the node map returned by `rewrite` contains no Projection and no
Fragmenter node. -/
theorem claim_C2_no_projection_or_fragment (plan : PlanGraph) (to_one_target : Bool)
    (m : NodeMap) (hrun : rewrite plan to_one_target = some m) :
    ∀ k n, mapGet m k = some n →
      n.operator.isProject = false ∧ n.operator.isFragment = false := by
  unfold rewrite at hrun
  simp only [Option.bind_eq_bind, Option.pure_def] at hrun
  obtain ⟨m1, hm1, hrun2⟩ := Option.bind_eq_some.mp hrun
  obtain ⟨mc, hmc, hrun3⟩ := Option.bind_eq_some.mp hrun2
  obtain ⟨m3, hm3, hrun4⟩ := Option.bind_eq_some.mp hrun3
  obtain ⟨m4, hm4, hrun5⟩ := Option.bind_eq_some.mp hrun4
  obtain ⟨jc, hjc, hm5⟩ := Option.bind_eq_some.mp hrun5
  obtain ⟨mcr, mcc⟩ := mc
  obtain ⟨jcr, jcc⟩ := jc
  have hm : m = applySelfJoin m4 jcr jcc := by simpa using hm5.symm
  have h0 : OpPres plan plan.nodes.enum := by
    intro k n hget
    rw [mapGet_enum] at hget
    exact ⟨n, hget, rfl⟩
  have h1 := installEdges_OpPres plan _ _ _ h0 hm1
  have hgood := mergePass_good plan m1 _ mcr mcc h1 hmc
  have h2 : OpPres plan (applyMerge m1 mcr mcc) := by
    unfold applyMerge
    exact applyBatch_OpPres plan m1 mcr mcc m1 h1 hgood
  have h3 : OpPres plan m3 := by
    refine foldlM_option_inv (OpPres plan) _ (fragment_indices plan) _ h2 ?_ m3 hm3
    intro b a r _ hb hstep
    exact fragmentStep_OpPres plan b a r hb hstep
  have h4 : OpPres plan m4 := by
    refine foldlM_option_inv (OpPres plan) _ (projection_indices plan) _ h3 ?_ m4 hm4
    intro b a r _ hb hstep
    exact projectionStep_OpPres plan b a r hb hstep
  have hjgood := selfJoinPass_good plan m4 _ jcr jcc h4 hjc
  have h5 : OpPres plan m := by
    rw [hm]
    unfold applySelfJoin
    exact applyBatchRev_OpPres plan m4 jcr jcc m4 h4 hjgood
  obtain ⟨hfragStable, hfragAbs⟩ :=
    fragmentFold_absent (fragment_indices plan) _ m3 hm3
  obtain ⟨hprojStable, hprojAbs⟩ :=
    projectionFold_absent (projection_indices plan) m3 m4 hm4
  have hjpres := selfJoinPass_present m4 _ jcr jcc hjc
  have habsProj : ∀ j ∈ projection_indices plan, mapGet m j = none := by
    intro j hj
    rw [hm]
    exact applySelfJoin_none m4 jcr jcc j (hprojAbs j hj) hjpres
  have habsFrag : ∀ j ∈ fragment_indices plan, mapGet m j = none := by
    intro j hj
    rw [hm]
    exact applySelfJoin_none m4 jcr jcc j (hprojStable j (hfragAbs j hj)) hjpres
  intro k n hget
  constructor
  · cases hP : n.operator.isProject with
    | false => rfl
    | true =>
      exfalso
      obtain ⟨n0, hn0, hop⟩ := h5 k n hget
      have hk := (mem_indices_of_op plan k n0 hn0).1 (by rw [hop]; exact hP)
      have habs := habsProj k hk
      rw [hget] at habs
      simp at habs
  · cases hF : n.operator.isFragment with
    | false => rfl
    | true =>
      exfalso
      obtain ⟨n0, hn0, hop⟩ := h5 k n hget
      have hk := (mem_indices_of_op plan k n0 hn0).2 (by rw [hop]; exact hF)
      have habs := habsFrag k hk
      rw [hget] at habs
      simp at habs

/-- C2, witness: the rewrite of a concrete Source → Project → Extend → Target
plan (spec scenario 2) contains no Projection or Fragmenter node. -/
theorem claim_C2_witness :
    ((⟨"e", .ExtendOp, [0], [3], none, none⟩ : Node).operator.isProject = false ∧
      (⟨"e", .ExtendOp, [0], [3], none, none⟩ : Node).operator.isFragment = false) :=
  claim_C2_no_projection_or_fragment
    ⟨[⟨"s", .SourceOp 5, [], [], none, none⟩,
      ⟨"p", .ProjectOp ["id"], [], [], none, none⟩,
      ⟨"e", .ExtendOp, [], [], none, none⟩,
      ⟨"t", .TargetOp 7, [], [], none, none⟩],
     [(0, 1), (1, 2), (2, 3)]⟩ false
    [(0, ⟨"s", .SourceOp 5, [], [2], some ["id"], none⟩),
     (2, ⟨"e", .ExtendOp, [0], [3], none, none⟩),
     (3, ⟨"t", .TargetOp 7, [2], [], none, none⟩)]
    (by decide) 2 ⟨"e", .ExtendOp, [0], [3], none, none⟩ (by decide)

/-- Helper: edge symmetry only depends on the lookup function of the map. -/
theorem EdgeSym_ext (m m' : NodeMap) (h : ∀ k, mapGet m' k = mapGet m k)
    (hSym : EdgeSym m) : EdgeSym m' := by
  intro x nx hx
  rw [h x] at hx
  obtain ⟨hto, hfrom⟩ := hSym x nx hx
  constructor
  · intro y hy
    obtain ⟨ny, hny, hm⟩ := hto y hy
    exact ⟨ny, by rw [h y]; exact hny, hm⟩
  · intro z hz
    obtain ⟨nz, hnz, hm⟩ := hfrom z hz
    exact ⟨nz, by rw [h z]; exact hnz, hm⟩

/-- Helper: membership in an id list after the replace substitution. -/
theorem mem_mapSubst (l : List Nat) (o u a : Nat) :
    a ∈ l.map (fun i => if i = o then u else i) ↔
      ((o ∈ l ∧ a = u) ∨ (a ∈ l ∧ a ≠ o)) := by
  constructor
  · intro h
    obtain ⟨i, hi, hsub⟩ := List.mem_map.mp h
    by_cases hio : i = o
    · subst hio
      rw [if_pos rfl] at hsub
      exact Or.inl ⟨hi, hsub.symm⟩
    · rw [if_neg hio] at hsub
      subst hsub
      exact Or.inr ⟨hi, hio⟩
  · intro h
    rcases h with ⟨ho, ha⟩ | ⟨ha, hne⟩
    · subst ha
      exact List.mem_map.mpr ⟨o, ho, by simp⟩
    · exact List.mem_map.mpr ⟨a, ha, by simp [hne]⟩

/-- Helper: membership in an id list after filtering out the removed id. -/
theorem mem_filterNe (l : List Nat) (fid a : Nat) :
    a ∈ l.filter (fun i => i ≠ fid) ↔ (a ∈ l ∧ a ≠ fid) := by
  rw [List.mem_filter]
  simp

/-- Helper: the replace substitution is idempotent on an id list. -/
theorem mapSubst_idem (l : List Nat) (o u : Nat) :
    (l.map (fun i => if i = o then u else i)).map (fun i => if i = o then u else i) =
      l.map (fun i => if i = o then u else i) := by
  rw [List.map_map]
  apply List.map_congr_left
  intro i _
  simp only [Function.comp]
  by_cases hio : i = o <;> simp [hio]

/-- Helper: the replace substitution is idempotent on a node's `from`. -/
theorem Node.replace_from_idem (n : Node) (o u : Nat) :
    (n.replace_from o u).replace_from o u = n.replace_from o u := by
  simp only [Node.replace_from]
  rw [mapSubst_idem]

/-- C1, counterexample. A plan whose single node carries a pre-set `to` edge
to itself is returned unchanged by `rewrite`, and the resulting map violates
edge symmetry: node 0 lists 0 in `to` but not in `from`. -/
theorem claim_C1_counterexample :
    rewrite ⟨[⟨"x", .ExtendOp, [], [0], none, none⟩], []⟩ false =
      some [(0, ⟨"x", .ExtendOp, [], [0], none, none⟩)] ∧
    ¬ EdgeSym [(0, ⟨"x", .ExtendOp, [], [0], none, none⟩)] := by
  constructor
  · decide
  · intro h
    obtain ⟨ny, hny, hmem⟩ :=
      (h 0 ⟨"x", .ExtendOp, [], [0], none, none⟩ (by decide)).1 0 (by decide)
    have hn : ny = ⟨"x", .ExtendOp, [], [0], none, none⟩ := by
      have : mapGet [(0, (⟨"x", .ExtendOp, [], [0], none, none⟩ : Node))] 0 =
          some ⟨"x", .ExtendOp, [], [0], none, none⟩ := by decide
      rw [this] at hny
      exact (Option.some.injEq _ _ ▸ hny).symm
    subst hn
    simp at hmem

/-- Helper: unpacking a plain node id. -/
theorem plainAt_spec (plan : PlanGraph) (x : Nat) (h : plainAt plan x = true) :
    ∃ n, plan.nodes.get? x = some n ∧ n.operator.isFragment = false ∧
      n.operator.isProject = false ∧ n.operator.isJoin = false := by
  unfold plainAt at h
  cases hget : plan.nodes.get? x with
  | none => rw [hget] at h; cases h
  | some n =>
    rw [hget] at h
    simp only [Bool.and_eq_true, Bool.not_eq_true'] at h
    exact ⟨n, rfl, h.1.1, h.1.2, h.2⟩

/-- Helper: the index lists of pass 1 only hold ids whose plan operator has
the corresponding kind. -/
theorem indices_mem_get (plan : PlanGraph) (k : Nat) :
    (k ∈ fragment_indices plan → ∃ n, plan.nodes.get? k = some n ∧
      n.operator.isFragment = true) ∧
    (k ∈ projection_indices plan → ∃ n, plan.nodes.get? k = some n ∧
      n.operator.isProject = true) ∧
    (k ∈ join_indices plan → ∃ n, plan.nodes.get? k = some n ∧
      n.operator.isJoin = true) := by
  refine ⟨?_, ?_, ?_⟩ <;> intro hmem
  · unfold fragment_indices at hmem
    obtain ⟨p, hp, hpk⟩ := List.mem_map.mp hmem
    have hfil := List.mem_filter.mp hp
    have hget := List.mem_enum_iff_get?.mp hfil.1
    exact ⟨p.2, by rw [← hpk]; exact hget, hfil.2⟩
  · unfold projection_indices at hmem
    obtain ⟨p, hp, hpk⟩ := List.mem_map.mp hmem
    have hfil := List.mem_filter.mp hp
    have hget := List.mem_enum_iff_get?.mp hfil.1
    exact ⟨p.2, by rw [← hpk]; exact hget, hfil.2⟩
  · unfold join_indices at hmem
    obtain ⟨p, hp, hpk⟩ := List.mem_map.mp hmem
    have hfil := List.mem_filter.mp hp
    have hget := List.mem_enum_iff_get?.mp hfil.1
    exact ⟨p.2, by rw [← hpk]; exact hget, hfil.2⟩

/-- Helper: a plain id is in none of the removal index lists. -/
theorem plainAt_not_indices (plan : PlanGraph) (x : Nat)
    (h : plainAt plan x = true) :
    x ∉ fragment_indices plan ∧ x ∉ projection_indices plan ∧
      x ∉ join_indices plan := by
  obtain ⟨n, hget, hF, hP, hJ⟩ := plainAt_spec plan x h
  refine ⟨?_, ?_, ?_⟩ <;> intro hmem
  · obtain ⟨n', hget', hop⟩ := (indices_mem_get plan x).1 hmem
    rw [hget] at hget'
    cases hget'
    rw [hF] at hop
    cases hop
  · obtain ⟨n', hget', hop⟩ := (indices_mem_get plan x).2.1 hmem
    rw [hget] at hget'
    cases hget'
    rw [hP] at hop
    cases hop
  · obtain ⟨n', hget', hop⟩ := (indices_mem_get plan x).2.2 hmem
    rw [hget] at hget'
    cases hget'
    rw [hJ] at hop
    cases hop

/-- Helper: the index lists of pass 1 are duplicate-free. -/
theorem indices_nodup (plan : PlanGraph) :
    (fragment_indices plan).Nodup ∧ (projection_indices plan).Nodup ∧
      (join_indices plan).Nodup := by
  have hbase : (plan.nodes.enum.map Prod.fst).Nodup := by
    rw [List.enum_map_fst]
    exact List.nodup_range _
  refine ⟨?_, ?_, ?_⟩
  · exact List.Nodup.sublist
      (List.Sublist.map _ (List.filter_sublist plan.nodes.enum)) hbase
  · exact List.Nodup.sublist
      (List.Sublist.map _ (List.filter_sublist plan.nodes.enum)) hbase
  · exact List.Nodup.sublist
      (List.Sublist.map _ (List.filter_sublist plan.nodes.enum)) hbase

/-- Helper: membership in the derived inbound edge list. -/
theorem mem_edgeIns (plan : PlanGraph) (k x : Nat) :
    x ∈ edgeIns plan k ↔ (x, k) ∈ plan.edges := by
  unfold edgeIns
  constructor
  · intro h
    obtain ⟨e, he, hx⟩ := List.mem_map.mp h
    have hf := List.mem_filter.mp he
    rcases e with ⟨a, b⟩
    simp only at hx
    subst hx
    have hb : b = k := by simpa using hf.2
    subst hb
    exact hf.1
  · intro h
    exact List.mem_map.mpr ⟨(x, k), List.mem_filter.mpr ⟨h, by simp⟩, rfl⟩

/-- Helper: membership in the derived outbound edge list. -/
theorem mem_edgeOuts (plan : PlanGraph) (k y : Nat) :
    y ∈ edgeOuts plan k ↔ (k, y) ∈ plan.edges := by
  unfold edgeOuts
  constructor
  · intro h
    obtain ⟨e, he, hy⟩ := List.mem_map.mp h
    have hf := List.mem_filter.mp he
    rcases e with ⟨a, b⟩
    simp only at hy
    subst hy
    have ha : a = k := by simpa using hf.2
    subst ha
    exact hf.1
  · intro h
    exact List.mem_map.mpr ⟨(k, y), List.mem_filter.mpr ⟨h, by simp⟩, rfl⟩

/-- Helper: pass 2's edge installation, characterized: starting from a map
that is positional lookup with pending `from`/`to` accumulators, the
resulting map has each node's accumulators extended by exactly its inbound
and outbound edge endpoints, and every edge endpoint is a valid index. -/
theorem installEdges_char (nodes : List Node) :
    ∀ (edges : List (Nat × Nat)) (m : NodeMap) (F T : Nat → List Nat),
    (∀ k, mapGet m k = (nodes.get? k).map
      (fun n0 => { n0 with from_ := F k, to_ := T k })) →
    ∀ m', installEdges m edges = some m' →
    (∀ k, mapGet m' k = (nodes.get? k).map (fun n0 =>
      { n0 with
        from_ := F k ++ (edges.filter (fun e => e.2 = k)).map (fun e => e.1),
        to_ := T k ++ (edges.filter (fun e => e.1 = k)).map (fun e => e.2) })) ∧
    (∀ e ∈ edges, (nodes.get? e.1).isSome ∧ (nodes.get? e.2).isSome) := by
  intro edges
  induction edges with
  | nil =>
    intro m F T hchar m' hrun
    have hm : m' = m := by
      unfold installEdges at hrun
      simpa using hrun.symm
    subst hm
    refine ⟨?_, by intro e he; cases he⟩
    intro k
    rw [hchar k]
    cases hget : nodes.get? k with
    | none => rfl
    | some n0 => simp
  | cons e E ih =>
    intro m F T hchar m' hrun
    unfold installEdges at hrun
    rw [List.foldlM_cons] at hrun
    simp only [Option.bind_eq_bind] at hrun
    obtain ⟨m2, hm2, hrest⟩ := Option.bind_eq_some.mp hrun
    obtain ⟨fn, hfn, hm3⟩ := Option.bind_eq_some.mp hm2
    obtain ⟨tn, htn, hm4⟩ := Option.bind_eq_some.mp hm3
    have hm2eq : m2 = mapInsert (mapInsert m e.1 (fn.add_to e.2)) e.2
        (tn.add_from e.1) := by
      simpa using hm4.symm
    rw [hchar e.1] at hfn
    obtain ⟨n1, hn1, hfneq⟩ := Option.map_eq_some'.mp hfn
    have htn2 : ∃ n2, nodes.get? e.2 = some n2 ∧
        tn = { n2 with
               from_ := F e.2
               to_ := T e.2 ++ (if e.1 = e.2 then [e.2] else []) } := by
      by_cases h12 : e.2 = e.1
      · rw [h12, mapGet_insert_self] at htn
        refine ⟨n1, by rw [h12]; exact hn1, ?_⟩
        have htn3 : tn = fn.add_to e.1 := by
          exact (Option.some.injEq _ _ ▸ htn).symm
        rw [htn3, ← hfneq, h12]
        simp [Node.add_to]
      · rw [mapGet_insert_ne _ _ _ _ h12, hchar e.2] at htn
        obtain ⟨n2, hn2, htneq⟩ := Option.map_eq_some'.mp htn
        refine ⟨n2, hn2, ?_⟩
        rw [← htneq, if_neg (fun h : e.1 = e.2 => h12 h.symm)]
        simp
    obtain ⟨n2, hn2, htneq⟩ := htn2
    have hchar2 : ∀ k, mapGet m2 k = (nodes.get? k).map (fun n0 =>
        { n0 with from_ := F k ++ (if e.2 = k then [e.1] else []),
                  to_ := T k ++ (if e.1 = k then [e.2] else []) }) := by
      intro k
      rw [hm2eq]
      by_cases hk2 : k = e.2
      · subst hk2
        rw [mapGet_insert_self, hn2, htneq]
        simp [Node.add_from]
      · rw [mapGet_insert_ne _ _ _ _ hk2]
        have hne2 : ¬(e.2 = k) := fun h => hk2 h.symm
        by_cases hk1 : k = e.1
        · subst hk1
          rw [mapGet_insert_self, hn1, ← hfneq]
          simp [Node.add_to, hne2]
        · have hne1 : ¬(e.1 = k) := fun h => hk1 h.symm
          rw [mapGet_insert_ne _ _ _ _ hk1, hchar k]
          simp [hne1, hne2]
    have hrest' : installEdges m2 E = some m' := hrest
    obtain ⟨c1, c2⟩ := ih m2
      (fun k => F k ++ (if e.2 = k then [e.1] else []))
      (fun k => T k ++ (if e.1 = k then [e.2] else [])) hchar2 m' hrest'
    constructor
    · intro k
      rw [c1 k]
      cases hget : nodes.get? k with
      | none => rfl
      | some n0 =>
        simp only [Option.map_some', Option.some.injEq]
        have hF : (F k ++ (if e.2 = k then [e.1] else [])) ++
            (E.filter (fun e' => e'.2 = k)).map (fun e' => e'.1) =
            F k ++ (((e :: E).filter (fun e' => e'.2 = k)).map
              (fun e' => e'.1)) := by
          rw [List.append_assoc]
          by_cases he : e.2 = k
          · rw [List.filter_cons_of_pos (by simpa using he), List.map_cons,
              if_pos he]
            rfl
          · rw [List.filter_cons_of_neg (by simpa using he), if_neg he]
            rfl
        have hT : (T k ++ (if e.1 = k then [e.2] else [])) ++
            (E.filter (fun e' => e'.1 = k)).map (fun e' => e'.2) =
            T k ++ (((e :: E).filter (fun e' => e'.1 = k)).map
              (fun e' => e'.2)) := by
          rw [List.append_assoc]
          by_cases he : e.1 = k
          · rw [List.filter_cons_of_pos (by simpa using he), List.map_cons,
              if_pos he]
            rfl
          · rw [List.filter_cons_of_neg (by simpa using he), if_neg he]
            rfl
        rw [← hF, ← hT]
    · intro e' he'
      rcases List.mem_cons.mp he' with he' | he'
      · subst he'
        exact ⟨by rw [hn1]; rfl, by rw [hn2]; rfl⟩
      · exact c2 e' he'

/-- Helper: on a plan without pre-set node edges, pass 2 yields exactly the
edge-derived nodes, and the result is edge-symmetric. -/
theorem installEdges_derived (plan : PlanGraph)
    (hW1 : ∀ n ∈ plan.nodes, n.from_ = [] ∧ n.to_ = [])
    (m1 : NodeMap) (hrun : installEdges plan.nodes.enum plan.edges = some m1) :
    (∀ k, mapGet m1 k = (plan.nodes.get? k).map (derivedNode plan k)) ∧
    EdgeSym m1 := by
  have hbase : ∀ k, mapGet plan.nodes.enum k = (plan.nodes.get? k).map
      (fun n0 => { n0 with from_ := ([] : List Nat), to_ := ([] : List Nat) }) := by
    intro k
    rw [mapGet_enum]
    cases hget : plan.nodes.get? k with
    | none => rfl
    | some n0 =>
      obtain ⟨hf, ht⟩ := hW1 n0 (List.get?_mem hget)
      simp only [Option.map_some', Option.some.injEq]
      cases n0 with
      | mk nid nop nfrom nto nattr nja =>
        simp only at hf ht
        rw [hf, ht]
  obtain ⟨hchar, hvalid⟩ := installEdges_char plan.nodes plan.edges
    plan.nodes.enum (fun _ => []) (fun _ => []) hbase m1 hrun
  have hm1 : ∀ k, mapGet m1 k = (plan.nodes.get? k).map (derivedNode plan k) := by
    intro k
    rw [hchar k]
    cases hget : plan.nodes.get? k with
    | none => rfl
    | some n0 =>
      simp only [Option.map_some', Option.some.injEq]
      unfold derivedNode edgeIns edgeOuts
      simp
  refine ⟨hm1, ?_⟩
  intro x nx hx
  rw [hm1 x] at hx
  obtain ⟨n0, hn0, hnx⟩ := Option.map_eq_some'.mp hx
  subst hnx
  constructor
  · intro y hy
    have hy2 : (x, y) ∈ plan.edges := (mem_edgeOuts plan x y).mp hy
    obtain ⟨n0y, hn0y⟩ := Option.isSome_iff_exists.mp (hvalid (x, y) hy2).2
    refine ⟨derivedNode plan y n0y, by rw [hm1 y, hn0y]; rfl, ?_⟩
    exact (mem_edgeIns plan y x).mpr hy2
  · intro z hz
    have hz2 : (z, x) ∈ plan.edges := (mem_edgeIns plan x z).mp hz
    obtain ⟨n0z, hn0z⟩ := Option.isSome_iff_exists.mp (hvalid (z, x) hz2).1
    refine ⟨derivedNode plan z n0z, by rw [hm1 z, hn0z]; rfl, ?_⟩
    exact (mem_edgeOuts plan z x).mpr hz2

/-- Helper: when no bucket has two members, the merge pass collects nothing. -/
theorem mergePass_inert (m : NodeMap) (buckets : List (Nat × List Nat))
    (h : ∀ b ∈ buckets, b.2.length ≤ 1) :
    mergePass m buckets = some ([], []) := by
  unfold mergePass
  induction buckets with
  | nil => rfl
  | cons b bs ih =>
    rw [List.foldlM_cons]
    have hb : ¬ (b.2.length > 1) := by
      have := h b (by simp)
      omega
    rw [if_neg hb]
    simp only [Option.some_bind]
    exact ih (fun b' hb' => h b' (by simp [hb']))

/-- Helper: applying an empty merge batch is the identity. -/
theorem applyMerge_nil (m : NodeMap) : applyMerge m [] [] = m := rfl

/-- Helper: the replace substitution is the identity when the old id is
absent. -/
theorem mapSubst_no_occ (l : List Nat) (o u : Nat) (h : o ∉ l) :
    l.map (fun i => if i = o then u else i) = l := by
  induction l with
  | nil => rfl
  | cons a l ih =>
    simp only [List.map_cons]
    have ha : a ≠ o := fun he => h (by rw [he]; exact List.mem_cons_self _ _)
    rw [if_neg ha, ih (fun hm => h (List.mem_cons_of_mem a hm))]

/-- Helper: `replace_from` is the identity when the old id does not occur. -/
theorem Node.replace_from_no_occ (n : Node) (o u : Nat) (h : o ∉ n.from_) :
    n.replace_from o u = n := by
  unfold Node.replace_from
  rw [mapSubst_no_occ n.from_ o u h]

/-- Helper: the inner edit loop of an elimination step (patching the `from`
of every downstream node), characterized pointwise. -/
theorem elimInnerChar (fid s : Nat) :
    ∀ (Ds : List Nat) (mB res : NodeMap),
    Ds.foldlM (fun mm en => do
      let en_node ← mapGet mm en
      some (mapInsert mm en (en_node.replace_from fid s))) mB = some res →
    ∀ k, mapGet res k = if k ∈ Ds then
        (mapGet mB k).map (fun n => n.replace_from fid s)
      else mapGet mB k := by
  intro Ds
  induction Ds with
  | nil =>
    intro mB res h k
    have hres : res = mB := by simpa using h.symm
    subst hres
    simp
  | cons D Ds ih =>
    intro mB res h k
    rw [List.foldlM_cons] at h
    simp only [Option.bind_eq_bind] at h
    obtain ⟨mC, hmC, hrest⟩ := Option.bind_eq_some.mp h
    obtain ⟨dn, hdn, hins⟩ := Option.bind_eq_some.mp hmC
    have hmCeq : mC = mapInsert mB D (dn.replace_from fid s) := by
      simpa using hins.symm
    subst hmCeq
    have hk := ih _ res hrest k
    rw [hk]
    by_cases hkD : k = D
    · subst hkD
      by_cases hkDs : k ∈ Ds
      · rw [if_pos hkDs, if_pos (List.mem_cons_self k Ds), mapGet_insert_self, hdn]
        simp only [Option.map_some', Node.replace_from_idem]
      · rw [if_neg hkDs, if_pos (List.mem_cons_self k Ds), mapGet_insert_self, hdn]
        simp only [Option.map_some']
    · have hins_ne : mapGet (mapInsert mB D (dn.replace_from fid s)) k =
          mapGet mB k := mapGet_insert_ne _ _ _ _ hkD
      by_cases hkDs : k ∈ Ds
      · rw [if_pos hkDs, if_pos (List.mem_cons_of_mem D hkDs), hins_ne]
      · rw [if_neg hkDs, if_neg (by simp [hkD, hkDs]), hins_ne]

/-- Helper: the first upstream iteration of an elimination step restores edge
symmetry and establishes the elimination invariant. -/
theorem elimFirstStep (m : NodeMap) (fid u : Nat) (fnode sn : Node)
    (g : Node → Node)
    (hg_from : ∀ n, (g n).from_ = n.from_)
    (hg_to : ∀ n, (g n).to_ = n.to_.filter (fun i => i ≠ fid) ++ fnode.to_)
    (hfnode : mapGet m fid = some fnode)
    (hufid : u ≠ fid)
    (hsn : mapGet m u = some sn)
    (hSym : EdgeSym m)
    (hfromu : ∀ x ∈ fnode.from_, x = u)
    (mA : NodeMap)
    (hinner : fnode.to_.foldlM (fun mm en => do
        let en_node ← mapGet mm en
        some (mapInsert mm en (en_node.replace_from fid u)))
      (mapInsert (mapRemove m fid) u (g sn)) = some mA) :
    ElimInv m fid u fnode mA := by
  have hfidto : fid ∉ fnode.to_ := by
    intro hmem
    obtain ⟨ny, hny, hyf⟩ := (hSym fid fnode hfnode).1 fid hmem
    rw [hfnode] at hny
    cases hny
    exact hufid (hfromu fid hyf).symm
  have hfidrefs : ∀ k n, mapGet m k = some n →
      (fid ∈ n.from_ → k ∈ fnode.to_) ∧ (fid ∈ n.to_ → k ∈ fnode.from_) := by
    intro k n hk
    constructor
    · intro hmem
      obtain ⟨nf, hnf, hkf⟩ := (hSym k n hk).2 fid hmem
      rw [hfnode] at hnf
      cases hnf
      exact hkf
    · intro hmem
      obtain ⟨nf, hnf, hkf⟩ := (hSym k n hk).1 fid hmem
      rw [hfnode] at hnf
      cases hnf
      exact hkf
  have getB : ∀ k, mapGet (mapInsert (mapRemove m fid) u (g sn)) k =
      if k = u then some (g sn) else if k = fid then none else mapGet m k := by
    intro k
    by_cases hku : k = u
    · subst hku
      rw [mapGet_insert_self, if_pos rfl]
    · rw [mapGet_insert_ne _ _ _ _ hku, if_neg hku]
      by_cases hkf : k = fid
      · subst hkf
        rw [mapGet_remove_self, if_pos rfl]
      · rw [mapGet_remove_ne _ _ _ hkf, if_neg hkf]
  have getA0 := elimInnerChar fid u fnode.to_ _ mA hinner
  have gA_fid : mapGet mA fid = none := by
    rw [getA0 fid, if_neg hfidto, getB fid,
      if_neg (fun h : fid = u => hufid h.symm), if_pos rfl]
  have hsnfid : u ∉ fnode.to_ → fid ∉ sn.from_ :=
    fun hu hmem => hu ((hfidrefs u sn hsn).1 hmem)
  obtain ⟨gu, hgu, hgufrom, hguto⟩ : ∃ gu, mapGet mA u = some gu ∧
      gu.from_ = sn.from_.map (fun i => if i = fid then u else i) ∧
      gu.to_ = sn.to_.filter (fun i => i ≠ fid) ++ fnode.to_ := by
    by_cases hu : u ∈ fnode.to_
    · refine ⟨(g sn).replace_from fid u, ?_, ?_, ?_⟩
      · rw [getA0 u, if_pos hu, getB u, if_pos rfl]
        rfl
      · simp only [Node.replace_from, hg_from]
      · simp only [Node.replace_from, hg_to]
    · refine ⟨g sn, ?_, ?_, hg_to sn⟩
      · rw [getA0 u, if_neg hu, getB u, if_pos rfl]
      · rw [hg_from, mapSubst_no_occ _ _ _ (hsnfid hu)]
  have gA_D : ∀ k, k ≠ u → k ∈ fnode.to_ →
      mapGet mA k = (mapGet m k).map (fun n => n.replace_from fid u) := by
    intro k hku hk
    rw [getA0 k, if_pos hk, getB k, if_neg hku,
      if_neg (fun h : k = fid => hfidto (h ▸ hk))]
  have gA_other : ∀ k, k ≠ fid → k ≠ u → k ∉ fnode.to_ →
      mapGet mA k = mapGet m k := by
    intro k h1 h2 h3
    rw [getA0 k, if_neg h3, getB k, if_neg h2, if_neg h1]
  have hDpres : ∀ D ∈ fnode.to_, ∃ dn, mapGet m D = some dn ∧ fid ∈ dn.from_ := by
    intro D hD
    obtain ⟨dn, hdn, hfd⟩ := (hSym fid fnode hfnode).1 D hD
    exact ⟨dn, hdn, hfd⟩
  have hlook_from : ∀ w nw, mapGet m w = some nw → w ≠ fid →
      ∀ x, x ∈ nw.from_ → x ≠ fid →
      ∃ nw', mapGet mA w = some nw' ∧ x ∈ nw'.from_ := by
    intro w nw hnw hwf x hx hxfid
    by_cases hwu : w = u
    · subst hwu
      rw [hsn] at hnw
      cases hnw
      refine ⟨gu, hgu, ?_⟩
      rw [hgufrom, mem_mapSubst]
      exact Or.inr ⟨hx, hxfid⟩
    · by_cases hwD : w ∈ fnode.to_
      · refine ⟨nw.replace_from fid u, by rw [gA_D w hwu hwD, hnw]; rfl, ?_⟩
        simp only [Node.replace_from]
        rw [mem_mapSubst]
        exact Or.inr ⟨hx, hxfid⟩
      · exact ⟨nw, by rw [gA_other w hwf hwu hwD]; exact hnw, hx⟩
  have hlook_to : ∀ w nw, mapGet m w = some nw → w ≠ fid →
      ∀ x, x ∈ nw.to_ → x ≠ fid →
      ∃ nw', mapGet mA w = some nw' ∧ x ∈ nw'.to_ := by
    intro w nw hnw hwf x hx hxfid
    by_cases hwu : w = u
    · subst hwu
      rw [hsn] at hnw
      cases hnw
      refine ⟨gu, hgu, ?_⟩
      rw [hguto]
      exact List.mem_append.mpr (Or.inl ((mem_filterNe _ _ _).mpr ⟨hx, hxfid⟩))
    · by_cases hwD : w ∈ fnode.to_
      · exact ⟨nw.replace_from fid u, by rw [gA_D w hwu hwD, hnw]; rfl, hx⟩
      · exact ⟨nw, by rw [gA_other w hwf hwu hwD]; exact hnw, hx⟩
  refine ⟨?_, ?_, ?_, gA_other, gA_fid, ⟨gu, hgu⟩⟩
  · -- edge symmetry of the state after the first iteration
    intro x nx hx
    by_cases hxfid : x = fid
    · rw [hxfid, gA_fid] at hx
      cases hx
    by_cases hxu : x = u
    · rw [hxu] at hx
      rw [hxu]
      rw [hgu] at hx
      cases hx
      constructor
      · intro y hy
        rw [hguto] at hy
        rcases List.mem_append.mp hy with hy | hy
        · obtain ⟨hy1, hy2⟩ := (mem_filterNe _ _ _).mp hy
          obtain ⟨ny, hny, hmem⟩ := (hSym u sn hsn).1 y hy1
          exact hlook_from y ny hny hy2 u hmem hufid
        · obtain ⟨dn, hdn, hfd⟩ := hDpres y hy
          by_cases hyu : y = u
          · rw [hyu] at hdn ⊢
            rw [hsn] at hdn
            cases hdn
            refine ⟨gu, hgu, ?_⟩
            rw [hgufrom, mem_mapSubst]
            exact Or.inl ⟨hfd, rfl⟩
          · have hyf : y ≠ fid := fun h => hfidto (h ▸ hy)
            refine ⟨dn.replace_from fid u, by rw [gA_D y hyu hy, hdn]; rfl, ?_⟩
            simp only [Node.replace_from]
            rw [mem_mapSubst]
            exact Or.inl ⟨hfd, rfl⟩
      · intro z hz
        rw [hgufrom, mem_mapSubst] at hz
        rcases hz with ⟨hfs, hzu⟩ | ⟨hz1, hz2⟩
        · rw [hzu]
          refine ⟨gu, hgu, ?_⟩
          rw [hguto]
          exact List.mem_append.mpr (Or.inr ((hfidrefs u sn hsn).1 hfs))
        · obtain ⟨nz, hnz, hmem⟩ := (hSym u sn hsn).2 z hz1
          exact hlook_to z nz hnz hz2 u hmem hufid
    · by_cases hxD : x ∈ fnode.to_
      · rw [gA_D x hxu hxD] at hx
        obtain ⟨dx, hdx, hnx⟩ := Option.map_eq_some'.mp hx
        subst hnx
        constructor
        · intro y hy
          have hy' : y ∈ dx.to_ := hy
          have hyfid : y ≠ fid := by
            intro h
            subst h
            exact hxu (hfromu x ((hfidrefs x dx hdx).2 hy'))
          obtain ⟨ny, hny, hmem⟩ := (hSym x dx hdx).1 y hy'
          exact hlook_from y ny hny hyfid x hmem hxfid
        · intro z hz
          have hz' : z ∈ dx.from_.map (fun i => if i = fid then u else i) := hz
          rw [mem_mapSubst] at hz'
          rcases hz' with ⟨hfd, hzu⟩ | ⟨hz1, hz2⟩
          · subst hzu
            refine ⟨gu, hgu, ?_⟩
            rw [hguto]
            exact List.mem_append.mpr (Or.inr hxD)
          · obtain ⟨nz, hnz, hmem⟩ := (hSym x dx hdx).2 z hz1
            exact hlook_to z nz hnz hz2 x hmem hxfid
      · rw [gA_other x hxfid hxu hxD] at hx
        constructor
        · intro y hy
          have hyfid : y ≠ fid := fun h =>
            hxu (hfromu x ((hfidrefs x nx hx).2 (h ▸ hy)))
          obtain ⟨ny, hny, hmem⟩ := (hSym x nx hx).1 y hy
          exact hlook_from y ny hny hyfid x hmem hxfid
        · intro z hz
          have hzfid : z ≠ fid := fun h =>
            hxD ((hfidrefs x nx hx).1 (h ▸ hz))
          obtain ⟨nz, hnz, hmem⟩ := (hSym x nx hx).2 z hz
          exact hlook_to z nz hnz hzfid x hmem hxfid
  · -- the removed id is referenced nowhere
    intro k n hk
    by_cases hku : k = u
    · subst hku
      rw [hgu] at hk
      cases hk
      constructor
      · rw [hgufrom]
        intro hmem
        rw [mem_mapSubst] at hmem
        rcases hmem with ⟨-, he⟩ | ⟨-, hne⟩
        · exact hufid he.symm
        · exact hne rfl
      · rw [hguto]
        intro hmem
        rcases List.mem_append.mp hmem with hmem | hmem
        · exact ((mem_filterNe _ _ _).mp hmem).2 rfl
        · exact hfidto hmem
    · by_cases hkD : k ∈ fnode.to_
      · rw [gA_D k hku hkD] at hk
        obtain ⟨dn, hdn, hn⟩ := Option.map_eq_some'.mp hk
        subst hn
        constructor
        · intro hmem
          have hmem' : fid ∈ dn.from_.map (fun i => if i = fid then u else i) := hmem
          rw [mem_mapSubst] at hmem'
          rcases hmem' with ⟨-, he⟩ | ⟨-, hne⟩
          · exact hufid he.symm
          · exact hne rfl
        · intro hmem
          have hmem' : fid ∈ dn.to_ := hmem
          exact hku (hfromu k ((hfidrefs k dn hdn).2 hmem'))
      · by_cases hkf : k = fid
        · rw [hkf, gA_fid] at hk
          cases hk
        · rw [gA_other k hkf hku hkD] at hk
          constructor
          · intro hmem
            exact hkD ((hfidrefs k n hk).1 hmem)
          · intro hmem
            exact hku (hfromu k ((hfidrefs k n hk).2 hmem))
  · -- every downstream node lists the upstream origin
    intro D hD
    by_cases hDu : D = u
    · subst hDu
      obtain ⟨dn, hdn, hfd⟩ := hDpres D hD
      rw [hsn] at hdn
      cases hdn
      refine ⟨gu, hgu, ?_⟩
      rw [hgufrom, mem_mapSubst]
      exact Or.inl ⟨hfd, rfl⟩
    · obtain ⟨dn, hdn, hfd⟩ := hDpres D hD
      refine ⟨dn.replace_from fid u, by rw [gA_D D hDu hD, hdn]; rfl, ?_⟩
      simp only [Node.replace_from]
      rw [mem_mapSubst]
      exact Or.inl ⟨hfd, rfl⟩

/-- Helper: every later upstream iteration of an elimination step preserves
the elimination invariant. -/
theorem elimRestStep (m : NodeMap) (fid u : Nat) (fnode : Node)
    (g : Node → Node)
    (hg_from : ∀ n, (g n).from_ = n.from_)
    (hg_to : ∀ n, (g n).to_ = n.to_.filter (fun i => i ≠ fid) ++ fnode.to_)
    (hufid : u ≠ fid)
    (hfidto : fid ∉ fnode.to_)
    (mm : NodeMap) (hInv : ElimInv m fid u fnode mm)
    (r : NodeMap)
    (hstep : (do
        let sn ← mapGet mm u
        let mm2 := mapInsert mm u (g sn)
        fnode.to_.foldlM (fun mi en => do
          let en_node ← mapGet mi en
          some (mapInsert mi en (en_node.replace_from fid u))) mm2) = some r) :
    ElimInv m fid u fnode r := by
  obtain ⟨hSym, hNoRef, hInv2, hUnt, hfidN, hupres⟩ := hInv
  obtain ⟨snc, hsnc, hinner⟩ := Option.bind_eq_some.mp hstep
  have getR := elimInnerChar fid u fnode.to_ _ r hinner
  have hresext : ∀ k, mapGet r k = mapGet (mapInsert mm u (g snc)) k := by
    intro k
    rw [getR k]
    by_cases hk : k ∈ fnode.to_
    · rw [if_pos hk]
      by_cases hku : k = u
      · rw [hku, mapGet_insert_self]
        have hno : fid ∉ (g snc).from_ := by
          rw [hg_from]
          exact (hNoRef u snc hsnc).1
        simp only [Option.map_some']
        rw [Node.replace_from_no_occ _ _ _ hno]
      · rw [mapGet_insert_ne _ _ _ _ hku]
        cases hmk : mapGet mm k with
        | none => rfl
        | some nk =>
          simp only [Option.map_some']
          rw [Node.replace_from_no_occ _ _ _ (hNoRef k nk hmk).1]
    · rw [if_neg hk]
  have hsymIns : EdgeSym (mapInsert mm u (g snc)) := by
    intro x nx hx
    by_cases hxu : x = u
    · rw [hxu] at hx
      rw [hxu]
      rw [mapGet_insert_self] at hx
      cases hx
      constructor
      · intro y hy
        rw [hg_to] at hy
        rcases List.mem_append.mp hy with hy | hy
        · obtain ⟨hy1, hy2⟩ := (mem_filterNe _ _ _).mp hy
          obtain ⟨ny, hny, hmem⟩ := (hSym u snc hsnc).1 y hy1
          by_cases hyu : y = u
          · rw [hyu] at hny ⊢
            rw [hsnc] at hny
            cases hny
            exact ⟨g snc, mapGet_insert_self _ _ _, by rw [hg_from]; exact hmem⟩
          · exact ⟨ny, by rw [mapGet_insert_ne _ _ _ _ hyu]; exact hny, hmem⟩
        · obtain ⟨dn, hdn, hmem⟩ := hInv2 y hy
          by_cases hyu : y = u
          · rw [hyu] at hdn ⊢
            rw [hsnc] at hdn
            cases hdn
            exact ⟨g snc, mapGet_insert_self _ _ _, by rw [hg_from]; exact hmem⟩
          · exact ⟨dn, by rw [mapGet_insert_ne _ _ _ _ hyu]; exact hdn, hmem⟩
      · intro z hz
        rw [hg_from] at hz
        obtain ⟨nz, hnz, hmem⟩ := (hSym u snc hsnc).2 z hz
        by_cases hzu : z = u
        · rw [hzu] at hnz ⊢
          rw [hsnc] at hnz
          cases hnz
          refine ⟨g snc, mapGet_insert_self _ _ _, ?_⟩
          rw [hg_to]
          exact List.mem_append.mpr
            (Or.inl ((mem_filterNe _ _ _).mpr ⟨hmem, hufid⟩))
        · exact ⟨nz, by rw [mapGet_insert_ne _ _ _ _ hzu]; exact hnz, hmem⟩
    · rw [mapGet_insert_ne _ _ _ _ hxu] at hx
      have hxfid : x ≠ fid := by
        intro h
        rw [h, hfidN] at hx
        cases hx
      obtain ⟨hto, hfrom⟩ := hSym x nx hx
      constructor
      · intro y hy
        obtain ⟨ny, hny, hmem⟩ := hto y hy
        by_cases hyu : y = u
        · rw [hyu] at hny ⊢
          rw [hsnc] at hny
          cases hny
          exact ⟨g snc, mapGet_insert_self _ _ _, by rw [hg_from]; exact hmem⟩
        · exact ⟨ny, by rw [mapGet_insert_ne _ _ _ _ hyu]; exact hny, hmem⟩
      · intro z hz
        obtain ⟨nz, hnz, hmem⟩ := hfrom z hz
        by_cases hzu : z = u
        · rw [hzu] at hnz ⊢
          rw [hsnc] at hnz
          cases hnz
          refine ⟨g snc, mapGet_insert_self _ _ _, ?_⟩
          rw [hg_to]
          exact List.mem_append.mpr
            (Or.inl ((mem_filterNe _ _ _).mpr ⟨hmem, hxfid⟩))
        · exact ⟨nz, by rw [mapGet_insert_ne _ _ _ _ hzu]; exact hnz, hmem⟩
  refine ⟨EdgeSym_ext _ _ hresext hsymIns, ?_, ?_, ?_, ?_, ?_⟩
  · intro k n hk
    rw [hresext k] at hk
    by_cases hku : k = u
    · rw [hku] at hk
      rw [mapGet_insert_self] at hk
      cases hk
      constructor
      · rw [hg_from]
        exact (hNoRef u snc hsnc).1
      · rw [hg_to]
        intro hmem
        rcases List.mem_append.mp hmem with hmem | hmem
        · exact ((mem_filterNe _ _ _).mp hmem).2 rfl
        · exact hfidto hmem
    · rw [mapGet_insert_ne _ _ _ _ hku] at hk
      exact hNoRef k n hk
  · intro D hD
    obtain ⟨dn, hdn, hmem⟩ := hInv2 D hD
    by_cases hDu : D = u
    · rw [hDu] at hdn ⊢
      rw [hsnc] at hdn
      cases hdn
      refine ⟨g snc, ?_, by rw [hg_from]; exact hmem⟩
      rw [hresext u, mapGet_insert_self]
    · refine ⟨dn, ?_, hmem⟩
      rw [hresext D, mapGet_insert_ne _ _ _ _ hDu]
      exact hdn
  · intro k h1 h2 h3
    rw [hresext k, mapGet_insert_ne _ _ _ _ h2]
    exact hUnt k h1 h2 h3
  · rw [hresext fid, mapGet_insert_ne _ _ _ _ (fun h : fid = u => hufid h.symm)]
    exact hfidN
  · exact ⟨g snc, by rw [hresext u, mapGet_insert_self]⟩

/-- Helper: a full elimination step (remove the node, rewire its single
upstream origin and all downstream nodes) restores edge symmetry, leaves all
other keys untouched, and deletes the removed id. -/
theorem elimCore (m : NodeMap) (fid u : Nat) (fnode : Node) (g : Node → Node)
    (hg_from : ∀ n, (g n).from_ = n.from_)
    (hg_to : ∀ n, (g n).to_ = n.to_.filter (fun i => i ≠ fid) ++ fnode.to_)
    (hfnode : mapGet m fid = some fnode)
    (hfrom_ne : fnode.from_ ≠ [])
    (hfrom_u : ∀ x ∈ fnode.from_, x = u)
    (hSym : EdgeSym m)
    (m' : NodeMap)
    (hrun : fnode.from_.foldlM (fun mm s => do
        let sn ← mapGet mm s
        let mm2 := mapInsert mm s (g sn)
        fnode.to_.foldlM (fun mi en => do
          let en_node ← mapGet mi en
          some (mapInsert mi en (en_node.replace_from fid s))) mm2)
      (mapRemove m fid) = some m') :
    EdgeSym m' ∧
    (∀ k, k ≠ fid → k ≠ u → k ∉ fnode.to_ → mapGet m' k = mapGet m k) ∧
    mapGet m' fid = none := by
  cases hfl : fnode.from_ with
  | nil => exact absurd hfl hfrom_ne
  | cons u0 rest =>
    have hu0 : u0 = u := hfrom_u u0 (by rw [hfl]; exact List.mem_cons_self _ _)
    rw [hfl, hu0, List.foldlM_cons] at hrun
    simp only [Option.bind_eq_bind] at hrun
    obtain ⟨mA, hmA, hrest⟩ := Option.bind_eq_some.mp hrun
    obtain ⟨sn, hsn0, hinner⟩ := Option.bind_eq_some.mp hmA
    have hufid : u ≠ fid := by
      intro h
      rw [h, mapGet_remove_self] at hsn0
      cases hsn0
    have hsn : mapGet m u = some sn := by
      rw [mapGet_remove_ne _ _ _ hufid] at hsn0
      exact hsn0
    have hInvA : ElimInv m fid u fnode mA :=
      elimFirstStep m fid u fnode sn g hg_from hg_to hfnode hufid hsn hSym
        hfrom_u mA hinner
    have hfidto : fid ∉ fnode.to_ := by
      intro hmem
      obtain ⟨ny, hny, hyf⟩ := (hSym fid fnode hfnode).1 fid hmem
      rw [hfnode] at hny
      cases hny
      exact hufid (hfrom_u fid hyf).symm
    have hInvFinal : ElimInv m fid u fnode m' := by
      refine foldlM_option_inv (ElimInv m fid u fnode) _ rest mA hInvA ?_ m' hrest
      intro b a r ha hb hstep
      have hau : a = u := hfrom_u a (by rw [hfl]; exact List.mem_cons_of_mem _ ha)
      rw [hau] at hstep
      exact elimRestStep m fid u fnode g hg_from hg_to hufid hfidto b hb r hstep
    obtain ⟨hS, h2, h3, hU, hN, h6⟩ := hInvFinal
    exact ⟨hS, hU, hN⟩

/-- Helper: the attribute merge leaves both edge lists unchanged. -/
theorem Node.add_attributes_edges (n : Node) (a : Option (List String)) :
    (n.add_attributes a).from_ = n.from_ ∧ (n.add_attributes a).to_ = n.to_ := by
  unfold Node.add_attributes
  cases n.attributes <;> cases a <;> exact ⟨rfl, rfl⟩

/-- Helper: the operator kind flags are mutually exclusive. -/
theorem op_flags (op : Operator) :
    (op.isFragment = true → op.isProject = false ∧ op.isJoin = false) ∧
    (op.isProject = true → op.isFragment = false ∧ op.isJoin = false) ∧
    (op.isJoin = true → op.isFragment = false ∧ op.isProject = false) := by
  cases op <;> simp [Operator.isFragment, Operator.isProject, Operator.isJoin]

/-- Helper: one Fragmenter elimination under a single-origin upstream
restores edge symmetry and only touches the fragment, its origin and its
downstream ids. -/
theorem fragmentStep_sym (m : NodeMap) (fid u : Nat) (fnode : Node)
    (hfnode : mapGet m fid = some fnode)
    (hfrom_ne : fnode.from_ ≠ [])
    (hfrom_u : ∀ x ∈ fnode.from_, x = u)
    (hSym : EdgeSym m) (m' : NodeMap)
    (hrun : fragmentStep m fid = some m') :
    EdgeSym m' ∧
    (∀ k, k ≠ fid → k ≠ u → k ∉ fnode.to_ → mapGet m' k = mapGet m k) ∧
    mapGet m' fid = none := by
  unfold fragmentStep at hrun
  obtain ⟨fn2, hfn2, hrun2⟩ := Option.bind_eq_some.mp hrun
  rw [hfnode] at hfn2
  cases hfn2
  exact elimCore m fid u fnode (fun n => n.change_to_ids fnode.to_ fid)
    (fun n => rfl) (fun n => rfl) hfnode hfrom_ne hfrom_u hSym m' hrun2

/-- Helper: one Projection elimination under a single-origin upstream
restores edge symmetry and only touches the projection, its origin and its
downstream ids. -/
theorem projectionStep_sym (m : NodeMap) (pidx u : Nat) (pnode : Node)
    (hpnode : mapGet m pidx = some pnode)
    (hfrom_ne : pnode.from_ ≠ [])
    (hfrom_u : ∀ x ∈ pnode.from_, x = u)
    (hSym : EdgeSym m) (m' : NodeMap)
    (hrun : projectionStep m pidx = some m') :
    EdgeSym m' ∧
    (∀ k, k ≠ pidx → k ≠ u → k ∉ pnode.to_ → mapGet m' k = mapGet m k) ∧
    mapGet m' pidx = none := by
  unfold projectionStep at hrun
  obtain ⟨pn2, hpn2, hrun2⟩ := Option.bind_eq_some.mp hrun
  rw [hpnode] at hpn2
  cases hpn2
  exact elimCore m pidx u pnode
    (fun n => (n.change_to_ids pnode.to_ pidx).add_attributes
      (match pnode.operator with
        | .ProjectOp attrs => some attrs
        | _ => none))
    (fun n => by rw [(Node.add_attributes_edges _ _).1]; rfl)
    (fun n => by rw [(Node.add_attributes_edges _ _).2]; rfl)
    hpnode hfrom_ne hfrom_u hSym m' hrun2

/-- Helper: the full Fragmenter-removal pass preserves edge symmetry and the
derived state of all Projection and Join nodes, given wellformed fragments. -/
theorem fragmentFold_sym (plan : PlanGraph)
    (hW3 : ∀ f ∈ fragment_indices plan,
      (edgeIns plan f ≠ [] ∧ ∀ x ∈ edgeIns plan f, ∀ y ∈ edgeIns plan f, x = y) ∧
      (∀ x ∈ edgeIns plan f, plainAt plan x = true) ∧
      (∀ x ∈ edgeOuts plan f, plainAt plan x = true)) :
    ∀ (ids : List Nat), (∀ f ∈ ids, f ∈ fragment_indices plan) → ids.Nodup →
    ∀ m, EdgeSym m → (∀ f ∈ ids, DerivedAt plan m f) →
    (∀ p ∈ projection_indices plan, DerivedAt plan m p) →
    (∀ j ∈ join_indices plan, DerivedAt plan m j) →
    ∀ m', ids.foldlM fragmentStep m = some m' →
    EdgeSym m' ∧ (∀ p ∈ projection_indices plan, DerivedAt plan m' p) ∧
    (∀ j ∈ join_indices plan, DerivedAt plan m' j) := by
  intro ids
  induction ids with
  | nil =>
    intro _ _ m hSym _ hproj hjoin m' hrun
    have hm : m' = m := by simpa using hrun.symm
    subst hm
    exact ⟨hSym, hproj, hjoin⟩
  | cons f rest ih =>
    intro hsub hnodup m hSym hder hproj hjoin m' hrun
    rw [List.foldlM_cons] at hrun
    simp only [Option.bind_eq_bind] at hrun
    obtain ⟨mS, hmS, hrest⟩ := Option.bind_eq_some.mp hrun
    have hf := hsub f (List.mem_cons_self f rest)
    obtain ⟨⟨hne, hall⟩, hinplain, houtplain⟩ := hW3 f hf
    obtain ⟨n0, hn0, hopF⟩ := (indices_mem_get plan f).1 hf
    have hfn : mapGet m f = some (derivedNode plan f n0) := by
      have hD := hder f (List.mem_cons_self f rest)
      unfold DerivedAt at hD
      rw [hD, hn0]
      rfl
    obtain ⟨u, hu⟩ : ∃ u, ∀ x ∈ edgeIns plan f, x = u := by
      cases hil : edgeIns plan f with
      | nil => exact absurd hil hne
      | cons a l =>
        refine ⟨a, fun x hx => hall x ?_ a ?_⟩
        · rw [hil]
          exact hx
        · rw [hil]
          exact List.mem_cons_self a l
    obtain ⟨hSymS, hUnt, hNone⟩ := fragmentStep_sym m f u (derivedNode plan f n0)
      hfn (by show edgeIns plan f ≠ []; exact hne)
      (by show ∀ x ∈ edgeIns plan f, x = u; exact hu) hSym mS hmS
    have huplain : plainAt plan u = true := by
      cases hil : edgeIns plan f with
      | nil => exact absurd hil hne
      | cons a l =>
        have hmema : a ∈ edgeIns plan f := by
          rw [hil]
          exact List.mem_cons_self a l
        have ha : a = u := hu a hmema
        rw [← ha]
        exact hinplain a hmema
    have htrans : ∀ k, k ≠ f → k ≠ u → k ∉ edgeOuts plan f →
        DerivedAt plan m k → DerivedAt plan mS k := by
      intro k h1 h2 h3 hD
      unfold DerivedAt at hD ⊢
      rw [hUnt k h1 h2 h3]
      exact hD
    have hnotplain : ∀ k, (k ∈ projection_indices plan ∨ k ∈ join_indices plan ∨
        k ∈ fragment_indices plan) → k ≠ u ∧ k ∉ edgeOuts plan f := by
      intro k hk
      constructor
      · intro he
        have hnp := plainAt_not_indices plan u huplain
        rcases hk with h | h | h
        · rw [he] at h
          exact hnp.2.1 h
        · rw [he] at h
          exact hnp.2.2 h
        · rw [he] at h
          exact hnp.1 h
      · intro hmem
        have hnp := plainAt_not_indices plan k (houtplain k hmem)
        rcases hk with h | h | h
        · exact hnp.2.1 h
        · exact hnp.2.2 h
        · exact hnp.1 h
    refine ih (fun f' hf' => hsub f' (List.mem_cons_of_mem f hf'))
      (List.Nodup.of_cons hnodup) mS hSymS ?_ ?_ ?_ m' hrest
    · intro f' hf'
      have hmemf : f' ∈ fragment_indices plan := hsub f' (List.mem_cons_of_mem f hf')
      have hneq : f' ≠ f := by
        intro h
        rw [h] at hf'
        exact (List.nodup_cons.mp hnodup).1 hf'
      obtain ⟨hneu, hnout⟩ := hnotplain f' (Or.inr (Or.inr hmemf))
      exact htrans f' hneq hneu hnout (hder f' (List.mem_cons_of_mem f hf'))
    · intro p hp
      have hneq : p ≠ f := by
        intro h
        obtain ⟨np, hnp, hopP⟩ := (indices_mem_get plan p).2.1 hp
        rw [h, hn0] at hnp
        cases hnp
        rw [((op_flags n0.operator).1 hopF).1] at hopP
        cases hopP
      obtain ⟨hneu, hnout⟩ := hnotplain p (Or.inl hp)
      exact htrans p hneq hneu hnout (hproj p hp)
    · intro j hj
      have hneq : j ≠ f := by
        intro h
        obtain ⟨nj, hnj, hopJ⟩ := (indices_mem_get plan j).2.2 hj
        rw [h, hn0] at hnj
        cases hnj
        rw [((op_flags n0.operator).1 hopF).2] at hopJ
        cases hopJ
      obtain ⟨hneu, hnout⟩ := hnotplain j (Or.inr (Or.inl hj))
      exact htrans j hneq hneu hnout (hjoin j hj)

/-- Helper: the full Projection-removal pass preserves edge symmetry and the
derived state of all Join nodes, given wellformed projections. -/
theorem projectionFold_sym (plan : PlanGraph)
    (hW4 : ∀ p ∈ projection_indices plan,
      (edgeIns plan p ≠ [] ∧ ∀ x ∈ edgeIns plan p, ∀ y ∈ edgeIns plan p, x = y) ∧
      (∀ x ∈ edgeIns plan p, plainAt plan x = true) ∧
      (∀ x ∈ edgeOuts plan p, plainAt plan x = true)) :
    ∀ (ids : List Nat), (∀ p ∈ ids, p ∈ projection_indices plan) → ids.Nodup →
    ∀ m, EdgeSym m → (∀ p ∈ ids, DerivedAt plan m p) →
    (∀ j ∈ join_indices plan, DerivedAt plan m j) →
    ∀ m', ids.foldlM projectionStep m = some m' →
    EdgeSym m' ∧ (∀ j ∈ join_indices plan, DerivedAt plan m' j) := by
  intro ids
  induction ids with
  | nil =>
    intro _ _ m hSym _ hjoin m' hrun
    have hm : m' = m := by simpa using hrun.symm
    subst hm
    exact ⟨hSym, hjoin⟩
  | cons p rest ih =>
    intro hsub hnodup m hSym hder hjoin m' hrun
    rw [List.foldlM_cons] at hrun
    simp only [Option.bind_eq_bind] at hrun
    obtain ⟨mS, hmS, hrest⟩ := Option.bind_eq_some.mp hrun
    have hp := hsub p (List.mem_cons_self p rest)
    obtain ⟨⟨hne, hall⟩, hinplain, houtplain⟩ := hW4 p hp
    obtain ⟨n0, hn0, hopP⟩ := (indices_mem_get plan p).2.1 hp
    have hpn : mapGet m p = some (derivedNode plan p n0) := by
      have hD := hder p (List.mem_cons_self p rest)
      unfold DerivedAt at hD
      rw [hD, hn0]
      rfl
    obtain ⟨u, hu⟩ : ∃ u, ∀ x ∈ edgeIns plan p, x = u := by
      cases hil : edgeIns plan p with
      | nil => exact absurd hil hne
      | cons a l =>
        refine ⟨a, fun x hx => hall x ?_ a ?_⟩
        · rw [hil]
          exact hx
        · rw [hil]
          exact List.mem_cons_self a l
    obtain ⟨hSymS, hUnt, hNone⟩ := projectionStep_sym m p u (derivedNode plan p n0)
      hpn (by show edgeIns plan p ≠ []; exact hne)
      (by show ∀ x ∈ edgeIns plan p, x = u; exact hu) hSym mS hmS
    have huplain : plainAt plan u = true := by
      cases hil : edgeIns plan p with
      | nil => exact absurd hil hne
      | cons a l =>
        have hmema : a ∈ edgeIns plan p := by
          rw [hil]
          exact List.mem_cons_self a l
        have ha : a = u := hu a hmema
        rw [← ha]
        exact hinplain a hmema
    have htrans : ∀ k, k ≠ p → k ≠ u → k ∉ edgeOuts plan p →
        DerivedAt plan m k → DerivedAt plan mS k := by
      intro k h1 h2 h3 hD
      unfold DerivedAt at hD ⊢
      rw [hUnt k h1 h2 h3]
      exact hD
    have hnotplain : ∀ k, (k ∈ projection_indices plan ∨ k ∈ join_indices plan) →
        k ≠ u ∧ k ∉ edgeOuts plan p := by
      intro k hk
      constructor
      · intro he
        have hnp := plainAt_not_indices plan u huplain
        rcases hk with h | h
        · rw [he] at h
          exact hnp.2.1 h
        · rw [he] at h
          exact hnp.2.2 h
      · intro hmem
        have hnp := plainAt_not_indices plan k (houtplain k hmem)
        rcases hk with h | h
        · exact hnp.2.1 h
        · exact hnp.2.2 h
    refine ih (fun p' hp' => hsub p' (List.mem_cons_of_mem p hp'))
      (List.Nodup.of_cons hnodup) mS hSymS ?_ ?_ m' hrest
    · intro p' hp'
      have hmemp : p' ∈ projection_indices plan := hsub p' (List.mem_cons_of_mem p hp')
      have hneq : p' ≠ p := by
        intro h
        rw [h] at hp'
        exact (List.nodup_cons.mp hnodup).1 hp'
      obtain ⟨hneu, hnout⟩ := hnotplain p' (Or.inl hmemp)
      exact htrans p' hneq hneu hnout (hder p' (List.mem_cons_of_mem p hp'))
    · intro j hj
      have hneq : j ≠ p := by
        intro h
        obtain ⟨nj, hnj, hopJ⟩ := (indices_mem_get plan j).2.2 hj
        rw [h, hn0] at hnj
        cases hnj
        rw [((op_flags n0.operator).2.1 hopP).2] at hopJ
        cases hopJ
      obtain ⟨hneu, hnout⟩ := hnotplain j (Or.inr hj)
      exact htrans j hneq hneu hnout (hjoin j hj)

/-- Helper: the downstream write-back loop of pass 5, characterized by
membership. -/
theorem sjChFold_char (m : NodeMap) (j f0 : Nat) (ja : String) :
    ∀ (ts : List Nat) (ch0 res : List (Nat × Node)),
    ts.foldlM (fun ch to_node_id => do
      let to_node ← mapGet m to_node_id
      some (ch ++ [(to_node_id,
        { to_node.replace_from j f0 with join_alias := some ja })])) ch0 = some res →
    ∀ p, p ∈ res ↔ (p ∈ ch0 ∨ ∃ t, t ∈ ts ∧ ∃ tn, mapGet m t = some tn ∧
      p = (t, { tn.replace_from j f0 with join_alias := some ja })) := by
  intro ts
  induction ts with
  | nil =>
    intro ch0 res h p
    have hres : res = ch0 := by simpa using h.symm
    subst hres
    simp
  | cons t ts ih =>
    intro ch0 res h p
    rw [List.foldlM_cons] at h
    simp only [Option.bind_eq_bind] at h
    obtain ⟨ch1, hch1, hrest⟩ := Option.bind_eq_some.mp h
    obtain ⟨tn, htn, hins⟩ := Option.bind_eq_some.mp hch1
    have hch1eq : ch1 = ch0 ++
        [(t, { tn.replace_from j f0 with join_alias := some ja })] := by
      simpa using hins.symm
    subst hch1eq
    rw [ih _ res hrest p]
    constructor
    · rintro (hp | ⟨t', ht', tn', htn', hpe⟩)
      · rcases List.mem_append.mp hp with hp | hp
        · exact Or.inl hp
        · rw [List.mem_singleton] at hp
          exact Or.inr ⟨t, List.mem_cons_self _ _, tn, htn, hp⟩
      · exact Or.inr ⟨t', List.mem_cons_of_mem _ ht', tn', htn', hpe⟩
    · rintro (hp | ⟨t', ht', tn', htn', hpe⟩)
      · exact Or.inl (List.mem_append.mpr (Or.inl hp))
      · rcases List.mem_cons.mp ht' with he | hm
        · subst he
          rw [htn] at htn'
          cases htn'
          exact Or.inl (List.mem_append.mpr (Or.inr (List.mem_singleton.mpr hpe)))
        · exact Or.inr ⟨t', hm, tn', htn', hpe⟩

/-- Helper: pass 5 characterized — the removal list holds exactly the
self-joins scanned, the write-back list holds exactly the self-join edits,
and every scanned self-join's edits are recorded. -/
theorem sjFold_char (m : NodeMap) :
    ∀ (joins : List Nat) (acc res : List Nat × List (Nat × Node)),
    joins.foldlM (fun acc join_index => do
      let join_node ← mapGet m join_index
      let f0 ← join_node.from_.get? 0
      let f1 ← join_node.from_.get? 1
      if f0 = f1 then
        let removes := acc.1 ++ [join_index]
        match join_node.operator with
        | .JoinOp join_alias => do
          let changed1 ← join_node.to_.foldlM (fun ch to_node_id => do
            let to_node ← mapGet m to_node_id
            some (ch ++ [(to_node_id,
              { to_node.replace_from join_index f0 with
                join_alias := some join_alias })])) acc.2
          let from_node ← mapGet m f0
          some (removes,
            changed1 ++ [(f0, from_node.change_to_ids join_node.to_ join_index)])
        | _ => some (removes, acc.2)
      else
        some acc) acc = some res →
    (∀ x, x ∈ res.1 ↔ (x ∈ acc.1 ∨ (x ∈ joins ∧ SelfJoinCond m x))) ∧
    (∀ p, p ∈ res.2 ↔ (p ∈ acc.2 ∨ SJEntry m joins p)) ∧
    (∀ j ∈ joins, SelfJoinCond m j → SJComplete m j res.2) := by
  intro joins
  induction joins with
  | nil =>
    intro acc res h
    have hres : res = acc := by simpa using h.symm
    subst hres
    refine ⟨?_, ?_, ?_⟩
    · intro x
      simp
    · intro p
      simp [SJEntry]
    · intro j hj
      simp at hj
  | cons j0 rest ih =>
    intro acc res h
    rw [List.foldlM_cons] at h
    simp only [Option.bind_eq_bind] at h
    obtain ⟨acc', hacc', hrest⟩ := Option.bind_eq_some.mp h
    obtain ⟨jn, hjn, h2⟩ := Option.bind_eq_some.mp hacc'
    obtain ⟨f0, hf0, h3⟩ := Option.bind_eq_some.mp h2
    obtain ⟨f1, hf1, h4⟩ := Option.bind_eq_some.mp h3
    obtain ⟨hrem', hch', hcomp'⟩ := ih acc' res hrest
    by_cases heq : f0 = f1
    · rw [if_pos heq] at h4
      rw [← heq] at hf1
      have hcondj0 : SelfJoinCond m j0 := ⟨jn, f0, hjn, hf0, hf1⟩
      cases hop : jn.operator with
      | JoinOp ja =>
        rw [hop] at h4
        obtain ⟨changed1, hch1, h5⟩ := Option.bind_eq_some.mp h4
        obtain ⟨fn, hfn, h6⟩ := Option.bind_eq_some.mp h5
        have hacc'eq : acc' = (acc.1 ++ [j0],
            changed1 ++ [(f0, fn.change_to_ids jn.to_ j0)]) := by
          simpa using h6.symm
        subst hacc'eq
        have hchfold := sjChFold_char m j0 f0 ja jn.to_ acc.2 changed1 hch1
        refine ⟨?_, ?_, ?_⟩
        · intro x
          rw [hrem' x]
          constructor
          · rintro (hx | hx)
            · rcases List.mem_append.mp hx with hx | hx
              · exact Or.inl hx
              · rw [List.mem_singleton] at hx
                subst hx
                exact Or.inr ⟨List.mem_cons_self _ _, hcondj0⟩
            · exact Or.inr ⟨List.mem_cons_of_mem _ hx.1, hx.2⟩
          · rintro (hx | ⟨hxm, hxc⟩)
            · exact Or.inl (List.mem_append.mpr (Or.inl hx))
            · rcases List.mem_cons.mp hxm with he | hm
              · subst he
                exact Or.inl (List.mem_append.mpr
                  (Or.inr (List.mem_singleton.mpr rfl)))
              · exact Or.inr ⟨hm, hxc⟩
        · intro p
          rw [hch' p]
          constructor
          · rintro (hp | hp)
            · rcases List.mem_append.mp hp with hp | hp
              · rcases (hchfold p).mp hp with hp | ⟨t, ht, tn, htn, hpe⟩
                · exact Or.inl hp
                · exact Or.inr ⟨j0, List.mem_cons_self _ _, jn, f0, hjn, hf0,
                    hf1, ja, hop, Or.inl ⟨t, ht, tn, htn, hpe⟩⟩
              · rw [List.mem_singleton] at hp
                exact Or.inr ⟨j0, List.mem_cons_self _ _, jn, f0, hjn, hf0,
                  hf1, ja, hop, Or.inr ⟨fn, hfn, hp⟩⟩
            · obtain ⟨j', hj1, hrest2⟩ := hp
              exact Or.inr ⟨j', List.mem_cons_of_mem _ hj1, hrest2⟩
          · rintro (hp | hp)
            · exact Or.inl (List.mem_append.mpr (Or.inl ((hchfold p).mpr (Or.inl hp))))
            · obtain ⟨j', hj', jn', f0', hjn', hf0', hf1'', ja', hop', hsh⟩ := hp
              rcases List.mem_cons.mp hj' with he | hm
              · subst he
                rw [hjn] at hjn'
                cases hjn'
                rw [hf0] at hf0'
                cases hf0'
                rw [hop] at hop'
                cases hop'
                rcases hsh with ⟨t, ht, tn', htn', hpe⟩ | ⟨fn', hfn', hpe⟩
                · exact Or.inl (List.mem_append.mpr
                    (Or.inl ((hchfold p).mpr (Or.inr ⟨t, ht, tn', htn', hpe⟩))))
                · rw [hfn] at hfn'
                  cases hfn'
                  exact Or.inl (List.mem_append.mpr
                    (Or.inr (List.mem_singleton.mpr hpe)))
              · exact Or.inr ⟨j', hm, jn', f0', hjn', hf0', hf1'', ja', hop', hsh⟩
        · intro jq hjq hcondq
          rcases List.mem_cons.mp hjq with he | hm
          · subst he
            intro jnq f0q hjnq hf0q ja_q hopq
            rw [hjn] at hjnq
            cases hjnq
            rw [hf0] at hf0q
            cases hf0q
            rw [hop] at hopq
            cases hopq
            constructor
            · intro t ht tn htn
              exact (hch' _).mpr (Or.inl (List.mem_append.mpr
                (Or.inl ((hchfold _).mpr (Or.inr ⟨t, ht, tn, htn, rfl⟩)))))
            · intro fn' hfn'
              rw [hfn] at hfn'
              cases hfn'
              exact (hch' _).mpr (Or.inl (List.mem_append.mpr
                (Or.inr (List.mem_singleton.mpr rfl))))
          · exact hcomp' jq hm hcondq
      | SourceOp c =>
        rw [hop] at h4
        have hacc'eq : acc' = (acc.1 ++ [j0], acc.2) := by simpa using h4.symm
        subst hacc'eq
        refine ⟨?_, ?_, ?_⟩
        · intro x
          rw [hrem' x]
          constructor
          · rintro (hx | hx)
            · rcases List.mem_append.mp hx with hx | hx
              · exact Or.inl hx
              · rw [List.mem_singleton] at hx
                subst hx
                exact Or.inr ⟨List.mem_cons_self _ _, hcondj0⟩
            · exact Or.inr ⟨List.mem_cons_of_mem _ hx.1, hx.2⟩
          · rintro (hx | ⟨hxm, hxc⟩)
            · exact Or.inl (List.mem_append.mpr (Or.inl hx))
            · rcases List.mem_cons.mp hxm with he | hm
              · subst he
                exact Or.inl (List.mem_append.mpr
                  (Or.inr (List.mem_singleton.mpr rfl)))
              · exact Or.inr ⟨hm, hxc⟩
        · intro p
          rw [hch' p]
          constructor
          · rintro (hp | hp)
            · exact Or.inl hp
            · obtain ⟨j', hj1, hrest2⟩ := hp
              exact Or.inr ⟨j', List.mem_cons_of_mem _ hj1, hrest2⟩
          · rintro (hp | hp)
            · exact Or.inl hp
            · obtain ⟨j', hj', jn', f0', hjn', hf0', hf1'', ja', hop', hsh⟩ := hp
              rcases List.mem_cons.mp hj' with he | hm
              · subst he
                rw [hjn] at hjn'
                cases hjn'
                rw [hop] at hop'
                cases hop'
              · exact Or.inr ⟨j', hm, jn', f0', hjn', hf0', hf1'', ja', hop', hsh⟩
        · intro jq hjq hcondq
          rcases List.mem_cons.mp hjq with he | hm
          · subst he
            intro jnq f0q hjnq hf0q ja_q hopq
            rw [hjn] at hjnq
            cases hjnq
            rw [hop] at hopq
            cases hopq
          · exact hcomp' jq hm hcondq
      | TargetOp c =>
        rw [hop] at h4
        have hacc'eq : acc' = (acc.1 ++ [j0], acc.2) := by simpa using h4.symm
        subst hacc'eq
        refine ⟨?_, ?_, ?_⟩
        · intro x
          rw [hrem' x]
          constructor
          · rintro (hx | hx)
            · rcases List.mem_append.mp hx with hx | hx
              · exact Or.inl hx
              · rw [List.mem_singleton] at hx
                subst hx
                exact Or.inr ⟨List.mem_cons_self _ _, hcondj0⟩
            · exact Or.inr ⟨List.mem_cons_of_mem _ hx.1, hx.2⟩
          · rintro (hx | ⟨hxm, hxc⟩)
            · exact Or.inl (List.mem_append.mpr (Or.inl hx))
            · rcases List.mem_cons.mp hxm with he | hm
              · subst he
                exact Or.inl (List.mem_append.mpr
                  (Or.inr (List.mem_singleton.mpr rfl)))
              · exact Or.inr ⟨hm, hxc⟩
        · intro p
          rw [hch' p]
          constructor
          · rintro (hp | hp)
            · exact Or.inl hp
            · obtain ⟨j', hj1, hrest2⟩ := hp
              exact Or.inr ⟨j', List.mem_cons_of_mem _ hj1, hrest2⟩
          · rintro (hp | hp)
            · exact Or.inl hp
            · obtain ⟨j', hj', jn', f0', hjn', hf0', hf1'', ja', hop', hsh⟩ := hp
              rcases List.mem_cons.mp hj' with he | hm
              · subst he
                rw [hjn] at hjn'
                cases hjn'
                rw [hop] at hop'
                cases hop'
              · exact Or.inr ⟨j', hm, jn', f0', hjn', hf0', hf1'', ja', hop', hsh⟩
        · intro jq hjq hcondq
          rcases List.mem_cons.mp hjq with he | hm
          · subst he
            intro jnq f0q hjnq hf0q ja_q hopq
            rw [hjn] at hjnq
            cases hjnq
            rw [hop] at hopq
            cases hopq
          · exact hcomp' jq hm hcondq
      | FragmentOp =>
        rw [hop] at h4
        have hacc'eq : acc' = (acc.1 ++ [j0], acc.2) := by simpa using h4.symm
        subst hacc'eq
        refine ⟨?_, ?_, ?_⟩
        · intro x
          rw [hrem' x]
          constructor
          · rintro (hx | hx)
            · rcases List.mem_append.mp hx with hx | hx
              · exact Or.inl hx
              · rw [List.mem_singleton] at hx
                subst hx
                exact Or.inr ⟨List.mem_cons_self _ _, hcondj0⟩
            · exact Or.inr ⟨List.mem_cons_of_mem _ hx.1, hx.2⟩
          · rintro (hx | ⟨hxm, hxc⟩)
            · exact Or.inl (List.mem_append.mpr (Or.inl hx))
            · rcases List.mem_cons.mp hxm with he | hm
              · subst he
                exact Or.inl (List.mem_append.mpr
                  (Or.inr (List.mem_singleton.mpr rfl)))
              · exact Or.inr ⟨hm, hxc⟩
        · intro p
          rw [hch' p]
          constructor
          · rintro (hp | hp)
            · exact Or.inl hp
            · obtain ⟨j', hj1, hrest2⟩ := hp
              exact Or.inr ⟨j', List.mem_cons_of_mem _ hj1, hrest2⟩
          · rintro (hp | hp)
            · exact Or.inl hp
            · obtain ⟨j', hj', jn', f0', hjn', hf0', hf1'', ja', hop', hsh⟩ := hp
              rcases List.mem_cons.mp hj' with he | hm
              · subst he
                rw [hjn] at hjn'
                cases hjn'
                rw [hop] at hop'
                cases hop'
              · exact Or.inr ⟨j', hm, jn', f0', hjn', hf0', hf1'', ja', hop', hsh⟩
        · intro jq hjq hcondq
          rcases List.mem_cons.mp hjq with he | hm
          · subst he
            intro jnq f0q hjnq hf0q ja_q hopq
            rw [hjn] at hjnq
            cases hjnq
            rw [hop] at hopq
            cases hopq
          · exact hcomp' jq hm hcondq
      | ProjectOp a =>
        rw [hop] at h4
        have hacc'eq : acc' = (acc.1 ++ [j0], acc.2) := by simpa using h4.symm
        subst hacc'eq
        refine ⟨?_, ?_, ?_⟩
        · intro x
          rw [hrem' x]
          constructor
          · rintro (hx | hx)
            · rcases List.mem_append.mp hx with hx | hx
              · exact Or.inl hx
              · rw [List.mem_singleton] at hx
                subst hx
                exact Or.inr ⟨List.mem_cons_self _ _, hcondj0⟩
            · exact Or.inr ⟨List.mem_cons_of_mem _ hx.1, hx.2⟩
          · rintro (hx | ⟨hxm, hxc⟩)
            · exact Or.inl (List.mem_append.mpr (Or.inl hx))
            · rcases List.mem_cons.mp hxm with he | hm
              · subst he
                exact Or.inl (List.mem_append.mpr
                  (Or.inr (List.mem_singleton.mpr rfl)))
              · exact Or.inr ⟨hm, hxc⟩
        · intro p
          rw [hch' p]
          constructor
          · rintro (hp | hp)
            · exact Or.inl hp
            · obtain ⟨j', hj1, hrest2⟩ := hp
              exact Or.inr ⟨j', List.mem_cons_of_mem _ hj1, hrest2⟩
          · rintro (hp | hp)
            · exact Or.inl hp
            · obtain ⟨j', hj', jn', f0', hjn', hf0', hf1'', ja', hop', hsh⟩ := hp
              rcases List.mem_cons.mp hj' with he | hm
              · subst he
                rw [hjn] at hjn'
                cases hjn'
                rw [hop] at hop'
                cases hop'
              · exact Or.inr ⟨j', hm, jn', f0', hjn', hf0', hf1'', ja', hop', hsh⟩
        · intro jq hjq hcondq
          rcases List.mem_cons.mp hjq with he | hm
          · subst he
            intro jnq f0q hjnq hf0q ja_q hopq
            rw [hjn] at hjnq
            cases hjnq
            rw [hop] at hopq
            cases hopq
          · exact hcomp' jq hm hcondq
      | ExtendOp =>
        rw [hop] at h4
        have hacc'eq : acc' = (acc.1 ++ [j0], acc.2) := by simpa using h4.symm
        subst hacc'eq
        refine ⟨?_, ?_, ?_⟩
        · intro x
          rw [hrem' x]
          constructor
          · rintro (hx | hx)
            · rcases List.mem_append.mp hx with hx | hx
              · exact Or.inl hx
              · rw [List.mem_singleton] at hx
                subst hx
                exact Or.inr ⟨List.mem_cons_self _ _, hcondj0⟩
            · exact Or.inr ⟨List.mem_cons_of_mem _ hx.1, hx.2⟩
          · rintro (hx | ⟨hxm, hxc⟩)
            · exact Or.inl (List.mem_append.mpr (Or.inl hx))
            · rcases List.mem_cons.mp hxm with he | hm
              · subst he
                exact Or.inl (List.mem_append.mpr
                  (Or.inr (List.mem_singleton.mpr rfl)))
              · exact Or.inr ⟨hm, hxc⟩
        · intro p
          rw [hch' p]
          constructor
          · rintro (hp | hp)
            · exact Or.inl hp
            · obtain ⟨j', hj1, hrest2⟩ := hp
              exact Or.inr ⟨j', List.mem_cons_of_mem _ hj1, hrest2⟩
          · rintro (hp | hp)
            · exact Or.inl hp
            · obtain ⟨j', hj', jn', f0', hjn', hf0', hf1'', ja', hop', hsh⟩ := hp
              rcases List.mem_cons.mp hj' with he | hm
              · subst he
                rw [hjn] at hjn'
                cases hjn'
                rw [hop] at hop'
                cases hop'
              · exact Or.inr ⟨j', hm, jn', f0', hjn', hf0', hf1'', ja', hop', hsh⟩
        · intro jq hjq hcondq
          rcases List.mem_cons.mp hjq with he | hm
          · subst he
            intro jnq f0q hjnq hf0q ja_q hopq
            rw [hjn] at hjnq
            cases hjnq
            rw [hop] at hopq
            cases hopq
          · exact hcomp' jq hm hcondq
      | SerializerOp =>
        rw [hop] at h4
        have hacc'eq : acc' = (acc.1 ++ [j0], acc.2) := by simpa using h4.symm
        subst hacc'eq
        refine ⟨?_, ?_, ?_⟩
        · intro x
          rw [hrem' x]
          constructor
          · rintro (hx | hx)
            · rcases List.mem_append.mp hx with hx | hx
              · exact Or.inl hx
              · rw [List.mem_singleton] at hx
                subst hx
                exact Or.inr ⟨List.mem_cons_self _ _, hcondj0⟩
            · exact Or.inr ⟨List.mem_cons_of_mem _ hx.1, hx.2⟩
          · rintro (hx | ⟨hxm, hxc⟩)
            · exact Or.inl (List.mem_append.mpr (Or.inl hx))
            · rcases List.mem_cons.mp hxm with he | hm
              · subst he
                exact Or.inl (List.mem_append.mpr
                  (Or.inr (List.mem_singleton.mpr rfl)))
              · exact Or.inr ⟨hm, hxc⟩
        · intro p
          rw [hch' p]
          constructor
          · rintro (hp | hp)
            · exact Or.inl hp
            · obtain ⟨j', hj1, hrest2⟩ := hp
              exact Or.inr ⟨j', List.mem_cons_of_mem _ hj1, hrest2⟩
          · rintro (hp | hp)
            · exact Or.inl hp
            · obtain ⟨j', hj', jn', f0', hjn', hf0', hf1'', ja', hop', hsh⟩ := hp
              rcases List.mem_cons.mp hj' with he | hm
              · subst he
                rw [hjn] at hjn'
                cases hjn'
                rw [hop] at hop'
                cases hop'
              · exact Or.inr ⟨j', hm, jn', f0', hjn', hf0', hf1'', ja', hop', hsh⟩
        · intro jq hjq hcondq
          rcases List.mem_cons.mp hjq with he | hm
          · subst he
            intro jnq f0q hjnq hf0q ja_q hopq
            rw [hjn] at hjnq
            cases hjnq
            rw [hop] at hopq
            cases hopq
          · exact hcomp' jq hm hcondq
    · rw [if_neg heq] at h4
      have hacc'eq : acc' = acc := by simpa using h4.symm
      subst hacc'eq
      have hnotcond : ¬ SelfJoinCond m j0 := by
        rintro ⟨jn', f0', hjn', hf0', hf1'⟩
        rw [hjn] at hjn'
        cases hjn'
        rw [hf0] at hf0'
        cases hf0'
        rw [hf1] at hf1'
        injection hf1' with hinj
        exact heq hinj.symm
      refine ⟨?_, ?_, ?_⟩
      · intro x
        rw [hrem' x]
        constructor
        · rintro (hx | hx)
          · exact Or.inl hx
          · exact Or.inr ⟨List.mem_cons_of_mem _ hx.1, hx.2⟩
        · rintro (hx | ⟨hxm, hxc⟩)
          · exact Or.inl hx
          · rcases List.mem_cons.mp hxm with he | hm
            · rw [he] at hxc
              exact absurd hxc hnotcond
            · exact Or.inr ⟨hm, hxc⟩
      · intro p
        rw [hch' p]
        constructor
        · rintro (hp | hp)
          · exact Or.inl hp
          · obtain ⟨j', hj1, hrest2⟩ := hp
            exact Or.inr ⟨j', List.mem_cons_of_mem _ hj1, hrest2⟩
        · rintro (hp | hp)
          · exact Or.inl hp
          · obtain ⟨j', hj', jn', f0', hjn', hf0', hf1'', ja', hop', hsh⟩ := hp
            rcases List.mem_cons.mp hj' with he | hm
            · rw [he] at hjn'
              exact absurd ⟨jn', f0', hjn', hf0', hf1''⟩ hnotcond
            · exact Or.inr ⟨j', hm, jn', f0', hjn', hf0', hf1'', ja', hop', hsh⟩
      · intro jq hjq hcondq
        rcases List.mem_cons.mp hjq with he | hm
        · rw [he] at hcondq
          exact absurd hcondq hnotcond
        · exact hcomp' jq hm hcondq

/-- Helper: folding the write-back inserts, looked up at a written key whose
entries all agree. -/
theorem applyInserts_key (k : Nat) (v : Node) :
    ∀ (ch : List (Nat × Node)) (m : NodeMap),
    (∀ q ∈ ch, q.1 = k → q.2 = v) →
    ((k, v) ∈ ch ∨ mapGet m k = some v) →
    mapGet (ch.foldl (fun mm p => mapInsert mm p.1 p.2) m) k = some v := by
  intro ch
  induction ch with
  | nil =>
    intro m _ h
    rcases h with h | h
    · cases h
    · simpa using h
  | cons q ch ih =>
    intro m huniq hmem
    rw [List.foldl_cons]
    by_cases hqk : q.1 = k
    · have hqv : q.2 = v := huniq q (List.mem_cons_self q ch) hqk
      refine ih _ (fun q' hq' => huniq q' (List.mem_cons_of_mem q hq')) (Or.inr ?_)
      rw [hqk, hqv, mapGet_insert_self]
    · rcases hmem with hmem | hmem
      · rcases List.mem_cons.mp hmem with he | hmem'
        · rw [← he] at hqk
          exact absurd rfl hqk
        · exact ih _ (fun q' hq' => huniq q' (List.mem_cons_of_mem q hq'))
            (Or.inl hmem')
      · refine ih _ (fun q' hq' => huniq q' (List.mem_cons_of_mem q hq')) (Or.inr ?_)
        rw [mapGet_insert_ne _ _ _ _ (fun h : k = q.1 => hqk h.symm)]
        exact hmem

/-- Helper: folding the write-back inserts leaves unwritten keys unchanged. -/
theorem applyInserts_other (k : Nat) :
    ∀ (ch : List (Nat × Node)) (m : NodeMap), (∀ q ∈ ch, q.1 ≠ k) →
    mapGet (ch.foldl (fun mm p => mapInsert mm p.1 p.2) m) k = mapGet m k := by
  intro ch
  induction ch with
  | nil =>
    intro m _
    rfl
  | cons q ch ih =>
    intro m hne
    rw [List.foldl_cons, ih _ (fun q' hq' => hne q' (List.mem_cons_of_mem q hq')),
      mapGet_insert_ne _ _ _ _
        (fun h : k = q.1 => hne q (List.mem_cons_self q ch) h.symm)]

/-- Helper: folding the removals erases every removed key. -/
theorem applyRemoves_mem (k : Nat) :
    ∀ (rem : List Nat) (m : NodeMap), k ∈ rem →
    mapGet (rem.foldl mapRemove m) k = none := by
  intro rem
  induction rem with
  | nil =>
    intro m h
    cases h
  | cons a rem ih =>
    intro m h
    rw [List.foldl_cons]
    by_cases hk : k ∈ rem
    · exact ih _ hk
    · have hka : k = a := by
        rcases List.mem_cons.mp h with he | hm
        · exact he
        · exact absurd hm hk
      refine foldl_inv (fun mm => mapGet mm k = none) _ rem _ ?_ ?_
      · rw [hka]
        exact mapGet_remove_self m a
      · intro b x _ hb
        exact mapGet_none_remove b x k hb

/-- Helper: folding the removals leaves unremoved keys unchanged. -/
theorem applyRemoves_other (k : Nat) :
    ∀ (rem : List Nat) (m : NodeMap), k ∉ rem →
    mapGet (rem.foldl mapRemove m) k = mapGet m k := by
  intro rem
  induction rem with
  | nil =>
    intro m _
    rfl
  | cons a rem ih =>
    intro m h
    rw [List.foldl_cons, ih _ (fun hm => h (List.mem_cons_of_mem a hm)),
      mapGet_remove_ne _ _ _ (fun he : k = a => h (he ▸ List.mem_cons_self a rem))]

/-- Helper: a true Join flag names a JoinOp. -/
theorem isJoin_spec (op : Operator) (h : op.isJoin = true) :
    ∃ ja, op = .JoinOp ja := by
  cases op <;> simp [Operator.isJoin] at h ⊢

/-- Helper: a self-join detected by pass 5 on a derived map unfolds to its
plan-level data and wellformedness facts. -/
theorem sjDerived (plan : PlanGraph) (m4 : NodeMap)
    (hjd : ∀ j ∈ join_indices plan, DerivedAt plan m4 j)
    (hW5 : W5Join plan)
    (j : Nat) (jn : Node) (f0 : Nat)
    (hj : j ∈ join_indices plan)
    (hjn : mapGet m4 j = some jn)
    (hf0 : jn.from_.get? 0 = some f0)
    (hf1 : jn.from_.get? 1 = some f0) :
    ∃ nj ja, plan.nodes.get? j = some nj ∧ nj.operator = .JoinOp ja ∧
      jn = derivedNode plan j nj ∧
      (∀ x ∈ edgeIns plan j, x = f0) ∧ f0 ∈ edgeIns plan j ∧
      selfJoinAt plan j = true ∧ f0 ∉ edgeOuts plan j ∧
      (∀ x ∈ edgeOuts plan j, plainAt plan x = true) ∧
      plainAt plan f0 = true ∧
      (∀ j' ∈ join_indices plan, j' ≠ j → selfJoinAt plan j' = true →
        (∀ a ∈ edgeIns plan j, ∀ b ∈ edgeIns plan j', a ≠ b) ∧
        (∀ a ∈ edgeIns plan j, a ∉ edgeOuts plan j') ∧
        (∀ a ∈ edgeIns plan j', a ∉ edgeOuts plan j) ∧
        (∀ a ∈ edgeOuts plan j, a ∉ edgeOuts plan j')) := by
  obtain ⟨nj, hnj, hisJ⟩ := (indices_mem_get plan j).2.2 hj
  obtain ⟨ja, hja⟩ := isJoin_spec nj.operator hisJ
  have hder := hjd j hj
  unfold DerivedAt at hder
  have hjn4 : mapGet m4 j = some (derivedNode plan j nj) := by
    rw [hder, hnj]
    rfl
  rw [hjn4] at hjn
  have hjnder : jn = derivedNode plan j nj := by
    injection hjn with h
    exact h.symm
  have hf0' : (edgeIns plan j).get? 0 = some f0 := by
    rw [hjnder] at hf0
    exact hf0
  have hf1' : (edgeIns plan j).get? 1 = some f0 := by
    rw [hjnder] at hf1
    exact hf1
  have hsja : selfJoinAt plan j = true := by
    unfold selfJoinAt
    rw [hf0', hf1']
    simp
  obtain ⟨hall, hinout, houtpl, hpair⟩ := (hW5 j hj).2 hsja
  have hUmem : f0 ∈ edgeIns plan j := List.get?_mem hf0'
  exact ⟨nj, ja, hnj, hja, hjnder, fun x hx => hall x hx f0 hUmem, hUmem, hsja,
    hinout f0 hUmem, houtpl, (hW5 j hj).1 f0 hUmem, hpair⟩

/-- Helper: pass 5 (self-join elimination) preserves edge symmetry under the
join wellformedness conditions, given all joins still hold their edge-derived
nodes. -/
theorem selfJoinPhase_sym (plan : PlanGraph) (m4 : NodeMap)
    (hSym : EdgeSym m4)
    (hjd : ∀ j ∈ join_indices plan, DerivedAt plan m4 j)
    (hW5 : W5Join plan)
    (rem : List Nat) (ch : List (Nat × Node))
    (hrun : selfJoinPass m4 (join_indices plan) = some (rem, ch)) :
    EdgeSym (applySelfJoin m4 rem ch) := by
  obtain ⟨hremiff0, hchiff0, hcomp⟩ :=
    sjFold_char m4 (join_indices plan) ([], []) (rem, ch) hrun
  have hremiff : ∀ x, x ∈ rem ↔
      (x ∈ join_indices plan ∧ SelfJoinCond m4 x) := by
    intro x
    have h := hremiff0 x
    simpa using h
  have hchiff : ∀ p, p ∈ ch ↔ SJEntry m4 (join_indices plan) p := by
    intro p
    have h := hchiff0 p
    simpa using h
  have hentry : ∀ p ∈ ch, ∃ j jn f0, j ∈ join_indices plan ∧
      mapGet m4 j = some jn ∧ jn.from_.get? 0 = some f0 ∧
      jn.from_.get? 1 = some f0 ∧
      ((∃ ja, jn.operator = .JoinOp ja ∧ p.1 ∈ jn.to_ ∧
          ∃ tn, mapGet m4 p.1 = some tn ∧
          p.2 = { tn.replace_from j f0 with join_alias := some ja }) ∨
        (p.1 = f0 ∧ ∃ fn, mapGet m4 f0 = some fn ∧
          p.2 = fn.change_to_ids jn.to_ j)) := by
    intro p hp
    obtain ⟨j, hj, jn, f0, hjn, hf0, hf1, ja, hop, hsh⟩ := (hchiff p).mp hp
    refine ⟨j, jn, f0, hj, hjn, hf0, hf1, ?_⟩
    rcases hsh with ⟨t, ht, tn, htn, hpe⟩ | ⟨fn, hfn, hpe⟩
    · left
      have h1 : p.1 = t := by rw [hpe]
      have h2 : p.2 = { tn.replace_from j f0 with join_alias := some ja } := by
        rw [hpe]
      refine ⟨ja, hop, ?_, tn, ?_, h2⟩
      · rw [h1]
        exact ht
      · rw [h1]
        exact htn
    · right
      have h1 : p.1 = f0 := by rw [hpe]
      have h2 : p.2 = fn.change_to_ids jn.to_ j := by rw [hpe]
      exact ⟨h1, fn, hfn, h2⟩
  have hchuniq : ∀ p ∈ ch, ∀ q ∈ ch, p.1 = q.1 → p.2 = q.2 := by
    intro p hp q hq hkey
    obtain ⟨j, jn, f0, hj, hjn, hf0, hf1, hshp⟩ := hentry p hp
    obtain ⟨j', jn', f0', hj', hjn', hf0', hf1', hshq⟩ := hentry q hq
    obtain ⟨nj, ja2, hnj, hja2, hjnder, hallj, hUmem, hsja, hinout, houtpl,
      hplf0, hpairj⟩ := sjDerived plan m4 hjd hW5 j jn f0 hj hjn hf0 hf1
    obtain ⟨nj', ja2', hnj', hja2', hjnder', hallj', hUmem', hsja', hinout',
      houtpl', hplf0', hpairj'⟩ :=
      sjDerived plan m4 hjd hW5 j' jn' f0' hj' hjn' hf0' hf1'
    by_cases hjj : j = j'
    · subst hjj
      rw [hjn] at hjn'
      have hjneq : jn' = jn := by
        injection hjn' with h
        exact h.symm
      subst hjneq
      rw [hf0] at hf0'
      have hf0eq : f0' = f0 := by
        injection hf0' with h
        exact h.symm
      subst hf0eq
      rcases hshp with ⟨ja, hja, hpt, tn, htn, hpv⟩ | ⟨hpU, fn, hfn, hpv⟩ <;>
        rcases hshq with ⟨jaq, hjaq, hqt, tnq, htnq, hqv⟩ | ⟨hqU, fnq, hfnq, hqv⟩
      · rw [hja] at hjaq
        have hjaeq : jaq = ja := by
          injection hjaq with h
          exact h.symm
        subst hjaeq
        rw [← hkey] at htnq
        rw [htn] at htnq
        have htneq : tnq = tn := by
          injection htnq with h
          exact h.symm
        subst htneq
        rw [hpv, hqv]
      · have hmem : p.1 ∈ edgeOuts plan j := by
          rw [hjnder] at hpt
          exact hpt
        rw [hkey, hqU] at hmem
        exact absurd hmem hinout
      · have hmem : q.1 ∈ edgeOuts plan j := by
          rw [hjnder] at hqt
          exact hqt
        rw [← hkey, hpU] at hmem
        exact absurd hmem hinout
      · rw [hfn] at hfnq
        have hfneq : fnq = fn := by
          injection hfnq with h
          exact h.symm
        subst hfneq
        rw [hpv, hqv]
    · obtain ⟨hne_ins, hins_nouts, hins'_nouts, houts_nouts⟩ :=
        hpairj j' hj' (fun h => hjj h.symm) hsja'
      rcases hshp with ⟨ja, hja, hpt, tn, htn, hpv⟩ | ⟨hpU, fn, hfn, hpv⟩ <;>
        rcases hshq with ⟨jaq, hjaq, hqt, tnq, htnq, hqv⟩ | ⟨hqU, fnq, hfnq, hqv⟩
      · have hmp : p.1 ∈ edgeOuts plan j := by
          rw [hjnder] at hpt
          exact hpt
        have hmq : q.1 ∈ edgeOuts plan j' := by
          rw [hjnder'] at hqt
          exact hqt
        rw [← hkey] at hmq
        exact absurd hmq (houts_nouts p.1 hmp)
      · have hmp : p.1 ∈ edgeOuts plan j := by
          rw [hjnder] at hpt
          exact hpt
        rw [hkey, hqU] at hmp
        exact absurd hmp (hins'_nouts f0' hUmem')
      · have hmq : q.1 ∈ edgeOuts plan j' := by
          rw [hjnder'] at hqt
          exact hqt
        rw [← hkey, hpU] at hmq
        exact absurd hmq (hins_nouts f0 hUmem)
      · have hne : f0 ≠ f0' := hne_ins f0 hUmem f0' hUmem'
        rw [hpU] at hkey
        rw [hqU] at hkey
        exact absurd hkey hne
  have hchplain : ∀ p ∈ ch, plainAt plan p.1 = true := by
    intro p hp
    obtain ⟨j, jn, f0, hj, hjn, hf0, hf1, hshp⟩ := hentry p hp
    obtain ⟨nj, ja2, hnj, hja2, hjnder, hallj, hUmem, hsja, hinout, houtpl,
      hplf0, hpairj⟩ := sjDerived plan m4 hjd hW5 j jn f0 hj hjn hf0 hf1
    rcases hshp with ⟨ja, hja, hpt, tn, htn, hpv⟩ | ⟨hpU, fn, hfn, hpv⟩
    · refine houtpl p.1 ?_
      rw [hjnder] at hpt
      exact hpt
    · rw [hpU]
      exact hplf0
  have hremdata : ∀ y ∈ rem, y ∈ join_indices plan ∧ SelfJoinCond m4 y :=
    fun y hy => (hremiff y).mp hy
  have hchnotrem : ∀ p ∈ ch, p.1 ∉ rem := by
    intro p hp hmem
    exact (plainAt_not_indices plan p.1 (hchplain p hp)).2.2 (hremdata p.1 hmem).1
  have hfin_rem : ∀ k ∈ rem, mapGet (applySelfJoin m4 rem ch) k = none := by
    intro k hk
    unfold applySelfJoin
    exact applyRemoves_mem k rem _ hk
  have hfin_entry : ∀ p ∈ ch, mapGet (applySelfJoin m4 rem ch) p.1 = some p.2 := by
    intro p hp
    unfold applySelfJoin
    rw [applyRemoves_other p.1 rem _ (hchnotrem p hp)]
    exact applyInserts_key p.1 p.2 ch m4
      (fun q hq hqk => hchuniq q hq p hp hqk) (Or.inl hp)
  have hfin_other : ∀ k, k ∉ rem → (∀ p ∈ ch, p.1 ≠ k) →
      mapGet (applySelfJoin m4 rem ch) k = mapGet m4 k := by
    intro k h1 h2
    unfold applySelfJoin
    rw [applyRemoves_other k rem _ h1, applyInserts_other k ch m4 h2]
  have htr_from : ∀ y ny, mapGet m4 y = some ny → y ∉ rem →
      ∀ x, x ∈ ny.from_ → (∀ jr ∈ rem, x ≠ jr) →
      ∃ ny', mapGet (applySelfJoin m4 rem ch) y = some ny' ∧ x ∈ ny'.from_ := by
    intro y ny hny hyrem x hx hxnr
    by_cases hye : ∃ p, p ∈ ch ∧ p.1 = y
    · obtain ⟨p, hp, hpy⟩ := hye
      refine ⟨p.2, by rw [← hpy]; exact hfin_entry p hp, ?_⟩
      obtain ⟨j, jn, f0, hj, hjn, hf0, hf1, hshp⟩ := hentry p hp
      have hjrem : j ∈ rem := (hremiff j).mpr ⟨hj, jn, f0, hjn, hf0, hf1⟩
      rcases hshp with ⟨ja, hja, hpt, tn, htn, hpv⟩ | ⟨hpU, fn, hfn, hpv⟩
      · rw [hpy] at htn
        rw [hny] at htn
        cases htn
        rw [hpv]
        show x ∈ ny.from_.map (fun i => if i = j then f0 else i)
        rw [mem_mapSubst]
        exact Or.inr ⟨hx, hxnr j hjrem⟩
      · have hfy : f0 = y := by rw [← hpU, hpy]
        rw [hfy, hny] at hfn
        cases hfn
        rw [hpv]
        exact hx
    · have hne : ∀ p ∈ ch, p.1 ≠ y := fun p hp he => hye ⟨p, hp, he⟩
      exact ⟨ny, by rw [hfin_other y hyrem hne]; exact hny, hx⟩
  have htr_to : ∀ y ny, mapGet m4 y = some ny → y ∉ rem →
      ∀ x, x ∈ ny.to_ → (∀ jr ∈ rem, x ≠ jr) →
      ∃ ny', mapGet (applySelfJoin m4 rem ch) y = some ny' ∧ x ∈ ny'.to_ := by
    intro y ny hny hyrem x hx hxnr
    by_cases hye : ∃ p, p ∈ ch ∧ p.1 = y
    · obtain ⟨p, hp, hpy⟩ := hye
      refine ⟨p.2, by rw [← hpy]; exact hfin_entry p hp, ?_⟩
      obtain ⟨j, jn, f0, hj, hjn, hf0, hf1, hshp⟩ := hentry p hp
      have hjrem : j ∈ rem := (hremiff j).mpr ⟨hj, jn, f0, hjn, hf0, hf1⟩
      rcases hshp with ⟨ja, hja, hpt, tn, htn, hpv⟩ | ⟨hpU, fn, hfn, hpv⟩
      · rw [hpy] at htn
        rw [hny] at htn
        cases htn
        rw [hpv]
        exact hx
      · have hfy : f0 = y := by rw [← hpU, hpy]
        rw [hfy, hny] at hfn
        cases hfn
        rw [hpv]
        show x ∈ ny.to_.filter (fun i => i ≠ j) ++ jn.to_
        exact List.mem_append.mpr
          (Or.inl ((mem_filterNe _ _ _).mpr ⟨hx, hxnr j hjrem⟩))
    · have hne : ∀ p ∈ ch, p.1 ≠ y := fun p hp he => hye ⟨p, hp, he⟩
      exact ⟨ny, by rw [hfin_other y hyrem hne]; exact hny, hx⟩
  have hentries_exist : ∀ j ∈ join_indices plan, ∀ jn f0,
      mapGet m4 j = some jn → jn.from_.get? 0 = some f0 →
      jn.from_.get? 1 = some f0 →
      (∀ t ∈ jn.to_, ∃ tn, mapGet m4 t = some tn ∧
        ∃ ja, jn.operator = .JoinOp ja ∧
        (t, { tn.replace_from j f0 with join_alias := some ja }) ∈ ch) ∧
      (∃ fn, mapGet m4 f0 = some fn ∧ (f0, fn.change_to_ids jn.to_ j) ∈ ch) := by
    intro j hj jn f0 hjn hf0 hf1
    obtain ⟨nj, ja, hnj, hja, hjnder, hallj, hUmem, hsja, hinoutj, houtplj,
      hplf0, hpairj⟩ := sjDerived plan m4 hjd hW5 j jn f0 hj hjn hf0 hf1
    have hopja : jn.operator = .JoinOp ja := by
      rw [hjnder]
      exact hja
    have hcompj := hcomp j hj ⟨jn, f0, hjn, hf0, hf1⟩ jn f0 hjn hf0 ja hopja
    constructor
    · intro t ht
      obtain ⟨tn, htn, hback⟩ := (hSym j jn hjn).1 t ht
      exact ⟨tn, htn, ja, hopja, hcompj.1 t ht tn htn⟩
    · have hf0mem : f0 ∈ jn.from_ := by
        rw [hjnder]
        exact hUmem
      obtain ⟨fn, hfn, hback⟩ := (hSym j jn hjn).2 f0 hf0mem
      exact ⟨fn, hfn, hcompj.2 fn hfn⟩
  intro x nx hx
  have hxrem : x ∉ rem := by
    intro hmem
    rw [hfin_rem x hmem] at hx
    cases hx
  have hxnr : ∀ jr ∈ rem, x ≠ jr := fun jr hjr he => hxrem (he ▸ hjr)
  by_cases hxe : ∃ p, p ∈ ch ∧ p.1 = x
  · obtain ⟨p, hp, hpx⟩ := hxe
    have hfx : mapGet (applySelfJoin m4 rem ch) x = some p.2 := by
      rw [← hpx]
      exact hfin_entry p hp
    rw [hfx] at hx
    have hnx : nx = p.2 := by
      injection hx with h
      exact h.symm
    subst hnx
    obtain ⟨j, jn, f0, hj, hjn, hf0, hf1, hshp⟩ := hentry p hp
    obtain ⟨nj, ja2, hnj, hja2, hjnder, hallj, hUmem, hsja, hinoutj, houtplj,
      hplf0, hpairj⟩ := sjDerived plan m4 hjd hW5 j jn f0 hj hjn hf0 hf1
    rcases hshp with ⟨ja, hja, hpt, tn, htn, hpv⟩ | ⟨hpU, fn, hfn, hpv⟩
    · rw [hpx] at htn hpt
      have hxout : x ∈ edgeOuts plan j := by
        rw [hjnder] at hpt
        exact hpt
      constructor
      · intro y hy
        rw [hpv] at hy
        have hy' : y ∈ tn.to_ := hy
        obtain ⟨ny, hny, hmem⟩ := (hSym x tn htn).1 y hy'
        have hyrem : y ∉ rem := by
          intro hyr
          obtain ⟨hyj, jny, f0y, hjny, hf0y, hf1y⟩ := hremdata y hyr
          have hnyeq : jny = ny := by
            rw [hny] at hjny
            injection hjny with h
            exact h.symm
          rw [hnyeq] at hf0y hf1y
          obtain ⟨njy, jay, hnjy, hjay, hyder, hally, hUymem, hsjay, hyinout,
            houtply, hplf0y, hypair⟩ :=
            sjDerived plan m4 hjd hW5 y ny f0y hyj hny hf0y hf1y
          have hxins : x ∈ edgeIns plan y := by
            rw [hyder] at hmem
            exact hmem
          by_cases hyj2 : y = j
          · rw [hyj2] at hxins
            have hxf : x = f0 := hallj x hxins
            rw [hxf] at hxout
            exact hinoutj hxout
          · obtain ⟨hne_ins, hins_nouts, hins'_nouts, houts_nouts⟩ :=
              hypair j hj (fun h => hyj2 h.symm) hsja
            exact (hins_nouts x hxins) hxout
        exact htr_from y ny hny hyrem x hmem hxnr
      · intro z hz
        rw [hpv] at hz
        have hz' : z ∈ tn.from_.map (fun i => if i = j then f0 else i) := hz
        rw [mem_mapSubst] at hz'
        rcases hz' with ⟨hjm, hzf0⟩ | ⟨hz1, hz2⟩
        · obtain ⟨fnU, hfnU, hUentry⟩ :=
            (hentries_exist j hj jn f0 hjn hf0 hf1).2
          refine ⟨fnU.change_to_ids jn.to_ j, ?_, ?_⟩
          · rw [hzf0]
            exact hfin_entry _ hUentry
          · show x ∈ fnU.to_.filter (fun i => i ≠ j) ++ jn.to_
            refine List.mem_append.mpr (Or.inr ?_)
            rw [hjnder]
            exact hxout
        · obtain ⟨nz, hnz, hmem⟩ := (hSym x tn htn).2 z hz1
          have hzrem : z ∉ rem := by
            intro hzr
            obtain ⟨hzj, jnz, f0z, hjnz, hf0z, hf1z⟩ := hremdata z hzr
            have hnzeq : jnz = nz := by
              rw [hnz] at hjnz
              injection hjnz with h
              exact h.symm
            rw [hnzeq] at hf0z hf1z
            obtain ⟨njz, jaz, hnjz, hjaz, hzder, hallz, hUzmem, hsjaz, hzinout,
              houtplz, hplf0z, hzpair⟩ :=
              sjDerived plan m4 hjd hW5 z nz f0z hzj hnz hf0z hf1z
            have hxoutz : x ∈ edgeOuts plan z := by
              rw [hzder] at hmem
              exact hmem
            by_cases hzj2 : z = j
            · exact hz2 hzj2
            · obtain ⟨hne_ins, hins_nouts, hins'_nouts, houts_nouts⟩ :=
                hzpair j hj (fun h => hzj2 h.symm) hsja
              exact (houts_nouts x hxoutz) hxout
          exact htr_to z nz hnz hzrem x hmem hxnr
    · have hxf0 : x = f0 := by
        rw [← hpx]
        exact hpU
      have hfnx : mapGet m4 x = some fn := by
        rw [hxf0]
        exact hfn
      constructor
      · intro y hy
        rw [hpv] at hy
        have hy' : y ∈ fn.to_.filter (fun i => i ≠ j) ++ jn.to_ := hy
        rcases List.mem_append.mp hy' with hy2 | hy2
        · obtain ⟨hy3, hy4⟩ := (mem_filterNe _ _ _).mp hy2
          obtain ⟨ny, hny, hmem⟩ := (hSym x fn hfnx).1 y hy3
          have hyrem : y ∉ rem := by
            intro hyr
            obtain ⟨hyj, jny, f0y, hjny, hf0y, hf1y⟩ := hremdata y hyr
            have hnyeq : jny = ny := by
              rw [hny] at hjny
              injection hjny with h
              exact h.symm
            rw [hnyeq] at hf0y hf1y
            obtain ⟨njy, jay, hnjy, hjay, hyder, hally, hUymem, hsjay, hyinout,
              houtply, hplf0y, hypair⟩ :=
              sjDerived plan m4 hjd hW5 y ny f0y hyj hny hf0y hf1y
            have hxins : x ∈ edgeIns plan y := by
              rw [hyder] at hmem
              exact hmem
            by_cases hyj2 : y = j
            · exact hy4 hyj2
            · obtain ⟨hne_ins, hins_nouts, hins'_nouts, houts_nouts⟩ :=
                hypair j hj (fun h => hyj2 h.symm) hsja
              refine hne_ins x hxins x ?_ rfl
              rw [hxf0]
              exact hUmem
          exact htr_from y ny hny hyrem x hmem hxnr
        · obtain ⟨tny, htny, jay, hopjay, hYentry⟩ :=
            (hentries_exist j hj jn f0 hjn hf0 hf1).1 y hy2
          refine ⟨{ tny.replace_from j f0 with join_alias := some jay }, ?_, ?_⟩
          · exact hfin_entry _ hYentry
          · show x ∈ tny.from_.map (fun i => if i = j then f0 else i)
            rw [mem_mapSubst]
            left
            obtain ⟨ny', hny', hjmem⟩ := (hSym j jn hjn).1 y hy2
            have hnyeq : ny' = tny := by
              rw [htny] at hny'
              injection hny' with h
              exact h.symm
            rw [hnyeq] at hjmem
            exact ⟨hjmem, hxf0⟩
      · intro z hz
        rw [hpv] at hz
        have hz' : z ∈ fn.from_ := hz
        obtain ⟨nz, hnz, hmem⟩ := (hSym x fn hfnx).2 z hz'
        have hzrem : z ∉ rem := by
          intro hzr
          obtain ⟨hzj, jnz, f0z, hjnz, hf0z, hf1z⟩ := hremdata z hzr
          have hnzeq : jnz = nz := by
            rw [hnz] at hjnz
            injection hjnz with h
            exact h.symm
          rw [hnzeq] at hf0z hf1z
          obtain ⟨njz, jaz, hnjz, hjaz, hzder, hallz, hUzmem, hsjaz, hzinout,
            houtplz, hplf0z, hzpair⟩ :=
            sjDerived plan m4 hjd hW5 z nz f0z hzj hnz hf0z hf1z
          have hxoutz : x ∈ edgeOuts plan z := by
            rw [hzder] at hmem
            exact hmem
          by_cases hzj2 : z = j
          · rw [hzj2] at hxoutz
            rw [hxf0] at hxoutz
            exact hinoutj hxoutz
          · obtain ⟨hne_ins, hins_nouts, hins'_nouts, houts_nouts⟩ :=
              hzpair j hj (fun h => hzj2 h.symm) hsja
            refine (hins'_nouts f0 hUmem) ?_
            rw [← hxf0]
            exact hxoutz
        exact htr_to z nz hnz hzrem x hmem hxnr
  · have hne : ∀ p ∈ ch, p.1 ≠ x := fun p hp he => hxe ⟨p, hp, he⟩
    have hfx : mapGet (applySelfJoin m4 rem ch) x = mapGet m4 x :=
      hfin_other x hxrem hne
    rw [hfx] at hx
    constructor
    · intro y hy
      obtain ⟨ny, hny, hmem⟩ := (hSym x nx hx).1 y hy
      have hyrem : y ∉ rem := by
        intro hyr
        obtain ⟨hyj, jny, f0y, hjny, hf0y, hf1y⟩ := hremdata y hyr
        have hnyeq : jny = ny := by
          rw [hny] at hjny
          injection hjny with h
          exact h.symm
        rw [hnyeq] at hf0y hf1y
        obtain ⟨njy, jay, hnjy, hjay, hyder, hally, hUymem, hsjay, hyinout,
          houtply, hplf0y, hypair⟩ :=
          sjDerived plan m4 hjd hW5 y ny f0y hyj hny hf0y hf1y
        have hxins : x ∈ edgeIns plan y := by
          rw [hyder] at hmem
          exact hmem
        have hxf0y : x = f0y := hally x hxins
        obtain ⟨fnY, hfnY, hYent⟩ :=
          (hentries_exist y hyj ny f0y hny hf0y hf1y).2
        exact (hne _ hYent) hxf0y.symm
      exact htr_from y ny hny hyrem x hmem hxnr
    · intro z hz
      obtain ⟨nz, hnz, hmem⟩ := (hSym x nx hx).2 z hz
      have hzrem : z ∉ rem := by
        intro hzr
        obtain ⟨hzj, jnz, f0z, hjnz, hf0z, hf1z⟩ := hremdata z hzr
        have hnzeq : jnz = nz := by
          rw [hnz] at hjnz
          injection hjnz with h
          exact h.symm
        rw [hnzeq] at hf0z hf1z
        obtain ⟨htents, hUent⟩ := hentries_exist z hzj nz f0z hnz hf0z hf1z
        obtain ⟨tnx, htnx, jaz, hopz, hXent⟩ := htents x hmem
        exact (hne _ hXent) rfl
      exact htr_to z nz hnz hzrem x hmem hxnr

/-- C1, amended. For every wellformed plan graph (no pre-set node edges, no
mergeable I/O bucket, single-origin Fragmenters and Projections with plain
neighbours, plain join upstreams, and self-joins whose upstream and
downstream ids are plain, non-overlapping and not shared with other
self-joins), when `rewrite` returns a node map, edge symmetry holds in it:
for every node x and every id y in x.to, node y exists with x in y.from, and
conversely for every id z in x.from, node z exists with x in z.to. -/
theorem claim_C1_amended (plan : PlanGraph) (b : Bool) (m : NodeMap)
    (hWF : WellFormedPlan plan b) (hrun : rewrite plan b = some m) :
    EdgeSym m := by
  obtain ⟨hW1, hW2, hW3, hW4, hW5⟩ := hWF
  unfold rewrite at hrun
  simp only [Option.bind_eq_bind] at hrun
  obtain ⟨m1, h1, hrun2⟩ := Option.bind_eq_some.mp hrun
  obtain ⟨mc, h2, hrun3⟩ := Option.bind_eq_some.mp hrun2
  obtain ⟨m3, h3, hrun4⟩ := Option.bind_eq_some.mp hrun3
  obtain ⟨m4, h4, hrun5⟩ := Option.bind_eq_some.mp hrun4
  obtain ⟨jc, h5, hrun6⟩ := Option.bind_eq_some.mp hrun5
  have hm : m = applySelfJoin m4 jc.1 jc.2 := by
    simpa using hrun6.symm
  subst hm
  obtain ⟨hm1char, hm1sym⟩ := installEdges_derived plan hW1 m1 h1
  have hmc : mc = ([], []) := by
    rw [mergePass_inert m1 (ioBuckets plan b) hW2] at h2
    injection h2 with h
    exact h.symm
  subst hmc
  have hallder : ∀ k, DerivedAt plan m1 k := fun k => hm1char k
  obtain ⟨hsym3, hproj3, hjoin3⟩ := fragmentFold_sym plan hW3
    (fragment_indices plan) (fun f hf => hf) (indices_nodup plan).1 m1 hm1sym
    (fun f _ => hallder f) (fun p _ => hallder p) (fun j _ => hallder j) m3 h3
  obtain ⟨hsym4, hjoin4⟩ := projectionFold_sym plan hW4
    (projection_indices plan) (fun p hp => hp) (indices_nodup plan).2.1 m3
    hsym3 hproj3 hjoin3 m4 h4
  obtain ⟨rem0, ch0⟩ := jc
  exact selfJoinPhase_sym plan m4 hsym4 hjoin4 hW5 rem0 ch0 h5

/-- C1, witness: a wellformed Source → Extend → self-Join → Serializer →
Target plan; `rewrite` elides the self-join and the result is
edge-symmetric. -/
theorem claim_C1_witness :
    EdgeSym [(0, ⟨"s", .SourceOp 5, [], [1], none, none⟩),
      (1, ⟨"e", .ExtendOp, [0], [3], none, none⟩),
      (3, ⟨"z", .SerializerOp, [1], [4], none, some "j"⟩),
      (4, ⟨"t", .TargetOp 7, [3], [], none, none⟩)] :=
  claim_C1_amended
    ⟨[⟨"s", .SourceOp 5, [], [], none, none⟩,
      ⟨"e", .ExtendOp, [], [], none, none⟩,
      ⟨"J", .JoinOp "j", [], [], none, none⟩,
      ⟨"z", .SerializerOp, [], [], none, none⟩,
      ⟨"t", .TargetOp 7, [], [], none, none⟩],
     [(0, 1), (1, 2), (1, 2), (2, 3), (3, 4)]⟩ false
    [(0, ⟨"s", .SourceOp 5, [], [1], none, none⟩),
      (1, ⟨"e", .ExtendOp, [0], [3], none, none⟩),
      (3, ⟨"z", .SerializerOp, [1], [4], none, some "j"⟩),
      (4, ⟨"t", .TargetOp 7, [3], [], none, none⟩)]
    (by decide) (by decide)

/-- C3, counterexample. With join pairs [("a","b"),("c","d")], a left header
carrying only attribute "a" and a right header carrying both "b" and "d",
the same left and right histories produce different output multisets under
two interleavings: left-probing checks only one attribute position while
right-probing requires both, so the pair matches only when the left data
tuple arrives last. -/
theorem claim_C3_counterexample :
    Interleave [["L", "a"], ["L", "1"]] [["R", "b", "d"], ["R", "1", "2"]]
      [["L", "a"], ["R", "b", "d"], ["L", "1"], ["R", "1", "2"]] ∧
    Interleave [["L", "a"], ["L", "1"]] [["R", "b", "d"], ["R", "1", "2"]]
      [["L", "a"], ["R", "b", "d"], ["R", "1", "2"], ["L", "1"]] ∧
    (joinRun ⟨"J", "L", "R", [("a", "b"), ("c", "d")], "r_"⟩
      [["L", "a"], ["R", "b", "d"], ["L", "1"], ["R", "1", "2"]]).map Prod.snd =
      some [["J", "a", "r_b", "r_d"]] ∧
    (joinRun ⟨"J", "L", "R", [("a", "b"), ("c", "d")], "r_"⟩
      [["L", "a"], ["R", "b", "d"], ["R", "1", "2"], ["L", "1"]]).map Prod.snd =
      some [["J", "a", "r_b", "r_d"], ["J", "1", "1", "2"]] ∧
    (Multiset.ofList [(["J", "a", "r_b", "r_d"] : List String)] ≠
      Multiset.ofList [["J", "a", "r_b", "r_d"], ["J", "1", "1", "2"]]) := by
  refine ⟨?_, ?_, by decide, by decide, by decide⟩
  · exact .left (.right (.left (.right .nil)))
  · exact .left (.right (.right (.left .nil)))

/-- Helper: filtering after a map is mapping after a composed filter. -/
theorem map_filter_comm {α β : Type} (f : α → β) (q : β → Bool) :
    ∀ l : List α, (l.map f).filter q = (l.filter (fun a => q (f a))).map f := by
  intro l
  induction l with
  | nil => rfl
  | cons a l ih =>
    cases hq : q (f a) with
    | true => simp [List.filter_cons, hq, ih]
    | false => simp [List.filter_cons, hq, ih]

/-- Helper: header positions are duplicate-free. -/
theorem joinPositions_nodup (attrs header : List String) :
    (joinPositions attrs header).Nodup := by
  have hbase : (header.enum.map Prod.fst).Nodup := by
    rw [List.enum_map_fst]
    exact List.nodup_range _
  exact List.Nodup.sublist
    (List.Sublist.map _ (List.filter_sublist header.enum)) hbase

/-- Helper: header positions are bounded by the header length. -/
theorem joinPositions_lt (attrs header : List String) :
    ∀ p ∈ joinPositions attrs header, p < header.length := by
  intro p hp
  obtain ⟨q, hq, hqp⟩ := List.mem_map.mp hp
  have hmem := (List.mem_filter.mp hq).1
  have hget := List.mem_enum_iff_get?.mp hmem
  obtain ⟨hlt, -⟩ := List.get?_eq_some.mp hget
  rw [← hqp]
  exact hlt

/-- Helper: with duplicate-free in-bounds positions, a row contributes one
join attribute value per position. -/
theorem joinAttrValues_length (pos : List Nat) (data : List String)
    (hnd : pos.Nodup) (hlt : ∀ p ∈ pos, p < data.length) :
    (joinAttrValues pos data).length = pos.length := by
  unfold joinAttrValues
  rw [List.length_map]
  have h1 : (data.enum.filter (fun p => p.1 ∈ pos)).length =
      ((data.enum.map Prod.fst).filter (fun i => i ∈ pos)).length := by
    rw [map_filter_comm, List.length_map]
  rw [h1, List.enum_map_fst]
  have hperm : ((List.range data.length).filter (fun i => i ∈ pos)).Perm pos := by
    apply (List.perm_ext_iff_of_nodup ?_ hnd).mpr
    · intro i
      rw [List.mem_filter]
      constructor
      · intro h
        simpa using h.2
      · intro h
        exact ⟨List.mem_range.mpr (hlt i h), by simpa using h⟩
    · exact List.Nodup.filter _ (List.nodup_range _)
  exact hperm.length_eq

/-- Helper: the index update loop of `add`, characterized: with no more
values than maps, the i-th map receives the i-th value. -/
theorem updateIndices_ok :
    ∀ (vs : List String) (maps : List (List (String × List Nat))) (row : Nat),
    vs.length ≤ maps.length →
    ∃ maps', updateIndices maps vs row = some maps' ∧
      maps'.length = maps.length ∧
      ∀ i, maps'.get? i = match vs.get? i with
        | some v => (maps.get? i).map (fun m => idxPush m v row)
        | none => maps.get? i := by
  intro vs
  induction vs with
  | nil =>
    intro maps row _
    exact ⟨maps, by cases maps <;> rfl, rfl, fun i => by simp⟩
  | cons v vs ih =>
    intro maps row hle
    cases maps with
    | nil => simp at hle
    | cons m maps =>
      obtain ⟨rest, hrest, hlen, hget⟩ := ih maps row
        (by simpa using Nat.le_of_succ_le_succ hle)
      refine ⟨idxPush m v row :: rest, ?_, by simp [hlen], ?_⟩
      · show (updateIndices maps vs row).map _ = _
        rw [hrest]
        rfl
      · intro i
        cases i with
        | zero => simp
        | succ i => simpa using hget i

/-- Helper: lookup after the map update of `add`. -/
theorem idxLookup_push (m : List (String × List Nat)) (k : String) (row : Nat)
    (v : String) :
    idxLookup (idxPush m k row) v =
      if v = k then some (((idxLookup m k).getD []) ++ [row])
      else idxLookup m v := by
  unfold idxPush
  by_cases hany : m.any (fun p => p.1 == k)
  · rw [if_pos hany]
    show idxLookup _ _ = _
    unfold idxLookup
    rw [List.find?_map]
    have hpred : ((fun p : String × List Nat => p.1 == v) ∘
        (fun p : String × List Nat =>
          if (p.1 == k) = true then (p.1, p.2 ++ [row]) else p)) =
        (fun p : String × List Nat => p.1 == v) := by
      funext p
      by_cases hp : p.1 = k
      · simp [hp]
      · simp [hp]
    rw [hpred]
    by_cases hvk : v = k
    · subst hvk
      rw [if_pos rfl]
      have hsome : (m.find? (fun p => p.1 == v)).isSome := by
        rw [List.find?_isSome]
        exact List.any_eq_true.mp hany
      obtain ⟨p0, hp0⟩ := Option.isSome_iff_exists.mp hsome
      have hp0k := List.find?_some hp0
      rw [hp0]
      have hp0veq : p0.1 = v := by simpa using hp0k
      simp [hp0veq]
    · rw [if_neg hvk]
      cases hfind : m.find? (fun p => p.1 == v) with
      | none => rfl
      | some p0 =>
        have hp0v := List.find?_some hfind
        have hp0veq : p0.1 = v := by simpa using hp0v
        have hp0k : ¬ (p0.1 = k) := by
          rw [hp0veq]
          exact hvk
        simp [hp0k]
  · rw [if_neg hany]
    show idxLookup _ _ = _
    unfold idxLookup
    rw [List.find?_append]
    have hnone : m.find? (fun p : String × List Nat => p.1 == k) = none := by
      rw [List.find?_eq_none]
      intro p hp hpk
      exact hany (List.any_eq_true.mpr ⟨p, hp, hpk⟩)
    by_cases hvk : v = k
    · subst hvk
      rw [hnone]
      simp
    · have hkv : ¬ (k = v) := fun h => hvk h.symm
      rw [if_neg hvk]
      cases hfind : m.find? (fun p : String × List Nat => p.1 == v) with
      | none => simp [hkv]
      | some p0 => rfl

/-- A freshly initialized `JoinData` with positions installed satisfies the
invariant for the empty row list. -/
theorem JDOK_new (n : Nat) (pos : List Nat) :
    JDOK n pos ((JoinData.new n).set_join_attribute_positions pos) [] := by
  refine ⟨by simp [JoinData.new, JoinData.set_join_attribute_positions], rfl,
    by simp [JoinData.new, JoinData.set_join_attribute_positions], ?_⟩
  intro i im hmem v
  have him : im = [] := by
    have hm : im ∈ List.replicate n ([] : List (String × List Nat)) :=
      List.get?_mem hmem
    exact List.eq_of_mem_replicate hm
  rw [him]
  simp [idxLookup, specIdx]

/-- Appending one row extends exactly the spec lists of its own join
attribute values, with the new row number. -/
theorem specIdx_append (pos : List Nat) (rows : List (List String))
    (row : List String) (i : Nat) (v : String) :
    specIdx pos (rows ++ [row]) i v =
      if (joinAttrValues pos row).get? i = some v
      then specIdx pos rows i v ++ [rows.length]
      else specIdx pos rows i v := by
  unfold specIdx
  rw [List.enum_append]
  have hsingle : List.enumFrom rows.length [row] = [(rows.length, row)] := rfl
  rw [hsingle, List.filter_append, List.map_append]
  by_cases hv : (joinAttrValues pos row).get? i = some v
  · have hv2 : (joinAttrValues pos row)[i]? = some v := by
      rw [← List.get?_eq_getElem?]
      exact hv
    rw [if_pos hv]
    congr 1
    simp [hv2]
  · have hv2 : ¬ ((joinAttrValues pos row)[i]? = some v) := by
      rw [← List.get?_eq_getElem?]
      exact hv
    rw [if_neg hv]
    have hnil : List.filter
        (fun p : Nat × List String =>
          decide ((joinAttrValues pos p.2).get? i = some v))
        [(rows.length, row)] = [] := by
      simp [hv2]
    rw [hnil]
    simp

/-- `JoinData::add` under the invariant: it succeeds, returns the row's join
attribute values, and re-establishes the invariant with the row appended. -/
theorem JDOK_add {n : Nat} {pos : List Nat} {jd : JoinData}
    {rows : List (List String)}
    (hok : JDOK n pos jd rows) (row : List String)
    (hlen : (joinAttrValues pos row).length ≤ n) :
    ∃ jd', jd.add row = some (jd', joinAttrValues pos row) ∧
      JDOK n pos jd' (rows ++ [row]) := by
  obtain ⟨hpos, hdata, hmaps, hlook⟩ := hok
  obtain ⟨maps', hupd, hmlen, hget⟩ := updateIndices_ok (joinAttrValues pos row)
    jd.join_attr_indices jd.data.length (by rw [hmaps]; exact hlen)
  refine ⟨{ jd with data := jd.data ++ [row], join_attr_indices := maps' },
    ?_, hpos, by rw [hdata], hmlen.trans hmaps, ?_⟩
  · unfold JoinData.add
    rw [hpos]
    simp only [hupd]
    rfl
  · intro i im' hmem v
    have hgi := hget i
    cases hvs : (joinAttrValues pos row).get? i with
    | none =>
      rw [hvs] at hgi
      have hgi2 : maps'.get? i = jd.join_attr_indices.get? i := hgi
      have hmem2 : jd.join_attr_indices.get? i = some im' := by
        rw [← hgi2]
        exact hmem
      have hold := hlook i im' hmem2 v
      have hcond : ¬ ((joinAttrValues pos row).get? i = some v) := by
        rw [hvs]
        exact fun h => Option.noConfusion h
      show idxLookup im' v = _
      rw [specIdx_append, if_neg hcond]
      exact hold
    | some v0 =>
      rw [hvs] at hgi
      have hgi2 : maps'.get? i =
          (jd.join_attr_indices.get? i).map
            (fun m => idxPush m v0 jd.data.length) := hgi
      have hmem2 : maps'.get? i = some im' := hmem
      rw [hgi2] at hmem2
      cases hold0 : jd.join_attr_indices.get? i with
      | none =>
        rw [hold0] at hmem2
        exact Option.noConfusion hmem2
      | some im =>
        rw [hold0] at hmem2
        have him' : idxPush im v0 jd.data.length = im' := by
          simpa using hmem2
        have hspec := hlook i im hold0
        show idxLookup im' v = _
        rw [← him', idxLookup_push, hdata, specIdx_append]
        by_cases hv : v = v0
        · rw [if_pos hv,
            if_pos (show (joinAttrValues pos row).get? i = some v by
              rw [hvs, hv]), hspec, ← hv]
          cases hemp : (specIdx pos rows i v).isEmpty with
          | true =>
            have hnl : specIdx pos rows i v = [] := by
              cases hsl : specIdx pos rows i v with
              | nil => rfl
              | cons a l => rw [hsl] at hemp; exact Bool.noConfusion hemp
            rw [hnl]
            simp [List.isEmpty_iff]
          | false =>
            simp [List.isEmpty_iff]
        · rw [if_neg hv,
            if_neg (show ¬ ((joinAttrValues pos row).get? i = some v) by
              rw [hvs]
              exact fun h => hv (Option.some.inj h).symm)]
          exact hspec v

/-- Membership in a spec list: exactly the row numbers whose stored row has
the value as i-th join attribute value. -/
theorem mem_specIdx {pos : List Nat} {rows : List (List String)} {i : Nat}
    {v : String} {i0 : Nat} :
    i0 ∈ specIdx pos rows i v ↔
      ∃ row, rows.get? i0 = some row ∧
        (joinAttrValues pos row).get? i = some v := by
  unfold specIdx
  rw [List.mem_map]
  constructor
  · rintro ⟨p, hp, hfst⟩
    obtain ⟨hmem, hval⟩ := List.mem_filter.mp hp
    refine ⟨p.2, ?_, by simpa using hval⟩
    rw [← hfst]
    exact List.mem_enum_iff_get?.mp hmem
  · rintro ⟨row, hrow, hval⟩
    exact ⟨(i0, row), List.mem_filter.mpr
      ⟨List.mem_enum_iff_get?.mpr hrow, by simpa using hval⟩, rfl⟩

/-- The probe loop of `return_values_if_match`, characterized against the
index invariant: with all probed positions in range it never panics; it
reports no-match exactly when some probed value has an empty spec list, and
otherwise returns the spec lists in order. -/
theorem rvLoop_char {n : Nat} {pos : List Nat} {rows : List (List String)}
    (maps : List (List (String × List Nat)))
    (hmlen : maps.length = n)
    (hlook : ∀ i im, maps.get? i = some im → ∀ v,
      idxLookup im v = if (specIdx pos rows i v).isEmpty then none
        else some (specIdx pos rows i v)) :
    ∀ (pairs : List (Nat × String)), (∀ pv ∈ pairs, pv.1 < n) →
    ∃ out, rvLoop maps pairs = some out ∧
      ((out = none ∧ ∃ pv ∈ pairs, specIdx pos rows pv.1 pv.2 = []) ∨
       (∃ lss, out = some lss ∧ lss.length = pairs.length ∧
         (∀ j pv, pairs.get? j = some pv →
           lss.get? j = some (specIdx pos rows pv.1 pv.2)) ∧
         ∀ pv ∈ pairs, specIdx pos rows pv.1 pv.2 ≠ [])) := by
  intro pairs
  induction pairs with
  | nil =>
    intro _
    refine ⟨some [], rfl, Or.inr ⟨[], rfl, rfl, ?_, ?_⟩⟩
    · intro j pv hj
      simp at hj
    · intro pv hpv
      exact absurd hpv (List.not_mem_nil pv)
  | cons pv rest ih =>
    intro hlt
    have hpv1 : pv.1 < maps.length := by
      rw [hmlen]
      exact hlt pv (List.mem_cons_self pv rest)
    obtain ⟨im, him⟩ : ∃ im, maps.get? pv.1 = some im := by
      cases hm : maps.get? pv.1 with
      | none =>
        rw [List.get?_eq_none] at hm
        omega
      | some im => exact ⟨im, rfl⟩
    have hlk := hlook pv.1 im him pv.2
    obtain ⟨out', hout', hcases⟩ := ih (fun q hq => hlt q (List.mem_cons_of_mem pv hq))
    cases hemp : (specIdx pos rows pv.1 pv.2).isEmpty with
    | true =>
      rw [hemp, if_pos rfl] at hlk
      refine ⟨none, ?_, Or.inl ⟨rfl, pv, List.mem_cons_self pv rest,
        List.isEmpty_iff.mp hemp⟩⟩
      show (maps.get? pv.1).bind _ = some none
      rw [him]
      show (match idxLookup im pv.2 with
        | some dis => (rvLoop maps rest).map
            (fun inner => inner.map (fun l => dis :: l))
        | none => some none) = some none
      rw [hlk]
    | false =>
      rw [hemp] at hlk
      rw [if_neg (fun h => Bool.noConfusion h)] at hlk
      have hrun : rvLoop maps (pv :: rest) = (rvLoop maps rest).map
          (fun inner => inner.map (fun l => specIdx pos rows pv.1 pv.2 :: l)) := by
        show (maps.get? pv.1).bind _ = _
        rw [him]
        show (match idxLookup im pv.2 with
          | some dis => (rvLoop maps rest).map
              (fun inner : Option (List (List Nat)) =>
                inner.map (fun l => dis :: l))
          | none => some none) = _
        rw [hlk]
      rcases hcases with ⟨hnone, pv', hpv', hspec'⟩ | ⟨lss, hlss, hlen, hget, hne⟩
      · refine ⟨none, ?_, Or.inl ⟨rfl, pv', List.mem_cons_of_mem pv hpv', hspec'⟩⟩
        rw [hrun, hout', hnone]
        rfl
      · refine ⟨some (specIdx pos rows pv.1 pv.2 :: lss), ?_,
          Or.inr ⟨specIdx pos rows pv.1 pv.2 :: lss, rfl, by simp [hlen], ?_, ?_⟩⟩
        · rw [hrun, hout', hlss]
          rfl
        · intro j q hj
          cases j with
          | zero =>
            have hq : pv = q := by simpa using hj
            rw [← hq]
            rfl
          | succ j =>
            have hj' : rest.get? j = some q := by simpa using hj
            have := hget j q hj'
            simpa using this
        · intro q hq
          rcases List.mem_cons.mp hq with hq | hq
          · rw [hq]
            exact fun h => by rw [h] at hemp; exact Bool.noConfusion hemp
          · exact hne q hq

/-- The sequential intersection of `return_values_if_match` is a filter by
membership in every remaining list. -/
theorem foldl_inter (rest : List (List Nat)) :
    ∀ first : List Nat,
    rest.foldl (fun res dis => res.filter (fun i => i ∈ dis)) first =
      first.filter (fun i => rest.all (fun dis => decide (i ∈ dis))) := by
  induction rest with
  | nil =>
    intro first
    simp
  | cons d rest ih =>
    intro first
    rw [List.foldl_cons, ih, List.filter_filter]
    apply List.filter_congr
    intro x _
    simp [List.all_cons, Bool.and_comm]

/-- Mapping the stored-row getter over in-range row numbers recovers the
filtered rows. -/
theorem mapM_get_enumFrom (q : List String → Bool) (full : List (List String)) :
    ∀ (l : List (List String)) (s : Nat),
    (∀ j x, l.get? j = some x → full.get? (s + j) = some x) →
    ((((l.enumFrom s).filter (fun p => q p.2)).map (fun p => p.1)).mapM
      (fun i => full.get? i)) = some (l.filter q) := by
  intro l
  induction l with
  | nil =>
    intro s _
    rfl
  | cons x l ih =>
    intro s hs
    have hx : full.get? s = some x := by
      have := hs 0 x (by simp)
      simpa using this
    have hrest : ∀ j y, l.get? j = some y → full.get? (s + 1 + j) = some y := by
      intro j y hy
      have := hs (j + 1) y (by simpa using hy)
      rw [show s + (j + 1) = s + 1 + j by omega] at this
      exact this
    show ((((s, x) :: l.enumFrom (s + 1)).filter (fun p => q p.2)).map
      (fun p => p.1)).mapM (fun i => full.get? i) = some ((x :: l).filter q)
    rw [List.filter_cons]
    cases hqx : q x with
    | true =>
      rw [if_pos (by simp [hqx]), List.map_cons, List.mapM_cons, hx,
        ih (s + 1) hrest]
      show some (x :: l.filter q) = some ((x :: l).filter q)
      rw [List.filter_cons, if_pos (by simp [hqx])]
    | false =>
      rw [if_neg (by simp [hqx]), ih (s + 1) hrest]
      show some (l.filter q) = some ((x :: l).filter q)
      rw [List.filter_cons, if_neg (by simp [hqx])]

/-- The values of a filtered enumeration are the filtered values. -/
theorem enumFrom_filter_snd {α : Type} (q : α → Bool) :
    ∀ (l : List α) (s : Nat),
    ((l.enumFrom s).filter (fun p => q p.2)).map (fun p => p.2) = l.filter q := by
  intro l
  induction l with
  | nil => intro s; rfl
  | cons x l ih =>
    intro s
    show (((s, x) :: l.enumFrom (s + 1)).filter (fun p => q p.2)).map
      (fun p => p.2) = (x :: l).filter q
    rw [List.filter_cons, List.filter_cons]
    cases hqx : q x with
    | true => rw [if_pos (by simp [hqx]), if_pos (by simp [hqx]),
        List.map_cons, ih]
    | false => rw [if_neg (by simp [hqx]), if_neg (by simp [hqx]), ih]

/-- `return_values_if_match` under the index invariant: with at least one
join attribute, no more attributes than maps, and full-length stored rows,
the probe never panics and returns exactly the stored rows whose join
attribute values equal the probed values (inner `none` when there are none). -/
theorem return_values_char {n : Nat} {posO : List Nat} {other : JoinData}
    {rowsO : List (List String)}
    (hok : JDOK n posO other rowsO) (vs : List String)
    (hkpos : 0 < vs.length) (hkle : vs.length ≤ n)
    (hrows : ∀ r ∈ rowsO, (joinAttrValues posO r).length = vs.length) :
    other.return_values_if_match vs =
      some (if (rowsO.filter (fun r => joinAttrValues posO r = vs)).isEmpty
        then none
        else some (rowsO.filter (fun r => joinAttrValues posO r = vs))) := by
  obtain ⟨hpos, hdata, hmlen, hlook⟩ := hok
  have hlt : ∀ pv ∈ vs.enum, pv.1 < n := by
    intro pv hpv
    have hg := List.mem_enum_iff_get?.mp hpv
    have h1 := (List.get?_eq_some.mp hg).1
    omega
  obtain ⟨out, hloop, hcases⟩ :=
    rvLoop_char other.join_attr_indices hmlen hlook vs.enum hlt
  unfold JoinData.return_values_if_match
  rw [hloop]
  simp only [Option.bind_eq_bind, Option.some_bind]
  rcases hcases with ⟨hout, pv, hpv, hspec⟩ | ⟨lss, hout, hlen, hget, hne⟩
  · rw [hout]
    show (some none : Option (Option (List (List String)))) = _
    have hfilt : rowsO.filter (fun r => joinAttrValues posO r = vs) = [] := by
      rw [List.filter_eq_nil]
      intro r hr hdec
      have hmatch : joinAttrValues posO r = vs := of_decide_eq_true hdec
      have hvget : vs.get? pv.1 = some pv.2 := List.mem_enum_iff_get?.mp hpv
      obtain ⟨i0, hi0⟩ := List.mem_iff_get?.mp hr
      have hmm : i0 ∈ specIdx posO rowsO pv.1 pv.2 :=
        mem_specIdx.mpr ⟨r, hi0, by rw [hmatch]; exact hvget⟩
      rw [hspec] at hmm
      exact absurd hmm (List.not_mem_nil i0)
    rw [hfilt]
    simp
  · rw [hout]
    have hlen2 : lss.length = vs.length := by
      rw [hlen, List.enum_length]
    cases lss with
    | nil =>
      rw [List.length_nil] at hlen2
      omega
    | cons first rest =>
    obtain ⟨v0, hv0⟩ : ∃ v0, vs.get? 0 = some v0 := by
      cases hv : vs.get? 0 with
      | none =>
        rw [List.get?_eq_none] at hv
        omega
      | some v0 => exact ⟨v0, rfl⟩
    have hfirst : first = specIdx posO rowsO 0 v0 := by
      have h0 := hget 0 (0, v0) (by rw [List.enum_get?, hv0]; rfl)
      simpa using h0
    have hrest : ∀ dis ∈ rest, ∃ j vj, vs.get? (j + 1) = some vj ∧
        dis = specIdx posO rowsO (j + 1) vj := by
      intro dis hdis
      obtain ⟨j, hj⟩ := List.mem_iff_get?.mp hdis
      have hjlt : j + 1 < vs.length := by
        have h1 := (List.get?_eq_some.mp hj).1
        rw [← hlen2]
        simp only [List.length_cons]
        omega
      obtain ⟨vj, hvj⟩ : ∃ vj, vs.get? (j + 1) = some vj := by
        cases hv : vs.get? (j + 1) with
        | none =>
          rw [List.get?_eq_none] at hv
          omega
        | some vj => exact ⟨vj, rfl⟩
      have h1 := hget (j + 1) (j + 1, vj) (by rw [List.enum_get?, hvj]; rfl)
      have hj1 : (first :: rest).get? (j + 1) = some dis := by simpa using hj
      rw [hj1] at h1
      exact ⟨j, vj, hvj, Option.some.inj h1⟩
    have hrest2 : ∀ j vj, vs.get? (j + 1) = some vj →
        rest.get? j = some (specIdx posO rowsO (j + 1) vj) := by
      intro j vj hvj
      have h1 := hget (j + 1) (j + 1, vj) (by rw [List.enum_get?, hvj]; rfl)
      simpa using h1
    have hBack : ∀ p : Nat × List String, rowsO.get? p.1 = some p.2 →
        (joinAttrValues posO p.2).get? 0 = some v0 →
        rest.all (fun dis => decide (p.1 ∈ dis)) = true →
        joinAttrValues posO p.2 = vs := by
      intro p hpget h1 h2
      apply List.ext_get?
      intro j
      cases j with
      | zero => rw [h1, hv0]
      | succ j =>
        cases hvj : vs.get? (j + 1) with
        | none =>
          rw [List.get?_eq_none] at hvj
          rw [List.get?_eq_none]
          have hplen := hrows p.2 (List.get?_mem hpget)
          omega
        | some vj =>
          have hr := hrest2 j vj hvj
          have hdis : specIdx posO rowsO (j + 1) vj ∈ rest := List.get?_mem hr
          have hmemb := (List.all_eq_true.mp h2) _ hdis
          have hmem : p.1 ∈ specIdx posO rowsO (j + 1) vj :=
            of_decide_eq_true hmemb
          obtain ⟨row', hrow', hval'⟩ := mem_specIdx.mp hmem
          rw [hpget] at hrow'
          rw [← Option.some.inj hrow'] at hval'
          exact hval'
    have hres : rest.foldl (fun res dis => res.filter (fun i => i ∈ dis)) first =
        (rowsO.enum.filter
          (fun p => joinAttrValues posO p.2 = vs)).map (fun p => p.1) := by
      rw [foldl_inter, hfirst]
      unfold specIdx
      rw [map_filter_comm, List.filter_filter]
      apply congrArg
      apply List.filter_congr
      intro p hp
      have hpget := List.mem_enum_iff_get?.mp hp
      by_cases hm : joinAttrValues posO p.2 = vs
      · have h1 : (joinAttrValues posO p.2).get? 0 = some v0 := by
          rw [hm]
          exact hv0
        have h2 : rest.all (fun dis => decide (p.1 ∈ dis)) = true := by
          rw [List.all_eq_true]
          intro dis hdis
          obtain ⟨j, vj, hvj, hdis'⟩ := hrest dis hdis
          rw [hdis']
          exact decide_eq_true (mem_specIdx.mpr
            ⟨p.2, hpget, by rw [hm]; exact hvj⟩)
        simp [hm, h1, h2]
        rw [← List.get?_eq_getElem?]
        exact hv0
      · cases hB : (decide ((joinAttrValues posO p.2).get? 0 = some v0)) with
        | false => simp [hm, hB]
        | true =>
          have h1 := of_decide_eq_true hB
          cases hQ : rest.all (fun dis => decide (p.1 ∈ dis)) with
          | false => simp [hm, hB, hQ]
          | true => exact absurd (hBack p hpget h1 hQ) hm
    show (if (rest.foldl (fun res dis => res.filter (fun i => i ∈ dis))
        first).isEmpty = true then some none
      else ((rest.foldl (fun res dis => res.filter (fun i => i ∈ dis))
        first).mapM (fun i => other.data.get? i)).map some) = _
    rw [hres, hdata]
    cases hF : rowsO.filter (fun r => joinAttrValues posO r = vs) with
    | nil =>
      have hbase : rowsO.enum.filter
          (fun p => joinAttrValues posO p.2 = vs) = [] := by
        have h2 := enumFrom_filter_snd
          (fun r => decide (joinAttrValues posO r = vs)) rowsO 0
        cases hb : rowsO.enum.filter
            (fun p => joinAttrValues posO p.2 = vs) with
        | nil => rfl
        | cons a l =>
          have hb2 : (rowsO.enumFrom 0).filter
              (fun p => decide (joinAttrValues posO p.2 = vs)) = a :: l := hb
          rw [hb2, hF] at h2
          exact absurd h2 (by simp)
      rw [hbase]
      simp
    | cons f fs =>
      have hbase : rowsO.enum.filter
          (fun p => joinAttrValues posO p.2 = vs) ≠ [] := by
        intro hb
        have h2 := enumFrom_filter_snd
          (fun r => decide (joinAttrValues posO r = vs)) rowsO 0
        have hb2 : (rowsO.enumFrom 0).filter
            (fun p => decide (joinAttrValues posO p.2 = vs)) = [] := hb
        rw [hb2, hF] at h2
        exact absurd h2 (by simp)
      have hmapM2 : (((rowsO.enum.filter
          (fun p => joinAttrValues posO p.2 = vs)).map
            (fun p => p.1)).mapM (fun i => rowsO.get? i)) =
          some (rowsO.filter (fun r => joinAttrValues posO r = vs)) :=
        mapM_get_enumFrom (fun r => decide (joinAttrValues posO r = vs))
          rowsO rowsO 0 (fun j x h => by simpa using h)
      rw [if_neg (fun h => hbase (List.map_eq_nil.mp (List.isEmpty_iff.mp h)))]
      rw [hmapM2, hF]
      simp

/-- Generic accumulation lemma for the run fold: outputs collected from a
non-empty accumulator are the outputs from an empty one, prepended. -/
theorem foldOut_acc {σ α β : Type} (g : σ → α → Option (σ × List β)) :
    ∀ (xs : List α) (st : σ) (acc0 : List β),
    List.foldlM (fun acc data => (g acc.1 data).map (fun r => (r.1, acc.2 ++ r.2)))
      (st, acc0) xs =
    (List.foldlM (fun acc data => (g acc.1 data).map (fun r => (r.1, acc.2 ++ r.2)))
      (st, ([] : List β)) xs).map (fun r => (r.1, acc0 ++ r.2)) := by
  intro xs
  induction xs with
  | nil =>
    intro st acc0
    show some (st, acc0) = some (st, acc0 ++ [])
    rw [List.append_nil]
  | cons x xs ih =>
    intro st acc0
    rw [List.foldlM_cons, List.foldlM_cons]
    show ((g st x).map (fun r => (r.1, acc0 ++ r.2)) >>= fun b =>
        List.foldlM (fun acc data =>
          (g acc.1 data).map (fun r => (r.1, acc.2 ++ r.2))) b xs) =
      (((g st x).map (fun r => (r.1, ([] : List β) ++ r.2)) >>= fun b =>
        List.foldlM (fun acc data =>
          (g acc.1 data).map (fun r => (r.1, acc.2 ++ r.2))) b xs)).map
        (fun r => (r.1, acc0 ++ r.2))
    cases hs : g st x with
    | none => rfl
    | some r =>
      show List.foldlM (fun acc data =>
          (g acc.1 data).map (fun r => (r.1, acc.2 ++ r.2))) (r.1, acc0 ++ r.2) xs =
        (List.foldlM (fun acc data =>
          (g acc.1 data).map (fun r => (r.1, acc.2 ++ r.2))) (r.1, r.2) xs).map
          (fun r => (r.1, acc0 ++ r.2))
      rw [ih r.1 (acc0 ++ r.2), ih r.1 r.2]
      cases hrest : List.foldlM (fun acc data =>
          (g acc.1 data).map (fun r => (r.1, acc.2 ++ r.2)))
          (r.1, ([] : List β)) xs with
      | none => rfl
      | some r2 =>
        show some (r2.1, (acc0 ++ r.2) ++ r2.2) = some (r2.1, acc0 ++ (r.2 ++ r2.2))
        rw [List.append_assoc]

/-- Unfolding one step of a run from a state. -/
theorem joinSteps_cons (op : JoinOperator) (st : JoinState) (x : List String)
    (xs : List (List String)) :
    joinSteps op st (x :: xs) = (joinStep op st x).bind
      (fun r => (joinSteps op r.1 xs).map (fun r2 => (r2.1, r.2 ++ r2.2))) := by
  unfold joinSteps
  rw [List.foldlM_cons]
  show ((joinStep op st x).map (fun r => (r.1, ([] : List (List String)) ++ r.2))
      >>= fun b => List.foldlM (fun acc data =>
        (joinStep op acc.1 data).map (fun r => (r.1, acc.2 ++ r.2))) b xs) = _
  cases hs : joinStep op st x with
  | none => rfl
  | some r =>
    show List.foldlM (fun acc data =>
        (joinStep op acc.1 data).map (fun r => (r.1, acc.2 ++ r.2)))
        (r.1, r.2) xs = _
    rw [foldOut_acc (joinStep op) xs r.1 r.2]
    rfl

/-- The whole run is a run from the initial state. -/
theorem joinRun_eq_steps (op : JoinOperator) (inputs : List (List String)) :
    joinRun op inputs = joinSteps op (JoinState.init op) inputs := rfl

/-- Multisets of appended lists add. -/
theorem msOfList_append {α : Type} (a b : List α) :
    Multiset.ofList (a ++ b) = Multiset.ofList a + Multiset.ofList b := rfl

/-- Multisets of cons lists add a singleton. -/
theorem msOfList_cons {α : Type} (x : α) (l : List α) :
    Multiset.ofList (x :: l) = Multiset.ofList [x] + Multiset.ofList l := rfl

/-- Matches with no left rows. -/
theorem joinMatches_nil_left (op : JoinOperator) (lh rh : List String)
    (rds : List (List String)) : joinMatches op lh rh [] rds = [] := rfl

/-- Matches of a leading left row come first. -/
theorem joinMatches_cons_left (op : JoinOperator) (lh rh : List String)
    (ld : List String) (lds rds : List (List String)) :
    joinMatches op lh rh (ld :: lds) rds =
      ((rds.filter (fun rd => joinAttrValues (rightPositions op rh) rd =
        joinAttrValues (leftPositions op lh) ld)).map
          (fun rd => op.node_id :: (ld ++ rd))) ++ joinMatches op lh rh lds rds :=
  rfl

/-- Matches with no right rows. -/
theorem joinMatches_nil_right (op : JoinOperator) (lh rh : List String)
    (lds : List (List String)) : joinMatches op lh rh lds [] = [] := by
  induction lds with
  | nil => rfl
  | cons ld lds ih => rw [joinMatches_cons_left, ih]; rfl

/-- Matches split over an append of left histories. -/
theorem joinMatches_append_left (op : JoinOperator) (lh rh : List String)
    (lds1 lds2 rds : List (List String)) :
    joinMatches op lh rh (lds1 ++ lds2) rds =
      joinMatches op lh rh lds1 rds ++ joinMatches op lh rh lds2 rds := by
  unfold joinMatches
  rw [List.map_append, List.flatten_append]

/-- Matches of a single left row. -/
theorem joinMatches_single (op : JoinOperator) (lh rh : List String)
    (ld : List String) (rds : List (List String)) :
    joinMatches op lh rh [ld] rds =
      (rds.filter (fun rd => joinAttrValues (rightPositions op rh) rd =
        joinAttrValues (leftPositions op lh) ld)).map
          (fun rd => op.node_id :: (ld ++ rd)) := by
  rw [joinMatches_cons_left, joinMatches_nil_left, List.append_nil]

/-- As multisets, matches split over an append of right histories. -/
theorem joinMatches_append_right_ms (op : JoinOperator) (lh rh : List String)
    (lds rds1 rds2 : List (List String)) :
    Multiset.ofList (joinMatches op lh rh lds (rds1 ++ rds2)) =
      Multiset.ofList (joinMatches op lh rh lds rds1) +
        Multiset.ofList (joinMatches op lh rh lds rds2) := by
  induction lds with
  | nil => rfl
  | cons ld lds ih =>
    rw [joinMatches_cons_left, joinMatches_cons_left, joinMatches_cons_left,
      List.filter_append, List.map_append, msOfList_append, msOfList_append,
      msOfList_append, msOfList_append, ih]
    abel

/-- As multisets, matches of a leading right row separate out. -/
theorem joinMatches_cons_right_ms (op : JoinOperator) (lh rh : List String)
    (lds : List (List String)) (rd : List String) (rds : List (List String)) :
    Multiset.ofList (joinMatches op lh rh lds (rd :: rds)) =
      Multiset.ofList ((lds.filter (fun ld =>
        joinAttrValues (rightPositions op rh) rd =
          joinAttrValues (leftPositions op lh) ld)).map
            (fun ld => op.node_id :: (ld ++ rd))) +
      Multiset.ofList (joinMatches op lh rh lds rds) := by
  induction lds with
  | nil => rfl
  | cons ld lds ih =>
    rw [joinMatches_cons_left, joinMatches_cons_left, msOfList_append,
      msOfList_append, ih, List.filter_cons, List.filter_cons]
    by_cases h : joinAttrValues (rightPositions op rh) rd =
        joinAttrValues (leftPositions op lh) ld
    · rw [if_pos (by simp [h]), if_pos (by simp [h])]
      simp only [List.map_cons, ← Multiset.cons_coe, ← Multiset.singleton_add]
      abel
    · rw [if_neg (by simp [h]), if_neg (by simp [h])]
      abel

/-- Filtering on an equality may test it in either orientation. -/
theorem filter_flip (l : List (List String))
    (f g : List String → List String) :
    l.filter (fun x => f x = g x) = l.filter (fun x => g x = f x) := by
  apply List.filter_congr
  intro x _
  exact decide_eq_decide.mpr eq_comm

/-- A left data tuple in the both-headers phase: stored on the left, joined
against all stored right rows, emitting exactly the matches. -/
theorem stepLeftData (op : JoinOperator) (lh rh : List String)
    (hkeq : (rightPositions op rh).length = (leftPositions op lh).length)
    (hkpos : 0 < (leftPositions op lh).length)
    (hkle : (leftPositions op lh).length ≤ op.left_right_join_attr_pairs.length)
    (st : JoinState) (ldsDone rdsDone : List (List String))
    (hst : StateBoth op lh rh st ldsDone rdsDone)
    (ld : List String) (hld : ld.length = lh.length)
    (hlenR : ∀ x ∈ rdsDone, x.length = rh.length) :
    ∃ st', joinStep op st (op.left_node_id :: ld) = some (st',
      (rdsDone.filter (fun rd => joinAttrValues (rightPositions op rh) rd =
        joinAttrValues (leftPositions op lh) ld)).map
          (fun rd => op.node_id :: (ld ++ rd))) ∧
      StateBoth op lh rh st' (ldsDone ++ [ld]) rdsDone := by
  obtain ⟨hidxL, hidxR, hokL, hokR⟩ := hst
  have hvl : (joinAttrValues (leftPositions op lh) ld).length =
      (leftPositions op lh).length :=
    joinAttrValues_length _ _ (joinPositions_nodup _ _)
      (by rw [hld]; exact joinPositions_lt _ _)
  obtain ⟨jd', hadd, hok'⟩ := JDOK_add hokL ld (by rw [hvl]; exact hkle)
  have hrows : ∀ r ∈ rdsDone,
      (joinAttrValues (rightPositions op rh) r).length =
        (joinAttrValues (leftPositions op lh) ld).length := by
    intro r hr
    rw [hvl, ← hkeq]
    exact joinAttrValues_length _ _ (joinPositions_nodup _ _)
      (by rw [hlenR r hr]; exact joinPositions_lt _ _)
  have hprobe := return_values_char hokR
    (joinAttrValues (leftPositions op lh) ld)
    (by rw [hvl]; exact hkpos) (by rw [hvl]; exact hkle) hrows
  have hempty : ¬ ((leftPositions op lh).isEmpty = true) := by
    intro h
    rw [List.isEmpty_iff.mp h] at hkpos
    simp at hkpos
  refine ⟨{ st with left_join_data := jd' }, ?_, hidxL, hidxR, hok', hokR⟩
  show joinStep op st (op.left_node_id :: ld) = _
  simp only [joinStep, List.get?_cons_zero, Option.bind_eq_bind,
    Option.some_bind, List.drop_succ_cons, List.drop_zero]
  rw [if_pos trivial, hidxL]
  rw [if_neg hempty]
  simp only [process_data_for_one_join_side, Option.bind_eq_bind]
  rw [hadd]
  simp only [Option.some_bind]
  rw [hprobe]
  simp only [Option.some_bind]
  cases hFl : rdsDone.filter
      (fun rd => joinAttrValues (rightPositions op rh) rd =
        joinAttrValues (leftPositions op lh) ld) with
  | nil => simp
  | cons f fs => simp

/-- A right data tuple in the both-headers phase: stored on the right, joined
against all stored left rows, emitting exactly the matches. -/
theorem stepRightData (op : JoinOperator) (lh rh : List String)
    (hne : op.left_node_id ≠ op.right_node_id)
    (hkeq : (rightPositions op rh).length = (leftPositions op lh).length)
    (hkpos : 0 < (leftPositions op lh).length)
    (hkle : (leftPositions op lh).length ≤ op.left_right_join_attr_pairs.length)
    (st : JoinState) (ldsDone rdsDone : List (List String))
    (hst : StateBoth op lh rh st ldsDone rdsDone)
    (rd : List String) (hrd : rd.length = rh.length)
    (hlenL : ∀ x ∈ ldsDone, x.length = lh.length) :
    ∃ st', joinStep op st (op.right_node_id :: rd) = some (st',
      (ldsDone.filter (fun x => joinAttrValues (rightPositions op rh) rd =
        joinAttrValues (leftPositions op lh) x)).map
          (fun x => op.node_id :: (x ++ rd))) ∧
      StateBoth op lh rh st' ldsDone (rdsDone ++ [rd]) := by
  obtain ⟨hidxL, hidxR, hokL, hokR⟩ := hst
  have hvr : (joinAttrValues (rightPositions op rh) rd).length =
      (rightPositions op rh).length :=
    joinAttrValues_length _ _ (joinPositions_nodup _ _)
      (by rw [hrd]; exact joinPositions_lt _ _)
  obtain ⟨jd', hadd, hok'⟩ := JDOK_add hokR rd
    (by rw [hvr, hkeq]; exact hkle)
  have hrows : ∀ r ∈ ldsDone,
      (joinAttrValues (leftPositions op lh) r).length =
        (joinAttrValues (rightPositions op rh) rd).length := by
    intro r hr
    rw [hvr, hkeq]
    exact joinAttrValues_length _ _ (joinPositions_nodup _ _)
      (by rw [hlenL r hr]; exact joinPositions_lt _ _)
  have hprobe := return_values_char hokL
    (joinAttrValues (rightPositions op rh) rd)
    (by rw [hvr, hkeq]; exact hkpos) (by rw [hvr, hkeq]; exact hkle) hrows
  have hempty : ¬ ((rightPositions op rh).isEmpty = true) := by
    intro h
    rw [List.isEmpty_iff.mp h] at hkeq
    rw [List.length_nil] at hkeq
    omega
  refine ⟨{ st with right_join_data := jd' }, ?_, hidxL, hidxR, hokL, hok'⟩
  show joinStep op st (op.right_node_id :: rd) = _
  simp only [joinStep, List.get?_cons_zero, Option.bind_eq_bind,
    Option.some_bind, List.drop_succ_cons, List.drop_zero]
  rw [if_neg (fun h => hne h.symm)]
  rw [if_pos trivial, hidxR]
  rw [if_neg hempty]
  simp only [process_data_for_one_join_side, Option.bind_eq_bind]
  rw [hadd]
  simp only [Option.some_bind]
  rw [hprobe]
  simp only [Option.some_bind]
  rw [filter_flip ldsDone (fun x => joinAttrValues (leftPositions op lh) x)
    (fun _ => joinAttrValues (rightPositions op rh) rd)]
  cases hFl : ldsDone.filter
      (fun x => joinAttrValues (rightPositions op rh) rd =
        joinAttrValues (leftPositions op lh) x) with
  | nil => simp
  | cons f fs => simp

/-- A header that yields at least one join position is non-empty. -/
theorem header_ne_nil {attrs h : List String}
    (hp : 0 < (joinPositions attrs h).length) : h ≠ [] := by
  intro he
  rw [he] at hp
  simp [joinPositions] at hp

/-- A fresh `JoinData` satisfies the invariant with empty positions. -/
theorem JDOK_new_plain (n : Nat) : JDOK n [] (JoinData.new n) [] :=
  JDOK_new n []

/-- Probing a fresh `JoinData` (no stored rows) reports no match. -/
theorem probe_new (n : Nat) (vs : List String) (hkpos : 0 < vs.length)
    (hkle : vs.length ≤ n) :
    (JoinData.new n).return_values_if_match vs = some none := by
  have h := return_values_char (JDOK_new_plain n) vs hkpos hkle
    (fun r hr => absurd hr (List.not_mem_nil r))
  simpa using h

/-- A left data tuple before the right header: stored, probing the empty
right store, emitting nothing. -/
theorem stepLeftDataL (op : JoinOperator) (lh : List String)
    (hkpos : 0 < (leftPositions op lh).length)
    (hkle : (leftPositions op lh).length ≤ op.left_right_join_attr_pairs.length)
    (st : JoinState) (ldsDone : List (List String))
    (hst : StateL op lh st ldsDone)
    (ld : List String) (hld : ld.length = lh.length) :
    ∃ st', joinStep op st (op.left_node_id :: ld) = some (st', []) ∧
      StateL op lh st' (ldsDone ++ [ld]) := by
  obtain ⟨hnL, hnR, hidxL, hidxR, hokL, hjdR⟩ := hst
  have hvl : (joinAttrValues (leftPositions op lh) ld).length =
      (leftPositions op lh).length :=
    joinAttrValues_length _ _ (joinPositions_nodup _ _)
      (by rw [hld]; exact joinPositions_lt _ _)
  obtain ⟨jd', hadd, hok'⟩ := JDOK_add hokL ld (by rw [hvl]; exact hkle)
  have hprobe : st.right_join_data.return_values_if_match
      (joinAttrValues (leftPositions op lh) ld) = some none := by
    rw [hjdR]
    exact probe_new _ _ (by rw [hvl]; exact hkpos) (by rw [hvl]; exact hkle)
  have hempty : ¬ ((leftPositions op lh).isEmpty = true) := by
    intro h
    rw [List.isEmpty_iff.mp h] at hkpos
    simp at hkpos
  refine ⟨{ st with left_join_data := jd' }, ?_, hnL, hnR, hidxL, hidxR,
    hok', hjdR⟩
  show joinStep op st (op.left_node_id :: ld) = _
  simp only [joinStep, List.get?_cons_zero, Option.bind_eq_bind,
    Option.some_bind, List.drop_succ_cons, List.drop_zero]
  rw [if_pos trivial, hidxL]
  rw [if_neg hempty]
  simp only [process_data_for_one_join_side, Option.bind_eq_bind]
  rw [hadd]
  simp only [Option.some_bind]
  rw [hprobe]
  simp only [Option.some_bind]

/-- A right data tuple before the left header: stored, probing the empty
left store, emitting nothing. -/
theorem stepRightDataR (op : JoinOperator) (lh rh : List String)
    (hne : op.left_node_id ≠ op.right_node_id)
    (hkeq : (rightPositions op rh).length = (leftPositions op lh).length)
    (hkpos : 0 < (leftPositions op lh).length)
    (hkle : (leftPositions op lh).length ≤ op.left_right_join_attr_pairs.length)
    (st : JoinState) (rdsDone : List (List String))
    (hst : StateR op rh st rdsDone)
    (rd : List String) (hrd : rd.length = rh.length) :
    ∃ st', joinStep op st (op.right_node_id :: rd) = some (st', []) ∧
      StateR op rh st' (rdsDone ++ [rd]) := by
  obtain ⟨hnL, hnR, hidxL, hidxR, hjdL, hokR⟩ := hst
  have hvr : (joinAttrValues (rightPositions op rh) rd).length =
      (rightPositions op rh).length :=
    joinAttrValues_length _ _ (joinPositions_nodup _ _)
      (by rw [hrd]; exact joinPositions_lt _ _)
  obtain ⟨jd', hadd, hok'⟩ := JDOK_add hokR rd
    (by rw [hvr, hkeq]; exact hkle)
  have hprobe : st.left_join_data.return_values_if_match
      (joinAttrValues (rightPositions op rh) rd) = some none := by
    rw [hjdL]
    exact probe_new _ _ (by rw [hvr, hkeq]; exact hkpos)
      (by rw [hvr, hkeq]; exact hkle)
  have hempty : ¬ ((rightPositions op rh).isEmpty = true) := by
    intro h
    rw [List.isEmpty_iff.mp h] at hkeq
    rw [List.length_nil] at hkeq
    omega
  refine ⟨{ st with right_join_data := jd' }, ?_, hnL, hnR, hidxL, hidxR,
    hjdL, hok'⟩
  show joinStep op st (op.right_node_id :: rd) = _
  simp only [joinStep, List.get?_cons_zero, Option.bind_eq_bind,
    Option.some_bind, List.drop_succ_cons, List.drop_zero]
  rw [if_neg (fun h => hne h.symm)]
  rw [if_pos trivial, hidxR]
  rw [if_neg hempty]
  simp only [process_data_for_one_join_side, Option.bind_eq_bind]
  rw [hadd]
  simp only [Option.some_bind]
  rw [hprobe]
  simp only [Option.some_bind]

/-- The left header from the initial state: names and positions installed,
nothing emitted (right names still empty). -/
theorem stepLeftHeaderInit (op : JoinOperator) (lh : List String) :
    ∃ st', joinStep op (JoinState.init op) (op.left_node_id :: lh) =
      some (st', []) ∧ StateL op lh st' [] := by
  refine ⟨⟨lh, [], leftPositions op lh, [],
    (JoinData.new
      op.left_right_join_attr_pairs.length).set_join_attribute_positions
        (leftPositions op lh),
    JoinData.new op.left_right_join_attr_pairs.length⟩, ?_,
    rfl, rfl, rfl, rfl, JDOK_new _ _, rfl⟩
  show joinStep op (JoinState.init op) (op.left_node_id :: lh) = _
  simp only [joinStep, JoinState.init, List.get?_cons_zero, Option.bind_eq_bind,
    Option.some_bind, List.drop_succ_cons, List.drop_zero]
  rw [if_pos trivial]
  rw [if_pos (show ([] : List Nat).isEmpty = true from rfl)]
  rw [if_neg (fun h : ([] : List String) ≠ [] => h rfl)]
  simp only [List.nil_append]
  rfl

/-- The right header from the initial state: names (alias-prefixed) and
positions installed, nothing emitted (left names still empty). -/
theorem stepRightHeaderInit (op : JoinOperator) (rh : List String)
    (hne : op.left_node_id ≠ op.right_node_id) :
    ∃ st', joinStep op (JoinState.init op) (op.right_node_id :: rh) =
      some (st', []) ∧ StateR op rh st' [] := by
  refine ⟨⟨[], rh.map (fun name => op.rightNodeAttrPref ++ name), [],
    rightPositions op rh,
    JoinData.new op.left_right_join_attr_pairs.length,
    (JoinData.new
      op.left_right_join_attr_pairs.length).set_join_attribute_positions
        (rightPositions op rh)⟩, ?_,
    rfl, rfl, rfl, rfl, rfl, JDOK_new _ _⟩
  show joinStep op (JoinState.init op) (op.right_node_id :: rh) = _
  simp only [joinStep, JoinState.init, List.get?_cons_zero, Option.bind_eq_bind,
    Option.some_bind, List.drop_succ_cons, List.drop_zero]
  rw [if_neg (fun h => hne h.symm)]
  rw [if_pos trivial]
  rw [if_pos (show ([] : List Nat).isEmpty = true from rfl)]
  rw [if_neg (fun h : ([] : List String) ≠ [] => h rfl)]
  simp only [List.nil_append]
  rfl

/-- The right header when the left one is already processed: emits the single
all-attribute-names header tuple and completes the state. -/
theorem stepRightHeaderL (op : JoinOperator) (lh rh : List String)
    (hne : op.left_node_id ≠ op.right_node_id)
    (hkpos : 0 < (leftPositions op lh).length)
    (st : JoinState) (ldsDone : List (List String))
    (hst : StateL op lh st ldsDone) :
    ∃ st', joinStep op st (op.right_node_id :: rh) =
      some (st', [joinHeaderRow op lh rh]) ∧
      StateBoth op lh rh st' ldsDone [] := by
  have hlhne : lh ≠ [] := by
    intro he
    rw [he] at hkpos
    simp [leftPositions, joinPositions] at hkpos
  obtain ⟨hnL, hnR, hidxL, hidxR, hokL, hjdR⟩ := hst
  refine ⟨⟨lh, [], st.left_join_attribute_indices, rightPositions op rh,
    st.left_join_data,
    (JoinData.new
      op.left_right_join_attr_pairs.length).set_join_attribute_positions
        (rightPositions op rh)⟩, ?_, hidxL, rfl, hokL, JDOK_new _ _⟩
  show joinStep op st (op.right_node_id :: rh) = _
  simp only [joinStep, List.get?_cons_zero, Option.bind_eq_bind,
    Option.some_bind, List.drop_succ_cons, List.drop_zero]
  rw [if_neg (fun h => hne h.symm)]
  rw [if_pos trivial]
  rw [hidxR]
  rw [if_pos (show ([] : List Nat).isEmpty = true from rfl)]
  rw [hnL]
  rw [if_pos hlhne]
  rw [hnR, hjdR]
  simp only [List.nil_append]
  rfl

/-- The left header when the right one is already processed: emits the single
all-attribute-names header tuple and completes the state. -/
theorem stepLeftHeaderR (op : JoinOperator) (lh rh : List String)
    (hkeq : (rightPositions op rh).length = (leftPositions op lh).length)
    (hkpos : 0 < (leftPositions op lh).length)
    (st : JoinState) (rdsDone : List (List String))
    (hst : StateR op rh st rdsDone) :
    ∃ st', joinStep op st (op.left_node_id :: lh) =
      some (st', [joinHeaderRow op lh rh]) ∧
      StateBoth op lh rh st' [] rdsDone := by
  have hrhne : rh ≠ [] := by
    intro he
    rw [he] at hkeq
    simp [rightPositions, joinPositions] at hkeq
    omega
  obtain ⟨hnL, hnR, hidxL, hidxR, hjdL, hokR⟩ := hst
  refine ⟨⟨[], rh.map (fun name => op.rightNodeAttrPref ++ name),
    leftPositions op lh, st.right_join_attribute_indices,
    (JoinData.new
      op.left_right_join_attr_pairs.length).set_join_attribute_positions
        (leftPositions op lh),
    st.right_join_data⟩, ?_, rfl, hidxR, JDOK_new _ _, hokR⟩
  show joinStep op st (op.left_node_id :: lh) = _
  simp only [joinStep, List.get?_cons_zero, Option.bind_eq_bind,
    Option.some_bind, List.drop_succ_cons, List.drop_zero]
  rw [if_pos trivial]
  rw [hidxL]
  rw [if_pos (show ([] : List Nat).isEmpty = true from rfl)]
  rw [hnR]
  rw [if_pos (fun h => hrhne (List.map_eq_nil.mp h))]
  rw [hnL, hjdL]
  simp only [List.nil_append]
  rfl

/-- Any interleaving of left and right data tuples processed from a
both-headers state succeeds, and its output multiset is exactly the matches
of remaining-left against all right rows plus done-left against
remaining-right. -/
theorem bothPhase (op : JoinOperator) (lh rh : List String)
    (hne : op.left_node_id ≠ op.right_node_id)
    (hkeq : (rightPositions op rh).length = (leftPositions op lh).length)
    (hkpos : 0 < (leftPositions op lh).length)
    (hkle : (leftPositions op lh).length ≤ op.left_right_join_attr_pairs.length) :
    ∀ (A B t : List (List String)), Interleave A B t →
    ∀ (ldsRem rdsRem : List (List String)),
    A = ldsRem.map (fun ld => op.left_node_id :: ld) →
    B = rdsRem.map (fun rd => op.right_node_id :: rd) →
    (∀ ld ∈ ldsRem, ld.length = lh.length) →
    (∀ rd ∈ rdsRem, rd.length = rh.length) →
    ∀ (st : JoinState) (ldsDone rdsDone : List (List String)),
    StateBoth op lh rh st ldsDone rdsDone →
    (∀ ld ∈ ldsDone, ld.length = lh.length) →
    (∀ rd ∈ rdsDone, rd.length = rh.length) →
    ∃ st' outs, joinSteps op st t = some (st', outs) ∧
      Multiset.ofList outs =
        Multiset.ofList (joinMatches op lh rh ldsRem (rdsDone ++ rdsRem)) +
        Multiset.ofList (joinMatches op lh rh ldsDone rdsRem) := by
  intro A B t hI
  induction hI with
  | nil =>
    intro ldsRem rdsRem hA hB _ _ st ldsDone rdsDone hst _ _
    have h1 : ldsRem = [] := List.map_eq_nil.mp hA.symm
    have h2 : rdsRem = [] := List.map_eq_nil.mp hB.symm
    refine ⟨st, [], rfl, ?_⟩
    rw [h1, h2, joinMatches_nil_left, joinMatches_nil_right]
    rfl
  | @left a l r t hI' ih =>
    intro ldsRem rdsRem hA hB hlrem hrrem st ldsDone rdsDone hst hldone hrdone
    cases ldsRem with
    | nil => exact absurd hA (by simp)
    | cons ld lds' =>
      rw [List.map_cons] at hA
      injection hA with ha hl
      subst ha
      obtain ⟨st1, hstep, hst1⟩ := stepLeftData op lh rh hkeq hkpos hkle st
        ldsDone rdsDone hst ld (hlrem ld (by simp)) hrdone
      have hdl : ∀ x ∈ ldsDone ++ [ld], x.length = lh.length := by
        intro x hx
        rcases List.mem_append.mp hx with h | h
        · exact hldone x h
        · rw [List.mem_singleton.mp h]
          exact hlrem ld (by simp)
      obtain ⟨st2, outs2, hrun2, hms2⟩ := ih lds' rdsRem hl hB
        (fun x hx => hlrem x (by simp [hx])) hrrem st1 (ldsDone ++ [ld])
        rdsDone hst1 hdl hrdone
      refine ⟨st2,
        ((rdsDone.filter (fun rd => joinAttrValues (rightPositions op rh) rd =
          joinAttrValues (leftPositions op lh) ld)).map
            (fun rd => op.node_id :: (ld ++ rd))) ++ outs2, ?_, ?_⟩
      · rw [joinSteps_cons, hstep]
        show (joinSteps op st1 t).map _ = _
        rw [hrun2]
        rfl
      · rw [msOfList_append, hms2, joinMatches_cons_left, msOfList_append,
          List.filter_append, List.map_append, msOfList_append,
          joinMatches_append_left, msOfList_append, joinMatches_single]
        abel
  | @right a l r t hI' ih =>
    intro ldsRem rdsRem hA hB hlrem hrrem st ldsDone rdsDone hst hldone hrdone
    cases rdsRem with
    | nil => exact absurd hB (by simp)
    | cons rd rds' =>
      rw [List.map_cons] at hB
      injection hB with hb hr
      subst hb
      obtain ⟨st1, hstep, hst1⟩ := stepRightData op lh rh hne hkeq hkpos hkle st
        ldsDone rdsDone hst rd (hrrem rd (by simp)) hldone
      have hdr : ∀ x ∈ rdsDone ++ [rd], x.length = rh.length := by
        intro x hx
        rcases List.mem_append.mp hx with h | h
        · exact hrdone x h
        · rw [List.mem_singleton.mp h]
          exact hrrem rd (by simp)
      obtain ⟨st2, outs2, hrun2, hms2⟩ := ih ldsRem rds' hA hr hlrem
        (fun x hx => hrrem x (by simp [hx])) st1 ldsDone (rdsDone ++ [rd])
        hst1 hldone hdr
      refine ⟨st2,
        ((ldsDone.filter (fun x => joinAttrValues (rightPositions op rh) rd =
          joinAttrValues (leftPositions op lh) x)).map
            (fun x => op.node_id :: (x ++ rd))) ++ outs2, ?_, ?_⟩
      · rw [joinSteps_cons, hstep]
        show (joinSteps op st1 t).map _ = _
        rw [hrun2]
        rfl
      · rw [msOfList_append, hms2, List.append_assoc, List.singleton_append,
          joinMatches_cons_right_ms]
        abel

/-- An interleaving starting after only the left header: left data tuples
before the right header emit nothing; once the right header arrives the
single all-names header is emitted, followed by all matches. -/
theorem phaseL (op : JoinOperator) (lh rh : List String)
    (hne : op.left_node_id ≠ op.right_node_id)
    (hkeq : (rightPositions op rh).length = (leftPositions op lh).length)
    (hkpos : 0 < (leftPositions op lh).length)
    (hkle : (leftPositions op lh).length ≤ op.left_right_join_attr_pairs.length) :
    ∀ (A B t : List (List String)), Interleave A B t →
    ∀ (ldsRem rds : List (List String)),
    A = ldsRem.map (fun ld => op.left_node_id :: ld) →
    B = (op.right_node_id :: rh) ::
      rds.map (fun rd => op.right_node_id :: rd) →
    (∀ ld ∈ ldsRem, ld.length = lh.length) →
    (∀ rd ∈ rds, rd.length = rh.length) →
    ∀ (st : JoinState) (ldsDone : List (List String)),
    StateL op lh st ldsDone →
    (∀ ld ∈ ldsDone, ld.length = lh.length) →
    ∃ st' outs, joinSteps op st t = some (st', outs) ∧
      Multiset.ofList outs =
        Multiset.ofList [joinHeaderRow op lh rh] +
        Multiset.ofList (joinMatches op lh rh (ldsDone ++ ldsRem) rds) := by
  intro A B t hI
  induction hI with
  | nil =>
    intro ldsRem rds hA hB
    exact absurd hB (by simp)
  | @left a l r t hI' ih =>
    intro ldsRem rds hA hB hlrem hrrem st ldsDone hst hldone
    cases ldsRem with
    | nil => exact absurd hA (by simp)
    | cons ld lds' =>
      rw [List.map_cons] at hA
      injection hA with ha hl
      subst ha
      obtain ⟨st1, hstep, hst1⟩ := stepLeftDataL op lh hkpos hkle st
        ldsDone hst ld (hlrem ld (by simp))
      have hdl : ∀ x ∈ ldsDone ++ [ld], x.length = lh.length := by
        intro x hx
        rcases List.mem_append.mp hx with h | h
        · exact hldone x h
        · rw [List.mem_singleton.mp h]
          exact hlrem ld (by simp)
      obtain ⟨st2, outs2, hrun2, hms2⟩ := ih lds' rds hl hB
        (fun x hx => hlrem x (by simp [hx])) hrrem st1 (ldsDone ++ [ld])
        hst1 hdl
      refine ⟨st2, [] ++ outs2, ?_, ?_⟩
      · rw [joinSteps_cons, hstep]
        show (joinSteps op st1 t).map _ = _
        rw [hrun2]
        rfl
      · rw [List.nil_append, hms2, List.append_assoc, List.singleton_append]
  | @right a l r t hI' ih =>
    intro ldsRem rds hA hB hlrem hrrem st ldsDone hst hldone
    injection hB with hb hr
    subst hb
    obtain ⟨st1, hstep, hst1⟩ := stepRightHeaderL op lh rh hne hkpos st
      ldsDone hst
    obtain ⟨st2, outs2, hrun2, hms2⟩ := bothPhase op lh rh hne hkeq hkpos hkle
      l r t hI' ldsRem rds hA hr hlrem hrrem st1 ldsDone [] hst1 hldone
      (fun x hx => absurd hx (List.not_mem_nil x))
    refine ⟨st2, [joinHeaderRow op lh rh] ++ outs2, ?_, ?_⟩
    · rw [joinSteps_cons, hstep]
      show (joinSteps op st1 t).map _ = _
      rw [hrun2]
      rfl
    · rw [msOfList_append, hms2, List.nil_append, joinMatches_append_left,
        msOfList_append]
      abel

/-- An interleaving starting after only the right header: right data tuples
before the left header emit nothing; once the left header arrives the single
all-names header is emitted, followed by all matches. -/
theorem phaseR (op : JoinOperator) (lh rh : List String)
    (hne : op.left_node_id ≠ op.right_node_id)
    (hkeq : (rightPositions op rh).length = (leftPositions op lh).length)
    (hkpos : 0 < (leftPositions op lh).length)
    (hkle : (leftPositions op lh).length ≤ op.left_right_join_attr_pairs.length) :
    ∀ (A B t : List (List String)), Interleave A B t →
    ∀ (lds rdsRem : List (List String)),
    A = (op.left_node_id :: lh) ::
      lds.map (fun ld => op.left_node_id :: ld) →
    B = rdsRem.map (fun rd => op.right_node_id :: rd) →
    (∀ ld ∈ lds, ld.length = lh.length) →
    (∀ rd ∈ rdsRem, rd.length = rh.length) →
    ∀ (st : JoinState) (rdsDone : List (List String)),
    StateR op rh st rdsDone →
    (∀ rd ∈ rdsDone, rd.length = rh.length) →
    ∃ st' outs, joinSteps op st t = some (st', outs) ∧
      Multiset.ofList outs =
        Multiset.ofList [joinHeaderRow op lh rh] +
        Multiset.ofList (joinMatches op lh rh lds (rdsDone ++ rdsRem)) := by
  intro A B t hI
  induction hI with
  | nil =>
    intro lds rdsRem hA hB
    exact absurd hA (by simp)
  | @right a l r t hI' ih =>
    intro lds rdsRem hA hB hlrem hrrem st rdsDone hst hrdone
    cases rdsRem with
    | nil => exact absurd hB (by simp)
    | cons rd rds' =>
      rw [List.map_cons] at hB
      injection hB with hb hr
      subst hb
      obtain ⟨st1, hstep, hst1⟩ := stepRightDataR op lh rh hne hkeq hkpos hkle
        st rdsDone hst rd (hrrem rd (by simp))
      have hdr : ∀ x ∈ rdsDone ++ [rd], x.length = rh.length := by
        intro x hx
        rcases List.mem_append.mp hx with h | h
        · exact hrdone x h
        · rw [List.mem_singleton.mp h]
          exact hrrem rd (by simp)
      obtain ⟨st2, outs2, hrun2, hms2⟩ := ih lds rds' hA hr hlrem
        (fun x hx => hrrem x (by simp [hx])) st1 (rdsDone ++ [rd]) hst1 hdr
      refine ⟨st2, [] ++ outs2, ?_, ?_⟩
      · rw [joinSteps_cons, hstep]
        show (joinSteps op st1 t).map _ = _
        rw [hrun2]
        rfl
      · rw [List.nil_append, hms2, List.append_assoc, List.singleton_append]
  | @left a l r t hI' ih =>
    intro lds rdsRem hA hB hlrem hrrem st rdsDone hst hrdone
    injection hA with ha hl
    subst ha
    obtain ⟨st1, hstep, hst1⟩ := stepLeftHeaderR op lh rh hkeq hkpos st
      rdsDone hst
    obtain ⟨st2, outs2, hrun2, hms2⟩ := bothPhase op lh rh hne hkeq hkpos hkle
      l r t hI' lds rdsRem hl hB hlrem hrrem st1 [] rdsDone hst1
      (fun x hx => absurd hx (List.not_mem_nil x)) hrdone
    refine ⟨st2, [joinHeaderRow op lh rh] ++ outs2, ?_, ?_⟩
    · rw [joinSteps_cons, hstep]
      show (joinSteps op st1 t).map _ = _
      rw [hrun2]
      rfl
    · rw [msOfList_append, hms2, joinMatches_nil_left]
      have hz : Multiset.ofList ([] : List (List String)) = 0 := rfl
      rw [hz]
      abel

/-- Full-run characterization: a run over any interleaving of two headered
histories (wellformed join configuration, full-length tuples) succeeds and
emits, as a multiset, exactly the all-names header plus the inner-join
matches — independently of the interleaving. -/
theorem joinRun_char (op : JoinOperator) (lh rh : List String)
    (lds rds : List (List String))
    (hne : op.left_node_id ≠ op.right_node_id)
    (hkeq : (rightPositions op rh).length = (leftPositions op lh).length)
    (hkpos : 0 < (leftPositions op lh).length)
    (hkle : (leftPositions op lh).length ≤ op.left_right_join_attr_pairs.length)
    (hlensL : ∀ ld ∈ lds, ld.length = lh.length)
    (hlensR : ∀ rd ∈ rds, rd.length = rh.length) :
    ∀ t, Interleave
      ((op.left_node_id :: lh) :: lds.map (fun ld => op.left_node_id :: ld))
      ((op.right_node_id :: rh) :: rds.map (fun rd => op.right_node_id :: rd))
      t →
    ∃ st outs, joinRun op t = some (st, outs) ∧
      Multiset.ofList outs =
        Multiset.ofList (joinHeaderRow op lh rh ::
          joinMatches op lh rh lds rds) := by
  intro t hI
  cases hI with
  | left hI' =>
    obtain ⟨st1, hstep, hst1⟩ := stepLeftHeaderInit op lh
    obtain ⟨st2, outs2, hrun2, hms2⟩ := phaseL op lh rh hne hkeq hkpos hkle
      _ _ _ hI' lds rds rfl rfl hlensL hlensR st1 [] hst1
      (fun x hx => absurd hx (List.not_mem_nil x))
    simp only [List.nil_append] at hms2
    refine ⟨st2, [] ++ outs2, ?_, ?_⟩
    · rw [joinRun_eq_steps, joinSteps_cons, hstep]
      show (joinSteps op st1 _).map _ = _
      rw [hrun2]
      rfl
    · rw [List.nil_append, hms2]
      have hz : Multiset.ofList (joinHeaderRow op lh rh ::
          joinMatches op lh rh lds rds) =
          Multiset.ofList [joinHeaderRow op lh rh] +
          Multiset.ofList (joinMatches op lh rh lds rds) := rfl
      rw [hz]
  | right hI' =>
    obtain ⟨st1, hstep, hst1⟩ := stepRightHeaderInit op rh hne
    obtain ⟨st2, outs2, hrun2, hms2⟩ := phaseR op lh rh hne hkeq hkpos hkle
      _ _ _ hI' lds rds rfl rfl hlensL hlensR st1 [] hst1
      (fun x hx => absurd hx (List.not_mem_nil x))
    simp only [List.nil_append] at hms2
    refine ⟨st2, [] ++ outs2, ?_, ?_⟩
    · rw [joinRun_eq_steps, joinSteps_cons, hstep]
      show (joinSteps op st1 _).map _ = _
      rw [hrun2]
      rfl
    · rw [List.nil_append, hms2]
      have hz2 : Multiset.ofList (joinHeaderRow op lh rh ::
          joinMatches op lh rh lds rds) =
          Multiset.ofList [joinHeaderRow op lh rh] +
          Multiset.ofList (joinMatches op lh rh lds rds) := rfl
      rw [hz2]

/-- C3, amended. For a wellformed join configuration — distinct left and
right producer node ids, headers yielding equally many (at least one, at most
one per attribute pair) join positions on both sides, and full-length data
tuples — any two interleavings of the same headered left and right histories
yield runs that succeed and emit the same multiset of tuples. -/
theorem claim_C3_amended (op : JoinOperator) (lh rh : List String)
    (lds rds t1 t2 : List (List String))
    (st1 st2 : JoinState) (out1 out2 : List (List String))
    (hne : op.left_node_id ≠ op.right_node_id)
    (hkeq : (rightPositions op rh).length = (leftPositions op lh).length)
    (hkpos : 0 < (leftPositions op lh).length)
    (hkle : (leftPositions op lh).length ≤ op.left_right_join_attr_pairs.length)
    (hlensL : ∀ ld ∈ lds, ld.length = lh.length)
    (hlensR : ∀ rd ∈ rds, rd.length = rh.length)
    (hI1 : Interleave
      ((op.left_node_id :: lh) :: lds.map (fun ld => op.left_node_id :: ld))
      ((op.right_node_id :: rh) :: rds.map (fun rd => op.right_node_id :: rd))
      t1)
    (hI2 : Interleave
      ((op.left_node_id :: lh) :: lds.map (fun ld => op.left_node_id :: ld))
      ((op.right_node_id :: rh) :: rds.map (fun rd => op.right_node_id :: rd))
      t2)
    (hr1 : joinRun op t1 = some (st1, out1))
    (hr2 : joinRun op t2 = some (st2, out2)) :
    Multiset.ofList out1 = Multiset.ofList out2 := by
  obtain ⟨s1, o1, hrun1, hm1⟩ := joinRun_char op lh rh lds rds hne hkeq hkpos
    hkle hlensL hlensR t1 hI1
  obtain ⟨s2, o2, hrun2, hm2⟩ := joinRun_char op lh rh lds rds hne hkeq hkpos
    hkle hlensL hlensR t2 hI2
  rw [hr1] at hrun1
  rw [hr2] at hrun2
  have h1 : out1 = o1 := congrArg Prod.snd (Option.some.inj hrun1)
  have h2 : out2 = o2 := congrArg Prod.snd (Option.some.inj hrun2)
  rw [h1, h2, hm1, hm2]

/-- C3 amended, witnessed on a concrete wellformed join: both interleavings
of one left and one right data tuple yield the same output multiset. -/
theorem claim_C3_witness :
    Multiset.ofList [["J", "a", "j_b"], ["J", "1", "1"]] =
      Multiset.ofList [["J", "a", "j_b"], ["J", "1", "1"]] :=
  claim_C3_amended ⟨"J", "L", "R", [("a", "b")], "j_"⟩ ["a"] ["b"]
    [["1"]] [["1"]]
    [["L", "a"], ["R", "b"], ["L", "1"], ["R", "1"]]
    [["L", "a"], ["R", "b"], ["R", "1"], ["L", "1"]]
    ⟨["a"], [], [0], [0], ⟨[0], [["1"]], [[("1", [0])]]⟩,
      ⟨[0], [["1"]], [[("1", [0])]]⟩⟩
    ⟨["a"], [], [0], [0], ⟨[0], [["1"]], [[("1", [0])]]⟩,
      ⟨[0], [["1"]], [[("1", [0])]]⟩⟩
    [["J", "a", "j_b"], ["J", "1", "1"]]
    [["J", "a", "j_b"], ["J", "1", "1"]]
    (by decide) (by decide) (by decide) (by decide) (by decide) (by decide)
    (.left (.right (.left (.right .nil))))
    (.left (.right (.right (.left .nil))))
    (by decide) (by decide)
